import Mathlib

/-!
# HAR classifier core (`sw/example/demo_har_ahrs/har.c`)

A shallow embedding of the sample ring buffer, the four tensor kernels and the
inference pipeline of `har.c`, followed by the properties proved about them.

Modelling conventions.

* C `int` values are integers (`Int`).  Every function with a loop is given twice: with
  exact integer arithmetic and counted loops, and (`layer_conv1d_i32`,
  `layer_maxpool1d_i32`, `layer_relu_i32`, `layer_dense_i32`, `linearize_buffer_i32`,
  `run_har_inference_i32`) with 32-bit two's-complement arithmetic, the loop counter and
  every index expression being reduced by `wrap32` (signed overflow is undefined behaviour
  in ISO C; the compiled code wraps), and the loop run with fuel.  The two agree where
  nothing overflows.
* C `float` values are elements of a carrier `α` with the operations the code uses.
  Exact arithmetic is a linearly ordered ring `α` (no rounding, no NaN, no infinities);
  the model `Flt` adds the infinities and NaN of IEEE-754 binary32, with overflow to
  infinity, and leaves only the rounding of finite results out.
* A `float*` is a total map `Int → α`; a store is `Function.update`.  Distinct
  C arrays are distinct maps (the pipeline only ever passes distinct arrays).
* `for (int c = 0; c < n; c++)` is `forUp n`; the strided loops of the
  convolution and pooling kernels, which need not terminate for `stride <= 0`,
  are `whileLoop` with explicit fuel.
* `x & 0x3F` is `Int.land x 0x3F` (two's complement, as in C).
-/

namespace Har

/-- A C array of `float`, addressed by an `int` index. -/
abbrev Arr (α : Type) := Int → α

/-- The loop `for (int c = 0; c < n; c++) st = body c st`. -/
def forUp {σ : Type} (n : Int) (body : Int → σ → σ) (init : σ) : σ :=
  (List.range n.toNat).foldl (fun st (c : Nat) => body (c : Int) st) init

/-- The loop `for (i = i0; cond i; i += stride) st = body i st`, with fuel:
`none` when the fuel runs out before the condition fails. -/
def whileLoop {σ : Type} (cond : Int → Bool) (stride : Int) (body : Int → σ → σ) :
    Nat → Int → σ → Option σ
  | 0, _, _ => none
  | fuel + 1, i, st =>
    if cond i then whileLoop cond stride body fuel (i + stride) (body i st) else some st

/-- The loop `for (int c = lo; c < hi; c++) st = body c st`. -/
def forFrom {σ : Type} (lo hi : Int) (body : Int → σ → σ) (init : σ) : σ :=
  (List.range (hi - lo).toNat).foldl (fun st (c : Nat) => body (lo + (c : Int)) st) init

/-! ## 32-bit `int` arithmetic -/

/-- The constant `INT_MAX` of `<limits.h>` for a 32-bit `int`. -/
def INT_MAX : Int := 2147483647

/-- The constant `INT_MIN` of `<limits.h>` for a 32-bit `int`. -/
def INT_MIN : Int := -2147483648

/-- The 32-bit two's-complement value of an integer: the result of an `int` operation
whose exact result is `x`. -/
def wrap32 (x : Int) : Int := (x + 2147483648) % 4294967296 - 2147483648

/-- The loop `for (i = i0; cond i; i += stride) st = body i st` with a 32-bit counter,
with fuel: `none` when the fuel runs out before the condition fails. -/
def whileLoop32 {σ : Type} (cond : Int → Bool) (stride : Int) (body : Int → σ → σ) :
    Nat → Int → σ → Option σ
  | 0, _, _ => none
  | fuel + 1, i, st =>
    if cond i then whileLoop32 cond stride body fuel (wrap32 (i + stride)) (body i st)
    else some st

/-! ## Constants (`har.h`, `har.c`) -/

def HAR_WINDOW_SIZE : Int := 64
def HAR_CHANNELS : Int := 6
def CONV_FILTERS : Int := 8
def CONV_KERNEL : Int := 4
def CONV_STRIDE : Int := 1
def CONV_OUTPUT_LEN : Int := 61
def POOL_SIZE : Int := 2
def POOL_STRIDE : Int := 2
def POOL_OUTPUT_LEN : Int := 30
def DENSE_INPUTS : Int := 240
def DENSE_OUTPUTS : Int := 3

/-- The constant `FLT_MAX` of `<float.h>`: `(2 - 2^-23) * 2^127`. -/
def FLT_MAX {α : Type} [OfNat α 340282346638528859811704183484516925440] : α :=
  340282346638528859811704183484516925440

/-! ## A model of `float` with infinities and NaN -/

/-- A `float` value: NaN, minus infinity, plus infinity, or a finite value.  Finite values
are rationals and finite results are not rounded; signed zeros are not distinguished. -/
inductive Flt where
  | nan
  | ninf
  | pinf
  | fin (x : ℚ)
  deriving DecidableEq

/-- The least magnitude that rounds to infinity in binary32: `2^128 - 2^103`. -/
def FLT_OVERFLOW : ℚ := 340282356779733661637539395458142568448

/-- The result of an operation whose exact value is `q`: infinite on overflow. -/
def Flt.round (q : ℚ) : Flt :=
  if FLT_OVERFLOW ≤ q then Flt.pinf
  else if q ≤ -FLT_OVERFLOW then Flt.ninf
  else Flt.fin q

/-- IEEE-754 addition: `inf + -inf` and every sum with a NaN are NaN. -/
def Flt.add : Flt → Flt → Flt
  | Flt.nan, _ => Flt.nan
  | _, Flt.nan => Flt.nan
  | Flt.pinf, Flt.ninf => Flt.nan
  | Flt.ninf, Flt.pinf => Flt.nan
  | Flt.pinf, _ => Flt.pinf
  | _, Flt.pinf => Flt.pinf
  | Flt.ninf, _ => Flt.ninf
  | _, Flt.ninf => Flt.ninf
  | Flt.fin a, Flt.fin b => Flt.round (a + b)

/-- The product of an infinity (plus infinity when `positive`) with `y`: `inf * 0` and
`inf * NaN` are NaN. -/
def Flt.mulInf (positive : Bool) : Flt → Flt
  | Flt.nan => Flt.nan
  | Flt.pinf => if positive then Flt.pinf else Flt.ninf
  | Flt.ninf => if positive then Flt.ninf else Flt.pinf
  | Flt.fin b =>
    if 0 < b then (if positive then Flt.pinf else Flt.ninf)
    else if b < 0 then (if positive then Flt.ninf else Flt.pinf)
    else Flt.nan

/-- IEEE-754 multiplication. -/
def Flt.mul : Flt → Flt → Flt
  | Flt.nan, _ => Flt.nan
  | _, Flt.nan => Flt.nan
  | Flt.pinf, y => Flt.mulInf true y
  | Flt.ninf, y => Flt.mulInf false y
  | x, Flt.pinf => Flt.mulInf true x
  | x, Flt.ninf => Flt.mulInf false x
  | Flt.fin a, Flt.fin b => Flt.round (a * b)

/-- IEEE-754 negation. -/
def Flt.neg : Flt → Flt
  | Flt.nan => Flt.nan
  | Flt.pinf => Flt.ninf
  | Flt.ninf => Flt.pinf
  | Flt.fin a => Flt.fin (-a)

/-- The comparison `x < y`: false when either side is NaN. -/
def Flt.blt : Flt → Flt → Bool
  | Flt.ninf, Flt.pinf => true
  | Flt.ninf, Flt.fin _ => true
  | Flt.fin _, Flt.pinf => true
  | Flt.fin a, Flt.fin b => decide (a < b)
  | _, _ => false

/-- The comparison `x <= y`: false when either side is NaN. -/
def Flt.ble : Flt → Flt → Bool
  | Flt.nan, _ => false
  | _, Flt.nan => false
  | Flt.ninf, _ => true
  | _, Flt.pinf => true
  | Flt.fin a, Flt.fin b => decide (a ≤ b)
  | _, _ => false

instance : Zero Flt := ⟨Flt.fin 0⟩

instance : Add Flt := ⟨Flt.add⟩

instance : Mul Flt := ⟨Flt.mul⟩

instance : Neg Flt := ⟨Flt.neg⟩

instance : LT Flt := ⟨fun a b => Flt.blt a b = true⟩

instance : LE Flt := ⟨fun a b => Flt.ble a b = true⟩

instance : DecidableRel (fun a b : Flt => a < b) :=
  fun a b => inferInstanceAs (Decidable (Flt.blt a b = true))

instance : DecidableRel (fun a b : Flt => a ≤ b) :=
  fun a b => inferInstanceAs (Decidable (Flt.ble a b = true))

instance : OfNat Flt 340282346638528859811704183484516925440 :=
  ⟨Flt.fin 340282346638528859811704183484516925440⟩

/-! ## Arrays and their declared lengths -/

/-- The arrays of `har.c` and `har_weights.h`. -/
inductive Buf where
  | input_buffer
  | linear_input
  | conv_output
  | pool_output
  | dense_output
  | conv_weights
  | conv_biases
  | dense_weights
  | dense_biases
  deriving DecidableEq

/-- Modelled from the spec: the length of `conv_weights`, a table of `har_weights.h`, which
is not part of the sources; the spec shapes it `[kernel_size × input_channels × filters]`. -/
def CONV_WEIGHTS_LEN : Int := CONV_KERNEL * HAR_CHANNELS * CONV_FILTERS

/-- Modelled from the spec: the length of `conv_biases`, a table of `har_weights.h`, which is
not part of the sources; the spec gives it one bias per filter. -/
def CONV_BIASES_LEN : Int := CONV_FILTERS

/-- Modelled from the spec: the length of `dense_weights`, a table of `har_weights.h`, which
is not part of the sources; the spec shapes it `[inputs × outputs]`. -/
def DENSE_WEIGHTS_LEN : Int := DENSE_INPUTS * DENSE_OUTPUTS

/-- Modelled from the spec: the length of `dense_biases`, a table of `har_weights.h`, which
is not part of the sources; the spec gives it one bias per output. -/
def DENSE_BIASES_LEN : Int := DENSE_OUTPUTS

/-- The declared number of elements of each array (for `input_buffer`, declared
`[HAR_WINDOW_SIZE][HAR_CHANNELS]`: the number of rows). -/
def declared_len : Buf → Int
  | Buf.input_buffer => HAR_WINDOW_SIZE
  | Buf.linear_input => HAR_WINDOW_SIZE * HAR_CHANNELS
  | Buf.conv_output => CONV_OUTPUT_LEN * CONV_FILTERS
  | Buf.pool_output => POOL_OUTPUT_LEN * CONV_FILTERS
  | Buf.dense_output => DENSE_OUTPUTS
  | Buf.conv_weights => CONV_WEIGHTS_LEN
  | Buf.conv_biases => CONV_BIASES_LEN
  | Buf.dense_weights => DENSE_WEIGHTS_LEN
  | Buf.dense_biases => DENSE_BIASES_LEN

/-! ## State -/

/-- The file-scope variables of `har.c`. -/
structure HarState (α : Type) where
  input_buffer : Int → Int → α
  buffer_head : Int
  linear_input : Arr α
  conv_output : Arr α
  pool_output : Arr α
  dense_output : Arr α

/-- The weight tables of `har_weights.h` (not part of the sources; a parameter). -/
structure HarWeights (α : Type) where
  conv_weights : Arr α
  conv_biases : Arr α
  dense_weights : Arr α
  dense_biases : Arr α

/-- The state at program start: statics are zero-initialised. -/
def HarState.init {α : Type} [Zero α] : HarState α where
  input_buffer := fun _ _ => 0
  buffer_head := 0
  linear_input := fun _ => 0
  conv_output := fun _ => 0
  pool_output := fun _ => 0
  dense_output := fun _ => 0

/-- The store `a[r][c] = v` into a two-dimensional array. -/
def set2 {α : Type} (a : Int → Int → α) (r c : Int) (v : α) : Int → Int → α :=
  Function.update a r (Function.update (a r) c v)

/-! ## Ring buffer -/

section Defs

/- The kernels only use the operations `+`, `*`, unary `-`, the comparison `<` and the
constants `0` and `FLT_MAX` of the carrier `α` of `float` values, so they can be run both
in exact arithmetic (a linearly ordered ring) and on the model `Flt` with infinities and
NaN. -/
variable {α : Type} [Zero α] [Add α] [Mul α] [Neg α] [LT α]
  [DecidableRel (fun a b : α => a < b)] [OfNat α 340282346638528859811704183484516925440]

def add_imu_sample_to_buffer (ax ay az gx gy gz : α) (s : HarState α) : HarState α :=
  let b0 := set2 s.input_buffer s.buffer_head 0 ax
  let b1 := set2 b0 s.buffer_head 1 ay
  let b2 := set2 b1 s.buffer_head 2 az
  let b3 := set2 b2 s.buffer_head 3 gx
  let b4 := set2 b3 s.buffer_head 4 gy
  let b5 := set2 b4 s.buffer_head 5 gz
  { s with input_buffer := b5, buffer_head := Int.land (s.buffer_head + 1) 0x3F }

/-- The body of `linearize_buffer`: the loop state is `(dest, idx)`. -/
def linearize_buffer (input_buffer : Int → Int → α) (buffer_head : Int) (dest : Arr α) :
    Arr α :=
  (forUp HAR_WINDOW_SIZE
    (fun i (st : Arr α × Int) =>
      (forUp HAR_CHANNELS
          (fun c d => Function.update d (i * HAR_CHANNELS + c) (input_buffer st.2 c)) st.1,
        Int.land (st.2 + 1) 0x3F))
    (dest, buffer_head)).1

/-! ## Layers -/

/-- The kernel `layer_conv1d`.  The loop state is `(output, out_step)`; the result is the
output array together with the final value of `out_step`. -/
def layer_conv1d (fuel : Nat) (input output weights bias : Arr α)
    (steps_in channels_in filters kernel_size stride : Int) : Option (Arr α × Int) :=
  whileLoop (fun i => decide (i ≤ steps_in - kernel_size)) stride
    (fun i (st : Arr α × Int) =>
      (forUp filters
          (fun f out =>
            let sum := forUp kernel_size
              (fun k sum =>
                forUp channels_in
                  (fun c sum =>
                    let input_idx := (i + k) * channels_in + c
                    let weight_idx := k * (channels_in * filters) + c * filters + f
                    sum + input input_idx * weights weight_idx)
                  sum)
              (bias f)
            Function.update out (st.2 * filters + f) sum)
          st.1,
        st.2 + 1))
    fuel 0 (output, 0)

/-- The kernel `layer_relu` (in place). -/
def layer_relu (data : Arr α) (size : Int) : Arr α :=
  forUp size (fun i data => if data i < 0 then Function.update data i 0 else data) data

/-- The kernel `layer_maxpool1d`.  The loop state is `(output, out_step)`; the result is
the output array together with the final value of `out_step`. -/
def layer_maxpool1d (fuel : Nat) (input output : Arr α)
    (steps_in channels pool_size stride : Int) : Option (Arr α × Int) :=
  whileLoop (fun i => decide (i + pool_size ≤ steps_in)) stride
    (fun i (st : Arr α × Int) =>
      (forUp channels
          (fun c out =>
            let max_val := forUp pool_size
              (fun p max_val =>
                let input_idx := (i + p) * channels + c
                let val := input input_idx
                if val > max_val then val else max_val)
              (-FLT_MAX)
            Function.update out (st.2 * channels + c) max_val)
          st.1,
        st.2 + 1))
    fuel 0 (output, 0)

/-- The kernel `layer_conv1d` with 32-bit `int` arithmetic: the loop counter, the loop
bound, `out_step` and every index expression are reduced by `wrap32`.  (The counted loops
`for (f = 0; f < filters; f++)` cannot overflow: they stop at `f = filters`.) -/
def layer_conv1d_i32 (fuel : Nat) (input output weights bias : Arr α)
    (steps_in channels_in filters kernel_size stride : Int) : Option (Arr α × Int) :=
  whileLoop32 (fun i => decide (i ≤ wrap32 (steps_in - kernel_size))) stride
    (fun i (st : Arr α × Int) =>
      (forUp filters
          (fun f out =>
            let sum := forUp kernel_size
              (fun k sum =>
                forUp channels_in
                  (fun c sum =>
                    let input_idx := wrap32 (wrap32 (wrap32 (i + k) * channels_in) + c)
                    let weight_idx :=
                      wrap32 (wrap32 (wrap32 (k * wrap32 (channels_in * filters))
                        + wrap32 (c * filters)) + f)
                    sum + input input_idx * weights weight_idx)
                  sum)
              (bias f)
            Function.update out (wrap32 (wrap32 (st.2 * filters) + f)) sum)
          st.1,
        wrap32 (st.2 + 1)))
    fuel 0 (output, 0)

/-- The kernel `layer_maxpool1d` with 32-bit `int` arithmetic: the loop counter, the sum
`i + pool_size` of the loop condition, `out_step` and every index expression are reduced
by `wrap32`. -/
def layer_maxpool1d_i32 (fuel : Nat) (input output : Arr α)
    (steps_in channels pool_size stride : Int) : Option (Arr α × Int) :=
  whileLoop32 (fun i => decide (wrap32 (i + pool_size) ≤ steps_in)) stride
    (fun i (st : Arr α × Int) =>
      (forUp channels
          (fun c out =>
            let max_val := forUp pool_size
              (fun p max_val =>
                let input_idx := wrap32 (wrap32 (wrap32 (i + p) * channels) + c)
                let val := input input_idx
                if val > max_val then val else max_val)
              (-FLT_MAX)
            Function.update out (wrap32 (wrap32 (st.2 * channels) + c)) max_val)
          st.1,
        wrap32 (st.2 + 1)))
    fuel 0 (output, 0)

/-- The kernel `layer_dense`. -/
def layer_dense (input output weights bias : Arr α) (inputs outputs : Int) : Arr α :=
  forUp outputs
    (fun o out =>
      let sum := forUp inputs
        (fun i sum =>
          let weight_idx := i * outputs + o
          sum + input i * weights weight_idx)
        (bias o)
      Function.update out o sum)
    output

/-- The function `linearize_buffer` with its outer loop run on a 32-bit counter (with
fuel) and 32-bit index arithmetic.  The loop state is `(dest, idx)`. -/
def linearize_buffer_i32 (fuel : Nat) (input_buffer : Int → Int → α) (buffer_head : Int)
    (dest : Arr α) : Option (Arr α) :=
  (whileLoop32 (fun i => decide (i < HAR_WINDOW_SIZE)) 1
    (fun i (st : Arr α × Int) =>
      (forUp HAR_CHANNELS
          (fun c d =>
            Function.update d (wrap32 (wrap32 (i * HAR_CHANNELS) + c)) (input_buffer st.2 c))
          st.1,
        Int.land (wrap32 (st.2 + 1)) 0x3F))
    fuel 0 (dest, buffer_head)).map Prod.fst

/-- The kernel `layer_relu` with its loop run on a 32-bit counter, with fuel. -/
def layer_relu_i32 (fuel : Nat) (data : Arr α) (size : Int) : Option (Arr α) :=
  whileLoop32 (fun i => decide (i < size)) 1
    (fun i data => if data i < 0 then Function.update data i 0 else data) fuel 0 data

/-- The kernel `layer_dense` with its outer loop run on a 32-bit counter (with fuel) and
32-bit index arithmetic. -/
def layer_dense_i32 (fuel : Nat) (input output weights bias : Arr α) (inputs outputs : Int) :
    Option (Arr α) :=
  whileLoop32 (fun o => decide (o < outputs)) 1
    (fun o out =>
      let sum := forUp inputs
        (fun i sum =>
          let weight_idx := wrap32 (wrap32 (i * outputs) + o)
          sum + input i * weights weight_idx)
        (bias o)
      Function.update out o sum)
    fuel 0 output

/-! ## Inference pipeline -/

/-- Step 7 of `run_har_inference` (ArgMax).  The loop state is
`(predicted_class, max_score)`. -/
def run_har_inference_argmax (dense_output : Arr α) : Int :=
  (forFrom 1 DENSE_OUTPUTS
    (fun i (st : Int × α) => if dense_output i > st.2 then (i, dense_output i) else st)
    (0, dense_output 0)).1

/-- The function `run_har_inference`: the returned class id and the state it leaves
behind; `none` when a kernel loop runs out of fuel. -/
def run_har_inference (fuel : Nat) (w : HarWeights α) (s : HarState α) :
    Option (Int × HarState α) :=
  let linear_input := linearize_buffer s.input_buffer s.buffer_head s.linear_input
  match layer_conv1d fuel linear_input s.conv_output w.conv_weights w.conv_biases
      HAR_WINDOW_SIZE HAR_CHANNELS CONV_FILTERS CONV_KERNEL CONV_STRIDE with
  | none => none
  | some (conv_output, _) =>
    let conv_output := layer_relu conv_output (CONV_OUTPUT_LEN * CONV_FILTERS)
    match layer_maxpool1d fuel conv_output s.pool_output
        CONV_OUTPUT_LEN CONV_FILTERS POOL_SIZE POOL_STRIDE with
    | none => none
    | some (pool_output, _) =>
      let dense_output := layer_dense pool_output s.dense_output w.dense_weights
        w.dense_biases DENSE_INPUTS DENSE_OUTPUTS
      some (run_har_inference_argmax dense_output,
        { s with
          linear_input := linear_input
          conv_output := conv_output
          pool_output := pool_output
          dense_output := dense_output })

/-- The function `run_har_inference` with every loop of its callees run on a 32-bit counter
and every index computed in 32 bits; `none` when a loop runs out of fuel. -/
def run_har_inference_i32 (fuel : Nat) (w : HarWeights α) (s : HarState α) :
    Option (Int × HarState α) :=
  match linearize_buffer_i32 fuel s.input_buffer s.buffer_head s.linear_input with
  | none => none
  | some linear_input =>
    match layer_conv1d_i32 fuel linear_input s.conv_output w.conv_weights w.conv_biases
        HAR_WINDOW_SIZE HAR_CHANNELS CONV_FILTERS CONV_KERNEL CONV_STRIDE with
    | none => none
    | some (conv_output, _) =>
      match layer_relu_i32 fuel conv_output (CONV_OUTPUT_LEN * CONV_FILTERS) with
      | none => none
      | some conv_output =>
        match layer_maxpool1d_i32 fuel conv_output s.pool_output
            CONV_OUTPUT_LEN CONV_FILTERS POOL_SIZE POOL_STRIDE with
        | none => none
        | some (pool_output, _) =>
          match layer_dense_i32 fuel pool_output s.dense_output w.dense_weights
              w.dense_biases DENSE_INPUTS DENSE_OUTPUTS with
          | none => none
          | some dense_output =>
            some (run_har_inference_argmax dense_output,
              { s with
                linear_input := linear_input
                conv_output := conv_output
                pool_output := pool_output
                dense_output := dense_output })

/-! ## Auxiliary definitions used in the statements -/

/-- One IMU sample: the six arguments of `add_imu_sample_to_buffer`. -/
structure Sample (α : Type) where
  ax : α
  ay : α
  az : α
  gx : α
  gy : α
  gz : α

/-- Channel `c` of a sample, in the order `ax, ay, az, gx, gy, gz`. -/
def Sample.channel (x : Sample α) (c : Int) : α :=
  if c = 0 then x.ax else if c = 1 then x.ay else if c = 2 then x.az
  else if c = 3 then x.gx else if c = 4 then x.gy else x.gz

/-- One call of `add_imu_sample_to_buffer` with the components of a sample. -/
def push (s : HarState α) (x : Sample α) : HarState α :=
  add_imu_sample_to_buffer x.ax x.ay x.az x.gx x.gy x.gz s

/-- A sequence of calls of `add_imu_sample_to_buffer`, first sample first. -/
def pushAll (s : HarState α) (xs : List (Sample α)) : HarState α :=
  xs.foldl push s

/-- Row-major fill: `rows` rows of `cols` stores `d[s * cols + c] = v s c`; the closed form
of what the nested output loops of the kernels do. -/
def fill2 (rows : Nat) (cols : Int) (v : Nat → Int → α) (d : Arr α) : Arr α :=
  (List.range rows).foldl
    (fun d (s : Nat) =>
      forUp cols (fun c d => Function.update d ((s : Int) * cols + c) (v s c)) d)
    d

/-- The value `layer_maxpool1d` computes for the window starting at input step `i` in
channel `c`: the inner loop over `p`, started from `-FLT_MAX`. -/
def pool_value (input : Arr α) (channels pool_size i c : Int) : α :=
  forUp pool_size
    (fun p max_val =>
      if input ((i + p) * channels + c) > max_val then input ((i + p) * channels + c)
      else max_val)
    (-FLT_MAX)

/-- The value `layer_conv1d` computes for the window starting at input step `i` and filter
`f`: the loops over `k` and `c`, started from `bias[f]`. -/
def conv_acc (input weights bias : Arr α) (channels_in filters kernel_size i f : Int) : α :=
  forUp kernel_size
    (fun k sum =>
      forUp channels_in
        (fun c sum =>
          sum + input ((i + k) * channels_in + c)
            * weights (k * (channels_in * filters) + c * filters + f))
        sum)
    (bias f)

/-- The value `layer_relu` leaves in an element that holds `x`. -/
def relu_value (x : α) : α := if x < 0 then 0 else x

/-- The value `layer_maxpool1d` computes for a window of the two values `a` and `b`: two
iterations of its inner loop, started from `-FLT_MAX`. -/
def pool_pair (a b : α) : α :=
  if b > (if a > -FLT_MAX then a else -FLT_MAX) then b
  else (if a > -FLT_MAX then a else -FLT_MAX)

/-- The contents of `conv_output` after step 2 of `run_har_inference` (before ReLU), as a
row-major fill with the values of the kernel's inner loops. -/
def stage_conv (w : HarWeights α) (s : HarState α) : Arr α :=
  fill2 61 8
    (fun t f =>
      conv_acc (linearize_buffer s.input_buffer s.buffer_head s.linear_input) w.conv_weights
        w.conv_biases 6 8 4 ((t : Int) * 1) f)
    s.conv_output

/-- The contents of `conv_output` after step 3 of `run_har_inference` (after ReLU). -/
def stage_relu (w : HarWeights α) (s : HarState α) : Arr α :=
  layer_relu (stage_conv w s) (CONV_OUTPUT_LEN * CONV_FILTERS)

/-- The contents of `pool_output` after step 4 of `run_har_inference`. -/
def stage_pool (w : HarWeights α) (s : HarState α) : Arr α :=
  fill2 30 8 (fun t c => pool_value (stage_relu w s) 8 2 ((t : Int) * 2) c) s.pool_output

/-- The contents of `dense_output` after step 6 of `run_har_inference`. -/
def stage_dense (w : HarWeights α) (s : HarState α) : Arr α :=
  layer_dense (stage_pool w s) s.dense_output w.dense_weights w.dense_biases
    DENSE_INPUTS DENSE_OUTPUTS

end Defs

section ExactDefs

variable {α : Type} [LinearOrderedRing α]

/-- The sum `layer_conv1d` stores for output step `s` and filter `f`, in closed form. -/
def conv_value (input weights bias : Arr α) (channels_in filters kernel_size stride : Int)
    (s : Nat) (f : Int) : α :=
  bias f + ∑ k in Finset.Ico (0 : Int) kernel_size, ∑ c in Finset.Ico (0 : Int) channels_in,
    input (((s : Int) * stride + k) * channels_in + c)
      * weights (k * (channels_in * filters) + c * filters + f)

/-- The contents of `linear_input` after step 1 of `run_har_inference`. -/
def pipeline_linear (s : HarState α) : Arr α :=
  linearize_buffer s.input_buffer s.buffer_head s.linear_input

/-- The contents of `conv_output` after steps 2 and 3 of `run_har_inference`. -/
def pipeline_relu (w : HarWeights α) (s : HarState α) : Arr α :=
  layer_relu
    (fill2 61 8 (conv_value (pipeline_linear s) w.conv_weights w.conv_biases 6 8 4 1)
      s.conv_output)
    (CONV_OUTPUT_LEN * CONV_FILTERS)

/-- The contents of `pool_output` after step 4 of `run_har_inference`. -/
def pipeline_pool (w : HarWeights α) (s : HarState α) : Arr α :=
  fill2 30 8 (fun t c => pool_value (pipeline_relu w s) 8 2 ((t : Int) * 2) c) s.pool_output

/-- The contents of `dense_output` after step 6 of `run_har_inference`. -/
def pipeline_dense (w : HarWeights α) (s : HarState α) : Arr α :=
  layer_dense (pipeline_pool w s) s.dense_output w.dense_weights w.dense_biases
    DENSE_INPUTS DENSE_OUTPUTS

/-- The call `linearize_buffer(linear_input)` of step 1 of `run_har_inference`, as a
transformer of the file-scope state: the function stores to `dest` only. -/
def linearize_buffer_call (s : HarState α) : HarState α :=
  { s with linear_input := linearize_buffer s.input_buffer s.buffer_head s.linear_input }

/-! ## Array accesses

The functions below repeat the loops of the kernels and record, instead of the values,
which array elements are read or written; the newest access is at the head of the list. -/

/-- One array access: `a[i]`, or `a[i][j]` for the two-dimensional `input_buffer`. -/
inductive Access where
  | at1 (buf : Buf) (i : Int)
  | at2 (buf : Buf) (i j : Int)

/-- The accesses of `linearize_buffer`: `dest[i * HAR_CHANNELS + c] = input_buffer[idx][c]`.
The loop state is `(accesses, idx)`. -/
def linearize_buffer_trace (buffer_head : Int) (dest : Buf) (tr : List Access) : List Access :=
  (forUp HAR_WINDOW_SIZE
    (fun i (st : List Access × Int) =>
      (forUp HAR_CHANNELS
          (fun c tr =>
            Access.at1 dest (i * HAR_CHANNELS + c) :: Access.at2 Buf.input_buffer st.2 c :: tr)
          st.1,
        Int.land (st.2 + 1) 0x3F))
    (tr, buffer_head)).1

/-- The accesses of one iteration of the outer loop of `layer_conv1d`, at input step `i`
and output step `out_step`. -/
def conv_step_trace (input output weights bias : Buf) (channels_in filters kernel_size : Int)
    (i out_step : Int) (tr : List Access) : List Access :=
  forUp filters
    (fun f tr =>
      let tr := Access.at1 bias f :: tr
      let tr := forUp kernel_size
        (fun k tr =>
          forUp channels_in
            (fun c tr =>
              let input_idx := (i + k) * channels_in + c
              let weight_idx := k * (channels_in * filters) + c * filters + f
              Access.at1 weights weight_idx :: Access.at1 input input_idx :: tr)
            tr)
        tr
      Access.at1 output (out_step * filters + f) :: tr)
    tr

/-- The accesses of `layer_conv1d`.  The loop state is `(accesses, out_step)`. -/
def layer_conv1d_trace (fuel : Nat) (input output weights bias : Buf)
    (steps_in channels_in filters kernel_size stride : Int) (tr : List Access) :
    Option (List Access × Int) :=
  whileLoop (fun i => decide (i ≤ steps_in - kernel_size)) stride
    (fun i (st : List Access × Int) =>
      (conv_step_trace input output weights bias channels_in filters kernel_size i st.2 st.1,
        st.2 + 1))
    fuel 0 (tr, 0)

/-- The accesses of `layer_relu`: element `data[i]` is read and, when negative, written. -/
def layer_relu_trace (data : Buf) (size : Int) (tr : List Access) : List Access :=
  forUp size (fun i tr => Access.at1 data i :: tr) tr

/-- The accesses of one iteration of the outer loop of `layer_maxpool1d`. -/
def pool_step_trace (input output : Buf) (channels pool_size : Int) (i out_step : Int)
    (tr : List Access) : List Access :=
  forUp channels
    (fun c tr =>
      let tr := forUp pool_size
        (fun p tr =>
          let input_idx := (i + p) * channels + c
          Access.at1 input input_idx :: tr)
        tr
      Access.at1 output (out_step * channels + c) :: tr)
    tr

/-- The accesses of `layer_maxpool1d`.  The loop state is `(accesses, out_step)`. -/
def layer_maxpool1d_trace (fuel : Nat) (input output : Buf)
    (steps_in channels pool_size stride : Int) (tr : List Access) :
    Option (List Access × Int) :=
  whileLoop (fun i => decide (i + pool_size ≤ steps_in)) stride
    (fun i (st : List Access × Int) =>
      (pool_step_trace input output channels pool_size i st.2 st.1, st.2 + 1))
    fuel 0 (tr, 0)

/-- The accesses of `layer_dense`. -/
def layer_dense_trace (input output weights bias : Buf) (inputs outputs : Int)
    (tr : List Access) : List Access :=
  forUp outputs
    (fun o tr =>
      let tr := Access.at1 bias o :: tr
      let tr := forUp inputs
        (fun i tr =>
          let weight_idx := i * outputs + o
          Access.at1 weights weight_idx :: Access.at1 input i :: tr)
        tr
      Access.at1 output o :: tr)
    tr

/-- The accesses of step 7 of `run_har_inference` (ArgMax): `dense_output[0]`, then
`dense_output[i]` for `i` from 1. -/
def run_har_inference_argmax_trace (tr : List Access) : List Access :=
  forFrom 1 DENSE_OUTPUTS (fun i tr => Access.at1 Buf.dense_output i :: tr)
    (Access.at1 Buf.dense_output 0 :: tr)

/-- The accesses of `run_har_inference`, in the order of its seven steps. -/
def run_har_inference_trace (fuel : Nat) (buffer_head : Int) : Option (List Access) :=
  let tr := linearize_buffer_trace buffer_head Buf.linear_input []
  match layer_conv1d_trace fuel Buf.linear_input Buf.conv_output Buf.conv_weights
      Buf.conv_biases HAR_WINDOW_SIZE HAR_CHANNELS CONV_FILTERS CONV_KERNEL CONV_STRIDE tr with
  | none => none
  | some (tr, _) =>
    let tr := layer_relu_trace Buf.conv_output (CONV_OUTPUT_LEN * CONV_FILTERS) tr
    match layer_maxpool1d_trace fuel Buf.conv_output Buf.pool_output
        CONV_OUTPUT_LEN CONV_FILTERS POOL_SIZE POOL_STRIDE tr with
    | none => none
    | some (tr, _) =>
      let tr := layer_dense_trace Buf.pool_output Buf.dense_output Buf.dense_weights
        Buf.dense_biases DENSE_INPUTS DENSE_OUTPUTS tr
      some (run_har_inference_argmax_trace tr)

/-- An access lies within the declared bounds of its array. -/
def in_bounds : Access → Prop
  | Access.at1 buf i => 0 ≤ i ∧ i < declared_len buf
  | Access.at2 buf i j => 0 ≤ i ∧ i < declared_len buf ∧ 0 ≤ j ∧ j < HAR_CHANNELS

/-- Every index at which the access `a` touches the array `buf` lies in `0 .. hi`. -/
def within (buf : Buf) (hi : Int) (a : Access) : Prop :=
  ∀ i, a = Access.at1 buf i → 0 ≤ i ∧ i ≤ hi

/-- Two arrays hold the same values at the indices `0 .. n-1`. -/
def agree_below (n : Int) (a b : Arr α) : Prop :=
  ∀ j, 0 ≤ j → j < n → a j = b j

end ExactDefs

/-- Seventy samples, sample `i` being `(i, 10 i, 100 i, -i, 5, 6)`. -/
def demo_samples : List (Sample Int) :=
  (List.range 70).map
    (fun (i : Nat) => ⟨(i : Int), 10 * (i : Int), 100 * (i : Int), -(i : Int), 5, 6⟩)

/-- A weight set with all weights zero and dense bias `[0, 0, 1]`. -/
def bias_only_weights : HarWeights Int where
  conv_weights := fun _ => 0
  conv_biases := fun _ => 0
  dense_weights := fun _ => 0
  dense_biases := fun j => if j = 2 then 1 else 0

/-- The initial state with every scratch element set to 9. -/
def stale_scratch_state : HarState Int where
  input_buffer := fun _ _ => 0
  buffer_head := 0
  linear_input := fun _ => 9
  conv_output := fun _ => 9
  pool_output := fun _ => 9
  dense_output := fun _ => 9

/-- The scores `[NaN, 1, 2]`. -/
def nan_scores : Arr Flt :=
  fun i => if i = 0 then Flt.nan else if i = 1 then Flt.fin 1 else Flt.fin 2

/-- The state in which every sample of the ring buffer is `FLT_MAX` in all six channels (as
after 64 calls `add_imu_sample_to_buffer(FLT_MAX, ..., FLT_MAX)` from program start). -/
def flt_max_state : HarState Flt where
  input_buffer := fun _ _ => FLT_MAX
  buffer_head := 0
  linear_input := fun _ => 0
  conv_output := fun _ => 0
  pool_output := fun _ => 0
  dense_output := fun _ => 0

/-- A weight set whose only nonzero entries are `conv_weights[0] = 2` (tap 0, channel 0,
filter 0) and `conv_weights[8] = -2` (tap 0, channel 1, filter 0). -/
def overflow_weights : HarWeights Flt where
  conv_weights := fun j => if j = 0 then Flt.fin 2 else if j = 8 then Flt.fin (-2) else 0
  conv_biases := fun _ => 0
  dense_weights := fun _ => 0
  dense_biases := fun _ => 0

/-- A `float` weight set with all weights zero and dense bias `[0, 0, 1]`. -/
def bias_only_weights_flt : HarWeights Flt where
  conv_weights := fun _ => 0
  conv_biases := fun _ => 0
  dense_weights := fun _ => 0
  dense_biases := fun j => if j = 2 then Flt.fin 1 else 0

/-! # Theorems -/

/-! ## Loop lemmas -/

theorem forUp_nonpos {σ : Type} (n : Int) (hn : n ≤ 0) (body : Int → σ → σ) (init : σ) :
    forUp n body init = init := by
  simp [forUp, Int.toNat_eq_zero.mpr hn]

theorem forUp_natCast {σ : Type} (n : Nat) (body : Int → σ → σ) (init : σ) :
    forUp (n : Int) body init
      = (List.range n).foldl (fun st (c : Nat) => body (c : Int) st) init := by
  simp [forUp]

theorem forUp_zero {σ : Type} (body : Int → σ → σ) (init : σ) :
    forUp 0 body init = init := forUp_nonpos 0 le_rfl body init

theorem forUp_succ {σ : Type} (n : Nat) (body : Int → σ → σ) (init : σ) :
    forUp ((n : Int) + 1) body init = body n (forUp n body init) := by
  have h : ((n : Int) + 1).toNat = n + 1 := by omega
  simp [forUp, h, List.range_succ, List.foldl_append]

/-- A row of stores `d[base + c] = v c` for `0 <= c < n`. -/
theorem forUp_store_row {α : Type} (n : Nat) (base : Int) (v : Int → α) (d : Arr α) (j : Int) :
    forUp (n : Int) (fun c d => Function.update d (base + c) (v c)) d j
      = if base ≤ j ∧ j < base + n then v (j - base) else d j := by
  induction n with
  | zero =>
    have : ¬ (base ≤ j ∧ j < base + ((0 : Nat) : Int)) := by omega
    simp only [this, if_false]
    exact congrFun (forUp_zero _ d) j
  | succ n ih =>
    have hc : ((n + 1 : Nat) : Int) = (n : Int) + 1 := by push_cast; ring
    rw [hc, forUp_succ]
    by_cases hj : j = base + n
    · subst hj
      simp
    · rw [Function.update_noteq hj, ih]
      by_cases h1 : base ≤ j ∧ j < base + n
      · have h2 : base ≤ j ∧ j < base + ((n : Int) + 1) := by omega
        simp [h1, h2]
      · have h2 : ¬ (base ≤ j ∧ j < base + ((n : Int) + 1)) := by omega
        simp [h1, h2]

theorem store_row_apply {α : Type} (cols : Int) (v : Int → α) (base : Int) (d : Arr α)
    (j : Int) :
    forUp cols (fun c d => Function.update d (base + c) (v c)) d j
      = if base ≤ j ∧ j < base + cols then v (j - base) else d j := by
  rcases le_or_lt cols 0 with h | h
  · rw [forUp_nonpos _ h]
    have : ¬ (base ≤ j ∧ j < base + cols) := by omega
    simp [this]
  · obtain ⟨n, rfl⟩ := Int.eq_ofNat_of_zero_le h.le
    exact forUp_store_row n base v d j

theorem fill2_succ {α : Type} (rows : Nat) (cols : Int) (v : Nat → Int → α) (d : Arr α) :
    fill2 (rows + 1) cols v d
      = forUp cols (fun c d => Function.update d ((rows : Int) * cols + c) (v rows c))
          (fill2 rows cols v d) := by
  simp [fill2, List.range_succ, List.foldl_append]

theorem fill2_outside {α : Type} (rows : Nat) (cols : Int) (v : Nat → Int → α) (d : Arr α)
    (j : Int) (hj : j < 0 ∨ (rows : Int) * cols ≤ j) : fill2 rows cols v d j = d j := by
  induction rows with
  | zero => simp [fill2]
  | succ r ih =>
    rw [fill2_succ, store_row_apply]
    rcases le_or_lt cols 0 with h | h
    · have : ¬ ((r : Int) * cols ≤ j ∧ j < (r : Int) * cols + cols) := by omega
      rw [if_neg this]
      apply ih
      rcases lt_or_le j 0 with h0 | h0
      · exact Or.inl h0
      · right
        have : (r : Int) * cols ≤ 0 := mul_nonpos_of_nonneg_of_nonpos (by positivity) h
        omega
    · have h0 : (0 : Int) ≤ (r : Int) * cols := by positivity
      have h1 : ((r + 1 : Nat) : Int) * cols = (r : Int) * cols + cols := by push_cast; ring
      have : ¬ ((r : Int) * cols ≤ j ∧ j < (r : Int) * cols + cols) := by omega
      rw [if_neg this]
      apply ih
      omega

theorem fill2_inside {α : Type} (rows : Nat) (cols : Int) (v : Nat → Int → α) (d : Arr α)
    (s : Nat) (c : Int) (hs : s < rows) (hc0 : 0 ≤ c) (hc : c < cols) :
    fill2 rows cols v d ((s : Int) * cols + c) = v s c := by
  induction rows with
  | zero => omega
  | succ r ih =>
    rw [fill2_succ, store_row_apply]
    by_cases hsr : s = r
    · subst hsr
      have : (s : Int) * cols ≤ (s : Int) * cols + c
          ∧ (s : Int) * cols + c < (s : Int) * cols + cols := by omega
      rw [if_pos this]
      congr 1
      ring
    · have hlt : s < r := by omega
      have h1 : ((s : Int) + 1) * cols ≤ (r : Int) * cols := by
        apply mul_le_mul_of_nonneg_right _ (by omega)
        exact_mod_cast hlt
      have : ¬ ((r : Int) * cols ≤ (s : Int) * cols + c
          ∧ (s : Int) * cols + c < (r : Int) * cols + cols) := by
        intro h
        nlinarith [h.1]
      rw [if_neg this]
      exact ih hlt

/-- A loop whose state is `(array, counter)`, storing one row per iteration and
incrementing the counter, is a row-major fill. -/
theorem fold_rows_eq_fill2 {α : Type} (rows : Nat) (cols : Int) (v : Int → Int → α)
    (d : Arr α) (g : Nat → Int) :
    (List.range rows).foldl
        (fun (st : Arr α × Int) (s : Nat) =>
          (forUp cols (fun c d => Function.update d (st.2 * cols + c) (v (g s) c)) st.1,
            st.2 + 1))
        (d, 0)
      = (fill2 rows cols (fun s c => v (g s) c) d, (rows : Int)) := by
  induction rows with
  | zero => simp [fill2]
  | succ r ih =>
    rw [List.range_succ, List.foldl_append, ih, fill2_succ]
    simp

/-! ## Bit mask -/

theorem land_63_nonneg (x : Int) (h : 0 ≤ x) : Int.land x 0x3F = x % 64 := by
  obtain ⟨n, rfl⟩ := Int.eq_ofNat_of_zero_le h
  have h1 : Int.land (n : Int) 0x3F = ((n &&& 63 : Nat) : Int) := rfl
  rw [h1]
  have := Nat.and_pow_two_sub_one_eq_mod n 6
  norm_num at this
  rw [this]
  simp

theorem ldiff_63 (m : Nat) : Nat.ldiff 63 m = 63 - m % 64 := by
  apply Nat.eq_of_testBit_eq
  intro i
  have h2 : m % 64 < 2 ^ 6 := by norm_num; exact Nat.mod_lt _ (by norm_num)
  have h3 := Nat.testBit_two_pow_sub_succ h2 i
  have h4 : 2 ^ 6 - (m % 64 + 1) = 63 - m % 64 := by norm_num; omega
  rw [h4] at h3
  rw [h3, Nat.testBit_ldiff]
  have h5 : (63 : Nat) = 2 ^ 6 - 1 := by norm_num
  have h6 : (64 : Nat) = 2 ^ 6 := by norm_num
  rw [h5, h6, Nat.testBit_two_pow_sub_one, Nat.testBit_mod_two_pow]
  cases decide (i < 6) <;> simp

/-- The mask `x & 0x3F` is the remainder of `x` modulo 64, for every integer. -/
theorem land_63 (x : Int) : Int.land x 0x3F = x % 64 := by
  rcases x with n | m
  · exact land_63_nonneg _ (Int.ofNat_nonneg n)
  · have h1 : Int.land (Int.negSucc m) 0x3F = ((Nat.ldiff 63 m : Nat) : Int) := rfl
    rw [h1, ldiff_63]
    have : (Int.negSucc m) = -((m : Int) + 1) := by simp [Int.negSucc_eq]
    rw [this]
    omega

/-! ## Ring buffer -/

theorem set2_apply {α : Type} (a : Int → Int → α) (r c : Int) (v : α) (r' c' : Int) :
    set2 a r c v r' c' = if r' = r ∧ c' = c then v else a r' c' := by
  unfold set2
  by_cases hr : r' = r
  · subst hr
    by_cases hc : c' = c
    · subst hc
      simp
    · simp [hc]
  · simp [hr]

theorem push_buffer_head {α : Type} (s : HarState α) (x : Sample α) :
    (push s x).buffer_head = (s.buffer_head + 1) % 64 := by
  simp [push, add_imu_sample_to_buffer, land_63]

theorem push_input_buffer {α : Type} (s : HarState α) (x : Sample α) (r c : Int) :
    (push s x).input_buffer r c
      = if r = s.buffer_head ∧ 0 ≤ c ∧ c < 6 then x.channel c else s.input_buffer r c := by
  simp only [push, add_imu_sample_to_buffer, set2_apply, Sample.channel]
  by_cases hr : r = s.buffer_head
  · by_cases h0 : c = 0
    · subst h0; simp [hr]
    by_cases h1 : c = 1
    · subst h1; simp [hr]
    by_cases h2 : c = 2
    · subst h2; simp [hr]
    by_cases h3 : c = 3
    · subst h3; simp [hr]
    by_cases h4 : c = 4
    · subst h4; simp [hr]
    by_cases h5 : c = 5
    · subst h5; simp [hr]
    have : ¬ (0 ≤ c ∧ c < 6) := by omega
    simp [h0, h1, h2, h3, h4, h5, this]
  · simp [hr]

theorem pushAll_snoc {α : Type} (s : HarState α) (xs : List (Sample α)) (x : Sample α) :
    pushAll s (xs ++ [x]) = push (pushAll s xs) x := by
  simp [pushAll, List.foldl_append]

theorem pushAll_buffer_head {α : Type} (s : HarState α) (h0 : s.buffer_head = 0) (xs : List (Sample α)) :
    (pushAll s xs).buffer_head = (xs.length : Int) % 64 := by
  induction xs using List.reverseRecOn with
  | nil => simp [pushAll, h0]
  | append_singleton xs x ih =>
    rw [pushAll_snoc, push_buffer_head, ih]
    simp only [List.length_append, List.length_singleton]
    push_cast
    omega

/-- After the pushes `xs` from a state with cursor 0, row `j mod 64` holds the `j`-th
pushed sample, for each of the last 64 pushes. -/
theorem pushAll_input_buffer {α : Type} (s : HarState α) (h0 : s.buffer_head = 0)
    (xs : List (Sample α)) (j : Nat) (x : Sample α) (hx : xs[j]? = some x)
    (hj : xs.length ≤ j + 64) (c : Int) (hc0 : 0 ≤ c) (hc : c < 6) :
    (pushAll s xs).input_buffer ((j : Int) % 64) c = x.channel c := by
  induction xs using List.reverseRecOn with
  | nil => simp at hx
  | append_singleton xs y ih =>
    rw [pushAll_snoc, push_input_buffer, pushAll_buffer_head s h0]
    simp only [List.length_append, List.length_singleton] at hj
    by_cases hjn : j = xs.length
    · subst hjn
      simp at hx
      subst hx
      simp [hc0, hc]
    · have hlt : j < xs.length := by
        have := (List.getElem?_eq_some.mp hx).1
        simp at this
        omega
      have hne : ¬ ((j : Int) % 64 = (xs.length : Int) % 64 ∧ 0 ≤ c ∧ c < 6) := by
        omega
      rw [if_neg hne]
      apply ih _ (by omega)
      rw [← hx, List.getElem?_append_left hlt]

/-- The cursor `idx` of `linearize_buffer` at the start of iteration `i`. -/
theorem linearize_buffer_eq_fill2 {α : Type} (ib : Int → Int → α) (head : Int) (h0 : 0 ≤ head)
    (h1 : head < 64) (dest : Arr α) :
    linearize_buffer ib head dest
      = fill2 64 6 (fun i c => ib ((head + i) % 64) c) dest := by
  have key : ∀ n : Nat,
      (List.range n).foldl
        (fun (st : Arr α × Int) (i : Nat) =>
          (forUp HAR_CHANNELS
              (fun c d => Function.update d ((i : Int) * HAR_CHANNELS + c) (ib st.2 c)) st.1,
            Int.land (st.2 + 1) 0x3F))
        (dest, head)
      = (fill2 n 6 (fun i c => ib ((head + i) % 64) c) dest, (head + n) % 64) := by
    intro n
    induction n with
    | zero =>
      simp [fill2]
      omega
    | succ n ih =>
      rw [List.range_succ, List.foldl_append, ih, fill2_succ]
      simp only [List.foldl_cons, List.foldl_nil, land_63, HAR_CHANNELS]
      refine Prod.ext rfl ?_
      simp only
      push_cast
      omega
  unfold linearize_buffer
  rw [show HAR_WINDOW_SIZE = ((64 : Nat) : Int) from rfl, forUp_natCast, key 64]

/-! ## Strided loops -/

/-- A strided loop that meets its exit condition after exactly `m` iterations returns,
with any fuel above `m`, the fold of its body over the `m` visited positions. -/
theorem whileLoop_eq_fold {σ : Type} (cond : Int → Bool) (stride : Int)
    (body : Int → σ → σ) (m : Nat) :
    ∀ (fuel : Nat) (i : Int) (st : σ), m < fuel →
      (∀ j : Nat, j < m → cond (i + j * stride) = true) →
      cond (i + m * stride) = false →
      whileLoop cond stride body fuel i st
        = some ((List.range m).foldl (fun st (j : Nat) => body (i + j * stride) st) st) := by
  induction m with
  | zero =>
    intro fuel i st hf _ hex
    obtain ⟨f, rfl⟩ : ∃ f, fuel = f + 1 := ⟨fuel - 1, by omega⟩
    simp at hex
    simp [whileLoop, hex]
  | succ m ih =>
    intro fuel i st hf hin hex
    obtain ⟨f, rfl⟩ : ∃ f, fuel = f + 1 := ⟨fuel - 1, by omega⟩
    have hc0 : cond i = true := by simpa using hin 0 (by omega)
    have hrec := ih f (i + stride) (body i st) (by omega)
      (fun j hj => by
        have := hin (j + 1) (by omega)
        rw [← this]; congr 1; push_cast; ring)
      (by rw [← hex]; congr 1; push_cast; ring)
    simp only [whileLoop, hc0, if_true, hrec]
    rw [List.range_succ_eq_map, List.foldl_cons, List.foldl_map]
    congr 2
    · funext st j
      congr 1
      push_cast; ring
    · simp

/-- The number of full windows: `floor((steps_in - size) / stride) + 1`. -/
theorem valid_steps_bounds (steps_in size stride : Int) (hsz : size ≤ steps_in)
    (hs : 1 ≤ stride) :
    (∀ j : Nat, j < ((steps_in - size) / stride + 1).toNat →
        (j : Int) * stride ≤ steps_in - size) ∧
      steps_in - size < (((steps_in - size) / stride + 1).toNat : Int) * stride := by
  have hpos : 0 < stride := by omega
  have hL : 0 ≤ steps_in - size := by omega
  have hq : 0 ≤ (steps_in - size) / stride := Int.ediv_nonneg hL hpos.le
  have hm : ((((steps_in - size) / stride + 1).toNat : Nat) : Int)
      = (steps_in - size) / stride + 1 := Int.toNat_of_nonneg (by omega)
  constructor
  · intro j hj
    have h1 : (j : Int) ≤ (steps_in - size) / stride := by omega
    exact (Int.le_ediv_iff_mul_le hpos).mp h1
  · rw [hm]
    exact Int.lt_mul_of_ediv_lt hpos (by omega)

/-! ## Sums -/

theorem Ico_zero_succ (n : Nat) :
    Finset.Ico (0 : Int) ((n : Int) + 1) = insert (n : Int) (Finset.Ico (0 : Int) n) := by
  ext x
  simp only [Finset.mem_Ico, Finset.mem_insert]
  omega

theorem forUp_sum {α : Type} [LinearOrderedRing α] (n : Int) (g : Int → α) (a : α) :
    forUp n (fun c acc => acc + g c) a = a + ∑ c in Finset.Ico (0 : Int) n, g c := by
  rcases le_or_lt n 0 with h | h
  · rw [forUp_nonpos _ h, Finset.Ico_eq_empty (by omega)]
    simp
  · obtain ⟨m, rfl⟩ := Int.eq_ofNat_of_zero_le h.le
    clear h
    induction m with
    | zero => simp [forUp_zero]
    | succ m ih =>
      have hc : ((m + 1 : Nat) : Int) = (m : Int) + 1 := by push_cast; ring
      rw [hc, forUp_succ, ih, Ico_zero_succ, Finset.sum_insert (by simp)]
      abel

theorem forUp_sum2 {α : Type} [LinearOrderedRing α] (n m : Int) (g : Int → Int → α) (a : α) :
    forUp n (fun k acc => forUp m (fun c acc => acc + g k c) acc) a
      = a + ∑ k in Finset.Ico (0 : Int) n, ∑ c in Finset.Ico (0 : Int) m, g k c := by
  have : (fun (k : Int) (acc : α) => forUp m (fun c acc => acc + g k c) acc)
      = fun k acc => acc + ∑ c in Finset.Ico (0 : Int) m, g k c := by
    funext k acc
    exact forUp_sum m (g k) acc
  rw [this, forUp_sum]

/-! ## Convolution -/

/-- With `stride >= 1`, `kernel_size <= steps_in` and enough fuel, `layer_conv1d` returns
a row-major fill of the output with the convolution sums, and the number of rows. -/
theorem layer_conv1d_eq_fill2 {α : Type} [LinearOrderedRing α]
    (input output weights bias : Arr α)
    (steps_in channels_in filters kernel_size stride : Int)
    (hks : kernel_size ≤ steps_in) (hs : 1 ≤ stride) (fuel : Nat)
    (hfuel : ((steps_in - kernel_size) / stride + 1).toNat < fuel) :
    layer_conv1d fuel input output weights bias steps_in channels_in filters kernel_size
        stride
      = some
        (fill2 ((steps_in - kernel_size) / stride + 1).toNat filters
          (fun s f => bias f + ∑ k in Finset.Ico (0 : Int) kernel_size,
            ∑ c in Finset.Ico (0 : Int) channels_in,
              input ((s * stride + k) * channels_in + c)
                * weights (k * (channels_in * filters) + c * filters + f))
          output,
        (steps_in - kernel_size) / stride + 1) := by
  obtain ⟨hin, hex⟩ := valid_steps_bounds steps_in kernel_size stride hks hs
  have hq : 0 ≤ (steps_in - kernel_size) / stride :=
    Int.ediv_nonneg (by omega) (by omega)
  unfold layer_conv1d
  rw [whileLoop_eq_fold _ stride _ ((steps_in - kernel_size) / stride + 1).toNat fuel 0 _ hfuel
    (fun j hj => by simpa using hin j hj) (by simpa using hex)]
  simp only [forUp_sum2, zero_add]
  have := fold_rows_eq_fill2 ((steps_in - kernel_size) / stride + 1).toNat filters
    (fun i f => bias f + ∑ k in Finset.Ico (0 : Int) kernel_size,
            ∑ c in Finset.Ico (0 : Int) channels_in,
              input ((i + k) * channels_in + c)
                * weights (k * (channels_in * filters) + c * filters + f))
    output (fun j => (j : Int) * stride)
  rw [this, Int.toNat_of_nonneg (by omega)]

theorem store_row_congr {α : Type} (cols base : Int) (v1 v2 : Int → α) (d : Arr α)
    (h : ∀ c, 0 ≤ c → c < cols → v1 c = v2 c) :
    forUp cols (fun c d => Function.update d (base + c) (v1 c)) d
      = forUp cols (fun c d => Function.update d (base + c) (v2 c)) d := by
  funext j
  rw [store_row_apply, store_row_apply]
  by_cases hj : base ≤ j ∧ j < base + cols
  · rw [if_pos hj, if_pos hj]
    exact h _ (by omega) (by omega)
  · rw [if_neg hj, if_neg hj]

/-- A row-major fill only uses the values `v s c` with `s < rows` and `0 <= c < cols`. -/
theorem fill2_congr {α : Type} (rows : Nat) (cols : Int) (v1 v2 : Nat → Int → α) (d : Arr α)
    (h : ∀ s : Nat, s < rows → ∀ c, 0 ≤ c → c < cols → v1 s c = v2 s c) :
    fill2 rows cols v1 d = fill2 rows cols v2 d := by
  induction rows with
  | zero => simp [fill2]
  | succ r ih =>
    rw [fill2_succ, fill2_succ, ih (fun s hs => h s (by omega))]
    exact store_row_congr cols _ _ _ _ (h r (by omega))

/-- Inside the filled region the prior contents of the array do not matter. -/
theorem fill2_agree {α : Type} (rows : Nat) (cols : Int) (v : Nat → Int → α) (d1 d2 : Arr α)
    (j : Int) (h0 : 0 ≤ j) (h1 : j < (rows : Int) * cols) :
    fill2 rows cols v d1 j = fill2 rows cols v d2 j := by
  induction rows with
  | zero => simp at h1; omega
  | succ r ih =>
    rw [fill2_succ, fill2_succ, store_row_apply, store_row_apply]
    by_cases hj : (r : Int) * cols ≤ j ∧ j < (r : Int) * cols + cols
    · rw [if_pos hj, if_pos hj]
    · rw [if_neg hj, if_neg hj]
      apply ih
      have h2 : ((r + 1 : Nat) : Int) * cols = (r : Int) * cols + cols := by push_cast; ring
      omega

/-! ## Max pooling as a fill -/

/-- With `stride >= 1`, `pool_size <= steps_in` and enough fuel, `layer_maxpool1d`
returns after `(steps_in - pool_size) / stride + 1` output steps. -/
theorem layer_maxpool1d_eq_fill2 {α : Type} [Neg α] [LT α]
    [DecidableRel (fun a b : α => a < b)] [OfNat α 340282346638528859811704183484516925440]
    (input output : Arr α) (steps_in channels pool_size stride : Int)
    (hps : pool_size ≤ steps_in) (hs : 1 ≤ stride) (fuel : Nat)
    (hfuel : ((steps_in - pool_size) / stride + 1).toNat < fuel) :
    layer_maxpool1d fuel input output steps_in channels pool_size stride
      = some
        (fill2 ((steps_in - pool_size) / stride + 1).toNat channels
          (fun s c => pool_value input channels pool_size ((s : Int) * stride) c) output,
        (steps_in - pool_size) / stride + 1) := by
  obtain ⟨hin, hex⟩ := valid_steps_bounds steps_in pool_size stride hps hs
  have hq : 0 ≤ (steps_in - pool_size) / stride :=
    Int.ediv_nonneg (by omega) (by omega)
  unfold layer_maxpool1d
  rw [whileLoop_eq_fold _ stride _ ((steps_in - pool_size) / stride + 1).toNat fuel 0 _ hfuel
    (fun j hj => by have := hin j hj; rw [decide_eq_true_iff]; omega)
    (by rw [decide_eq_false_iff_not]; omega)]
  simp only [zero_add]
  have := fold_rows_eq_fill2 ((steps_in - pool_size) / stride + 1).toNat channels
    (fun i c => pool_value input channels pool_size i c) output (fun j => (j : Int) * stride)
  simp only [pool_value] at this
  rw [this, Int.toNat_of_nonneg (by omega)]
  simp only [pool_value]

theorem layer_relu_apply {α : Type} [LinearOrderedRing α] (data : Arr α) (size j : Int) :
    layer_relu data size j = if 0 ≤ j ∧ j < size then max 0 (data j) else data j := by
  unfold layer_relu
  rcases le_or_lt size 0 with h | h
  · rw [forUp_nonpos _ h]
    have : ¬ (0 ≤ j ∧ j < size) := by omega
    rw [if_neg this]
  · obtain ⟨n, rfl⟩ := Int.eq_ofNat_of_zero_le h.le
    clear h
    induction n generalizing j with
    | zero =>
      rw [show ((0 : Nat) : Int) = 0 from rfl, forUp_zero]
      have : ¬ (0 ≤ j ∧ j < (0 : Int)) := by omega
      rw [if_neg this]
    | succ n ih =>
      have hc : ((n + 1 : Nat) : Int) = (n : Int) + 1 := by push_cast; ring
      rw [hc, forUp_succ]
      have hn : forUp (n : Int)
          (fun i data => if data i < 0 then Function.update data i 0 else data) data (n : Int)
          = data n := by
        rw [ih]
        have : ¬ (0 ≤ (n : Int) ∧ (n : Int) < (n : Int)) := by omega
        rw [if_neg this]
      simp only [hn]
      by_cases hj : j = (n : Int)
      · subst hj
        have hin : 0 ≤ (n : Int) ∧ (n : Int) < (n : Int) + 1 := by omega
        rw [if_pos hin]
        by_cases hneg : data (n : Int) < 0
        · rw [if_pos hneg, Function.update_same, max_eq_left hneg.le]
        · rw [if_neg hneg, hn, max_eq_right (not_lt.mp hneg)]
      · have hrest : (if data (n : Int) < 0
            then Function.update (forUp (n : Int)
              (fun i data => if data i < 0 then Function.update data i 0 else data) data)
              (n : Int) 0
            else forUp (n : Int)
              (fun i data => if data i < 0 then Function.update data i 0 else data) data) j
            = forUp (n : Int)
              (fun i data => if data i < 0 then Function.update data i 0 else data) data j := by
          split
          · rw [Function.update_noteq hj]
          · rfl
        rw [hrest, ih]
        by_cases h1 : 0 ≤ j ∧ j < (n : Int)
        · have h2 : 0 ≤ j ∧ j < (n : Int) + 1 := by omega
          rw [if_pos h1, if_pos h2]
        · have h2 : ¬ (0 ≤ j ∧ j < (n : Int) + 1) := by omega
          rw [if_neg h1, if_neg h2]

theorem layer_dense_apply {α : Type} [LinearOrderedRing α]
    (input output weights bias : Arr α) (inputs outputs j : Int) :
    layer_dense input output weights bias inputs outputs j
      = if 0 ≤ j ∧ j < outputs
        then bias j + ∑ i in Finset.Ico (0 : Int) inputs, input i * weights (i * outputs + j)
        else output j := by
  unfold layer_dense
  simp only [forUp_sum]
  have := store_row_apply outputs
    (fun o => bias o + ∑ i in Finset.Ico (0 : Int) inputs, input i * weights (i * outputs + o))
    0 output j
  simp only [zero_add, sub_zero] at this
  exact this

theorem forFrom_one_three {σ : Type} (body : Int → σ → σ) (init : σ) :
    forFrom 1 3 body init = body 2 (body 1 init) := by
  have : ((3 : Int) - 1).toNat = 2 := rfl
  simp [forFrom, this, List.range_succ]

theorem run_har_inference_argmax_eq {α : Type} [LT α]
    [DecidableRel (fun a b : α => a < b)] (d : Arr α) :
    run_har_inference_argmax d
      = if d 1 > d 0 then (if d 2 > d 1 then 2 else 1) else (if d 2 > d 0 then 2 else 0) := by
  unfold run_har_inference_argmax
  rw [show DENSE_OUTPUTS = 3 from rfl, forFrom_one_three]
  by_cases h1 : d 1 > d 0
  · by_cases h2 : d 2 > d 1 <;> simp [h1, h2]
  · by_cases h2 : d 2 > d 0 <;> simp [h1, h2]

/-! ## Dependence on the inputs -/

theorem forUp_congr {σ : Type} (n : Int) (body1 body2 : Int → σ → σ) (init : σ)
    (h : ∀ c, 0 ≤ c → c < n → ∀ st, body1 c st = body2 c st) :
    forUp n body1 init = forUp n body2 init := by
  rcases le_or_lt n 0 with hn | hn
  · rw [forUp_nonpos _ hn, forUp_nonpos _ hn]
  · obtain ⟨m, rfl⟩ := Int.eq_ofNat_of_zero_le hn.le
    clear hn
    induction m with
    | zero => rw [show ((0 : Nat) : Int) = 0 from rfl, forUp_zero, forUp_zero]
    | succ m ih =>
      have hc : ((m + 1 : Nat) : Int) = (m : Int) + 1 := by push_cast; ring
      rw [hc, forUp_succ, forUp_succ, ih (fun c h0 h1 => h c h0 (by omega)),
        h m (by omega) (by omega)]

/-- The window value only depends on the input values of its window. -/
theorem pool_value_congr {α : Type} [Neg α] [LT α]
    [DecidableRel (fun a b : α => a < b)] [OfNat α 340282346638528859811704183484516925440]
    (input1 input2 : Arr α)
    (channels pool_size i c : Int)
    (h : ∀ p, 0 ≤ p → p < pool_size →
      input1 ((i + p) * channels + c) = input2 ((i + p) * channels + c)) :
    pool_value input1 channels pool_size i c = pool_value input2 channels pool_size i c := by
  unfold pool_value
  apply forUp_congr
  intro p h0 h1 st
  simp only [h p h0 h1]

/-- The cursor of `linearize_buffer` at iteration `i`, for an arbitrary `buffer_head`. -/
theorem linearize_buffer_eq_fill2_any {α : Type} (ib : Int → Int → α) (head : Int)
    (dest : Arr α) :
    linearize_buffer ib head dest
      = fill2 64 6 (fun i c => ib (if i = 0 then head else (head + i) % 64) c) dest := by
  have key : ∀ n : Nat,
      (List.range n).foldl
        (fun (st : Arr α × Int) (i : Nat) =>
          (forUp HAR_CHANNELS
              (fun c d => Function.update d ((i : Int) * HAR_CHANNELS + c) (ib st.2 c)) st.1,
            Int.land (st.2 + 1) 0x3F))
        (dest, head)
      = (fill2 n 6 (fun i c => ib (if i = 0 then head else (head + i) % 64) c) dest,
          if n = 0 then head else (head + n) % 64) := by
    intro n
    induction n with
    | zero => simp [fill2]
    | succ n ih =>
      rw [List.range_succ, List.foldl_append, ih, fill2_succ]
      simp only [List.foldl_cons, List.foldl_nil, land_63, HAR_CHANNELS]
      refine Prod.ext rfl ?_
      simp only [Nat.succ_ne_zero, if_false]
      split
      · subst_vars; simp
      · push_cast; omega
  unfold linearize_buffer
  rw [show HAR_WINDOW_SIZE = ((64 : Nat) : Int) from rfl, forUp_natCast, key 64]

/-- The 384 linearised values do not depend on the prior contents of `dest`. -/
theorem linearize_buffer_agree {α : Type} (ib : Int → Int → α) (head : Int)
    (d1 d2 : Arr α) :
    agree_below 384 (linearize_buffer ib head d1) (linearize_buffer ib head d2) := by
  intro j h0 h1
  rw [linearize_buffer_eq_fill2_any, linearize_buffer_eq_fill2_any]
  exact fill2_agree 64 6 _ d1 d2 j h0 (by norm_num; omega)

/-! ## The pipeline in closed form -/

/-- With fuel above 61, `run_har_inference` returns the argmax of the closed-form dense
scores and leaves the closed-form scratch buffers behind. -/
theorem run_har_inference_eq {α : Type} [LinearOrderedRing α] (fuel : Nat) (hf : 61 < fuel)
    (w : HarWeights α) (s : HarState α) :
    run_har_inference fuel w s
      = some (run_har_inference_argmax (pipeline_dense w s),
          { s with
            linear_input := pipeline_linear s
            conv_output := pipeline_relu w s
            pool_output := pipeline_pool w s
            dense_output := pipeline_dense w s }) := by
  have hconv := layer_conv1d_eq_fill2 (pipeline_linear s) s.conv_output w.conv_weights
    w.conv_biases 64 6 8 4 1 (by decide) (by decide) fuel
    (by rw [show (((64 : Int) - 4) / 1 + 1).toNat = 61 from by decide]; exact hf)
  have hpool := layer_maxpool1d_eq_fill2 (pipeline_relu w s) s.pool_output 61 8 2 2
    (by decide) (by decide) fuel
    (by rw [show (((61 : Int) - 2) / 2 + 1).toNat = 30 from by decide]; omega)
  rw [show (((64 : Int) - 4) / 1 + 1).toNat = 61 from by decide] at hconv
  rw [show (((61 : Int) - 2) / 2 + 1).toNat = 30 from by decide] at hpool
  unfold run_har_inference
  simp only [HAR_WINDOW_SIZE, HAR_CHANNELS, CONV_FILTERS, CONV_KERNEL, CONV_STRIDE,
    POOL_SIZE, POOL_STRIDE]
  rw [show linearize_buffer s.input_buffer s.buffer_head s.linear_input = pipeline_linear s
    from rfl, hconv]
  simp only
  rw [show layer_relu
      (fill2 61 8
        (fun (t : Nat) f => w.conv_biases f + ∑ k in Finset.Ico (0 : Int) 4,
          ∑ c in Finset.Ico (0 : Int) 6,
            pipeline_linear s (((t : Int) * 1 + k) * 6 + c)
              * w.conv_weights (k * (6 * 8) + c * 8 + f))
        s.conv_output)
      (CONV_OUTPUT_LEN * 8) = pipeline_relu w s from rfl]
  rw [show CONV_OUTPUT_LEN = 61 from rfl, hpool]
  rfl

theorem pipeline_linear_agree {α : Type} (s1 s2 : HarState α)
    (hib : s1.input_buffer = s2.input_buffer) (hh : s1.buffer_head = s2.buffer_head) :
    agree_below 384 (pipeline_linear s1) (pipeline_linear s2) := by
  unfold pipeline_linear
  rw [hib, hh]
  exact linearize_buffer_agree _ _ _ _

theorem pipeline_relu_agree {α : Type} [LinearOrderedRing α] (w : HarWeights α)
    (s1 s2 : HarState α) (hib : s1.input_buffer = s2.input_buffer)
    (hh : s1.buffer_head = s2.buffer_head) :
    agree_below 488 (pipeline_relu w s1) (pipeline_relu w s2) := by
  intro j h0 h1
  have hlin := pipeline_linear_agree s1 s2 hib hh
  unfold pipeline_relu
  rw [layer_relu_apply, layer_relu_apply]
  have hv : fill2 61 8 (conv_value (pipeline_linear s1) w.conv_weights w.conv_biases 6 8 4 1)
        s1.conv_output j
      = fill2 61 8 (conv_value (pipeline_linear s2) w.conv_weights w.conv_biases 6 8 4 1)
        s2.conv_output j := by
    rw [fill2_agree 61 8 (conv_value (pipeline_linear s1) w.conv_weights w.conv_biases 6 8 4 1)
      s1.conv_output s2.conv_output j h0 (by norm_num; omega)]
    refine congrFun (fill2_congr 61 8 _ _ s2.conv_output ?_) j
    intro t ht f _ _
    unfold conv_value
    refine congrArg (fun x => w.conv_biases f + x) ?_
    apply Finset.sum_congr rfl
    intro k hk
    apply Finset.sum_congr rfl
    intro c hc
    rw [Finset.mem_Ico] at hk hc
    rw [hlin _ (by omega) (by omega)]
  rw [hv]

theorem pipeline_pool_agree {α : Type} [LinearOrderedRing α] (w : HarWeights α)
    (s1 s2 : HarState α) (hib : s1.input_buffer = s2.input_buffer)
    (hh : s1.buffer_head = s2.buffer_head) :
    agree_below 240 (pipeline_pool w s1) (pipeline_pool w s2) := by
  intro j h0 h1
  have hrelu := pipeline_relu_agree w s1 s2 hib hh
  unfold pipeline_pool
  rw [fill2_agree 30 8 (fun t c => pool_value (pipeline_relu w s1) 8 2 ((t : Int) * 2) c)
    s1.pool_output s2.pool_output j h0 (by norm_num; omega)]
  refine congrFun (fill2_congr 30 8 _ _ s2.pool_output ?_) j
  intro t ht c hc0 hc1
  apply pool_value_congr
  intro p hp0 hp1
  exact hrelu _ (by omega) (by omega)

theorem pipeline_dense_agree {α : Type} [LinearOrderedRing α] (w : HarWeights α)
    (s1 s2 : HarState α) (hib : s1.input_buffer = s2.input_buffer)
    (hh : s1.buffer_head = s2.buffer_head) :
    agree_below 3 (pipeline_dense w s1) (pipeline_dense w s2) := by
  intro j h0 h1
  have hpool := pipeline_pool_agree w s1 s2 hib hh
  unfold pipeline_dense
  rw [layer_dense_apply, layer_dense_apply, show DENSE_OUTPUTS = 3 from rfl,
    show DENSE_INPUTS = 240 from rfl, if_pos ⟨h0, h1⟩, if_pos ⟨h0, h1⟩]
  refine congrArg (fun x => w.dense_biases j + x) ?_
  apply Finset.sum_congr rfl
  intro i hi
  rw [Finset.mem_Ico] at hi
  rw [hpool i hi.1 hi.2]

theorem run_har_inference_argmax_congr {α : Type} [LT α]
    [DecidableRel (fun a b : α => a < b)] (d1 d2 : Arr α)
    (h : agree_below 3 d1 d2) :
    run_har_inference_argmax d1 = run_har_inference_argmax d2 := by
  rw [run_har_inference_argmax_eq, run_har_inference_argmax_eq, h 0 (by decide) (by decide),
    h 1 (by decide) (by decide), h 2 (by decide) (by decide)]

/-! ## Further lemmas on the kernels and the ring buffer -/

/-- With `kernel_size > steps_in` the convolution loop is not entered. -/
theorem layer_conv1d_empty {α : Type} [Add α] [Mul α]
    (input output weights bias : Arr α)
    (steps_in channels_in filters kernel_size stride : Int)
    (hks : steps_in < kernel_size) (fuel : Nat) (hfuel : 0 < fuel) :
    layer_conv1d fuel input output weights bias steps_in channels_in filters kernel_size
        stride
      = some (output, 0) := by
  obtain ⟨f, rfl⟩ : ∃ f, fuel = f + 1 := ⟨fuel - 1, by omega⟩
  have : ¬ (0 ≤ steps_in - kernel_size) := by omega
  simp [layer_conv1d, whileLoop, this]

theorem forUp_two {σ : Type} (body : Int → σ → σ) (init : σ) :
    forUp 2 body init = body 1 (body 0 init) := by
  have h2 : (2 : Int) = ((1 : Nat) : Int) + 1 := rfl
  have h1 : ((1 : Nat) : Int) = ((0 : Nat) : Int) + 1 := rfl
  rw [h2, forUp_succ, h1, forUp_succ]
  simp [forUp_zero]

theorem FLT_MAX_pos {α : Type} [LinearOrderedRing α] : (0 : α) < FLT_MAX := by
  unfold FLT_MAX
  norm_num

/-- The pooling window of size 2 over non-negative values yields their maximum. -/
theorem pool_value_two {α : Type} [LinearOrderedRing α] (input : Arr α) (channels i c : Int)
    (h0 : 0 ≤ input ((i + 0) * channels + c)) :
    pool_value input channels 2 i c
      = max (input ((i + 0) * channels + c)) (input ((i + 1) * channels + c)) := by
  unfold pool_value
  rw [forUp_two]
  have hneg : (-FLT_MAX : α) < input ((i + 0) * channels + c) :=
    lt_of_lt_of_le (neg_neg_of_pos FLT_MAX_pos) h0
  simp only [gt_iff_lt, hneg, if_true]
  by_cases h : input ((i + 0) * channels + c) < input ((i + 1) * channels + c)
  · rw [if_pos h, max_eq_right h.le]
  · rw [if_neg h, max_eq_left (not_lt.mp h)]

/-- Rows outside `0 .. n-1` are not touched by `n <= 64` pushes from cursor 0. -/
theorem pushAll_input_buffer_untouched {α : Type} (s : HarState α) (h0 : s.buffer_head = 0)
    (xs : List (Sample α)) (hn : xs.length ≤ 64) (r : Int)
    (hr : r < 0 ∨ (xs.length : Int) ≤ r) (c : Int) :
    (pushAll s xs).input_buffer r c = s.input_buffer r c := by
  induction xs using List.reverseRecOn with
  | nil => rfl
  | append_singleton xs y ih =>
    simp only [List.length_append, List.length_singleton] at hn hr
    rw [pushAll_snoc, push_input_buffer, pushAll_buffer_head s h0]
    have hne : ¬ (r = (xs.length : Int) % 64 ∧ 0 ≤ c ∧ c < 6) := by
      push_cast at hr
      omega
    rw [if_neg hne]
    exact ih (by omega) (by push_cast at hr; omega)

/-! ## Invariants of the access traces -/

/-- A property of the loop state that every iteration preserves holds after the loop. -/
theorem forUp_forall {σ : Type} (P : σ → Prop) (n : Int) (body : Int → σ → σ) (init : σ)
    (h0 : P init) (hstep : ∀ c st, 0 ≤ c → c < n → P st → P (body c st)) :
    P (forUp n body init) := by
  rcases le_or_lt n 0 with hn | hn
  · rw [forUp_nonpos _ hn]; exact h0
  · obtain ⟨m, rfl⟩ := Int.eq_ofNat_of_zero_le hn.le
    clear hn
    induction m with
    | zero => rw [show ((0 : Nat) : Int) = 0 from rfl, forUp_zero]; exact h0
    | succ m ih =>
      have hc : ((m + 1 : Nat) : Int) = (m : Int) + 1 := by push_cast; ring
      rw [hc, forUp_succ]
      apply hstep _ _ (by omega) (by omega)
      exact ih (fun c st hc0 hc1 => hstep c st hc0 (by omega))

/-- A fold over `0 .. m-1` with an invariant indexed by the iteration number. -/
theorem foldl_range_forall {σ : Type} (Q : Nat → σ → Prop) (m : Nat) (body : σ → Nat → σ)
    (init : σ) (h0 : Q 0 init) (hstep : ∀ j st, j < m → Q j st → Q (j + 1) (body st j)) :
    Q m ((List.range m).foldl body init) := by
  induction m with
  | zero => exact h0
  | succ m ih =>
    rw [List.range_succ, List.foldl_append]
    exact hstep m _ (by omega) (ih (fun j st hj => hstep j st (by omega)))

/-- A strided loop over `(accesses, out_step)` that runs `m` iterations returns with
`out_step = m`, and a property of accesses that every iteration preserves still holds. -/
theorem whileLoop_trace_forall (P : Access → Prop) (cond : Int → Bool) (stride : Int)
    (row : Int → Int → List Access → List Access) (fuel m : Nat) (tr : List Access)
    (hfuel : m < fuel)
    (hin : ∀ j : Nat, j < m → cond (0 + j * stride) = true)
    (hex : cond (0 + m * stride) = false)
    (hrow : ∀ (j : Nat) (t : List Access), j < m → (∀ a ∈ t, P a) →
      ∀ a ∈ row ((j : Int) * stride) j t, P a)
    (htr : ∀ a ∈ tr, P a) :
    ∃ t' : List Access,
      whileLoop cond stride (fun i (st : List Access × Int) => (row i st.2 st.1, st.2 + 1))
          fuel 0 (tr, 0)
        = some (t', (m : Int)) ∧
      ∀ a ∈ t', P a := by
  rw [whileLoop_eq_fold cond stride _ m fuel 0 _ hfuel hin hex]
  have key := foldl_range_forall
    (fun j (st : List Access × Int) => st.2 = (j : Int) ∧ ∀ a ∈ st.1, P a) m
    (fun (st : List Access × Int) (j : Nat) =>
      (row (0 + (j : Int) * stride) st.2 st.1, st.2 + 1))
    (tr, 0) ⟨rfl, htr⟩
    (by
      intro j st hj hQ
      refine ⟨by simp only [hQ.1]; push_cast; ring, ?_⟩
      simp only [hQ.1, zero_add]
      exact hrow j st.1 hj hQ.2)
  obtain ⟨hk1, hk2⟩ := key
  refine ⟨_, ?_, hk2⟩
  exact congrArg some (Prod.ext rfl hk1)

/-- Every access of one convolution step satisfies `P` when the four kinds of access it
makes do. -/
theorem conv_step_trace_forall (P : Access → Prop) (input output weights bias : Buf)
    (channels_in filters kernel_size i out_step : Int) (tr : List Access)
    (htr : ∀ a ∈ tr, P a)
    (hout : ∀ f, 0 ≤ f → f < filters →
      P (Access.at1 bias f) ∧ P (Access.at1 output (out_step * filters + f)))
    (hin : ∀ f k c, 0 ≤ f → f < filters → 0 ≤ k → k < kernel_size → 0 ≤ c → c < channels_in →
      P (Access.at1 input ((i + k) * channels_in + c)) ∧
      P (Access.at1 weights (k * (channels_in * filters) + c * filters + f))) :
    ∀ a ∈ conv_step_trace input output weights bias channels_in filters kernel_size i out_step
      tr, P a := by
  unfold conv_step_trace
  apply forUp_forall (fun t => ∀ a ∈ t, P a) _ _ _ htr
  intro f t hf0 hf1 ht
  simp only [List.forall_mem_cons]
  refine ⟨(hout f hf0 hf1).2, ?_⟩
  apply forUp_forall (fun t => ∀ a ∈ t, P a)
  · simp only [List.forall_mem_cons]
    exact ⟨(hout f hf0 hf1).1, ht⟩
  · intro k t2 hk0 hk1 ht2
    apply forUp_forall (fun t => ∀ a ∈ t, P a) _ _ _ ht2
    intro c t3 hc0 hc1 ht3
    simp only [List.forall_mem_cons]
    exact ⟨(hin f k c hf0 hf1 hk0 hk1 hc0 hc1).2, (hin f k c hf0 hf1 hk0 hk1 hc0 hc1).1, ht3⟩

/-- Every access of one pooling step satisfies `P` when the two kinds of access it makes
do. -/
theorem pool_step_trace_forall (P : Access → Prop) (input output : Buf)
    (channels pool_size i out_step : Int) (tr : List Access) (htr : ∀ a ∈ tr, P a)
    (hout : ∀ c, 0 ≤ c → c < channels → P (Access.at1 output (out_step * channels + c)))
    (hin : ∀ c p, 0 ≤ c → c < channels → 0 ≤ p → p < pool_size →
      P (Access.at1 input ((i + p) * channels + c))) :
    ∀ a ∈ pool_step_trace input output channels pool_size i out_step tr, P a := by
  unfold pool_step_trace
  apply forUp_forall (fun t => ∀ a ∈ t, P a) _ _ _ htr
  intro c t hc0 hc1 ht
  simp only [List.forall_mem_cons]
  refine ⟨hout c hc0 hc1, ?_⟩
  apply forUp_forall (fun t => ∀ a ∈ t, P a) _ _ _ ht
  intro p t2 hp0 hp1 ht2
  simp only [List.forall_mem_cons]
  exact ⟨hin c p hc0 hc1 hp0 hp1, ht2⟩

theorem layer_relu_trace_forall (P : Access → Prop) (data : Buf) (size : Int)
    (tr : List Access) (htr : ∀ a ∈ tr, P a)
    (h : ∀ i, 0 ≤ i → i < size → P (Access.at1 data i)) :
    ∀ a ∈ layer_relu_trace data size tr, P a := by
  unfold layer_relu_trace
  apply forUp_forall (fun t => ∀ a ∈ t, P a) _ _ _ htr
  intro i t h0 h1 ht
  simp only [List.forall_mem_cons]
  exact ⟨h i h0 h1, ht⟩

theorem layer_dense_trace_forall (P : Access → Prop) (input output weights bias : Buf)
    (inputs outputs : Int) (tr : List Access) (htr : ∀ a ∈ tr, P a)
    (hout : ∀ o, 0 ≤ o → o < outputs → P (Access.at1 bias o) ∧ P (Access.at1 output o))
    (hin : ∀ o i, 0 ≤ o → o < outputs → 0 ≤ i → i < inputs →
      P (Access.at1 input i) ∧ P (Access.at1 weights (i * outputs + o))) :
    ∀ a ∈ layer_dense_trace input output weights bias inputs outputs tr, P a := by
  unfold layer_dense_trace
  apply forUp_forall (fun t => ∀ a ∈ t, P a) _ _ _ htr
  intro o t ho0 ho1 ht
  simp only [List.forall_mem_cons]
  refine ⟨(hout o ho0 ho1).2, ?_⟩
  apply forUp_forall (fun t => ∀ a ∈ t, P a)
  · simp only [List.forall_mem_cons]
    exact ⟨(hout o ho0 ho1).1, ht⟩
  · intro i t2 hi0 hi1 ht2
    simp only [List.forall_mem_cons]
    exact ⟨(hin o i ho0 ho1 hi0 hi1).2, (hin o i ho0 ho1 hi0 hi1).1, ht2⟩

/-- The rows and elements `linearize_buffer` accesses, for a cursor in `0 .. 63`. -/
theorem linearize_buffer_trace_forall (P : Access → Prop) (head : Int) (h0 : 0 ≤ head)
    (h1 : head < 64) (dest : Buf) (tr : List Access) (htr : ∀ a ∈ tr, P a)
    (h : ∀ i c r, 0 ≤ i → i < 64 → 0 ≤ c → c < 6 → 0 ≤ r → r < 64 →
      P (Access.at1 dest (i * 6 + c)) ∧ P (Access.at2 Buf.input_buffer r c)) :
    ∀ a ∈ linearize_buffer_trace head dest tr, P a := by
  unfold linearize_buffer_trace
  have key := forUp_forall
    (fun (st : List Access × Int) => (0 ≤ st.2 ∧ st.2 < 64) ∧ ∀ a ∈ st.1, P a)
    HAR_WINDOW_SIZE
    (fun i (st : List Access × Int) =>
      (forUp HAR_CHANNELS
          (fun c tr =>
            Access.at1 dest (i * HAR_CHANNELS + c) :: Access.at2 Buf.input_buffer st.2 c :: tr)
          st.1,
        Int.land (st.2 + 1) 0x3F))
    (tr, head) ⟨⟨h0, h1⟩, htr⟩
    (by
      intro i st hi0 hi1 hst
      refine ⟨by simp only [land_63]; omega, ?_⟩
      dsimp only
      apply forUp_forall (fun t => ∀ a ∈ t, P a) _ _ _ hst.2
      intro c t hc0 hc1 ht
      simp only [List.forall_mem_cons]
      have := h i c st.2 hi0 hi1 hc0 hc1 hst.1.1 hst.1.2
      exact ⟨this.1, this.2, ht⟩)
  exact key.2

/-! ## The access traces of the fixed configuration -/

/-- The trace of `layer_conv1d` for 64 steps, 6 channels, 8 filters, kernel 4, stride 1. -/
theorem layer_conv1d_trace_fixed (P : Access → Prop) (fuel : Nat) (hf : 61 < fuel)
    (input output weights bias : Buf) (tr : List Access) (htr : ∀ a ∈ tr, P a)
    (h : ∀ s f k c : Int, 0 ≤ s → s < 61 → 0 ≤ f → f < 8 → 0 ≤ k → k < 4 → 0 ≤ c → c < 6 →
      P (Access.at1 bias f) ∧ P (Access.at1 output (s * 8 + f)) ∧
      P (Access.at1 input ((s * 1 + k) * 6 + c)) ∧
      P (Access.at1 weights (k * (6 * 8) + c * 8 + f))) :
    ∃ t' : List Access,
      layer_conv1d_trace fuel input output weights bias 64 6 8 4 1 tr = some (t', 61) ∧
      ∀ a ∈ t', P a := by
  unfold layer_conv1d_trace
  refine whileLoop_trace_forall P _ 1
    (fun i os t => conv_step_trace input output weights bias 6 8 4 i os t) fuel 61 tr hf
    (fun j hj => by rw [decide_eq_true_iff]; omega)
    (by rw [decide_eq_false_iff_not]; omega) ?_ htr
  intro j t hj ht
  apply conv_step_trace_forall P _ _ _ _ _ _ _ _ _ _ ht
  · intro f hf0 hf1
    have := h j f 0 0 (by omega) (by omega) hf0 hf1 (by decide) (by decide) (by decide)
      (by decide)
    exact ⟨this.1, this.2.1⟩
  · intro f k c hf0 hf1 hk0 hk1 hc0 hc1
    have := h j f k c (by omega) (by omega) hf0 hf1 hk0 hk1 hc0 hc1
    exact ⟨this.2.2.1, this.2.2.2⟩

/-- The trace of `layer_maxpool1d` for 61 steps, 8 channels, pool 2, stride 2. -/
theorem layer_maxpool1d_trace_fixed (P : Access → Prop) (fuel : Nat) (hf : 30 < fuel)
    (input output : Buf) (tr : List Access) (htr : ∀ a ∈ tr, P a)
    (h : ∀ s c p : Int, 0 ≤ s → s < 30 → 0 ≤ c → c < 8 → 0 ≤ p → p < 2 →
      P (Access.at1 output (s * 8 + c)) ∧ P (Access.at1 input ((s * 2 + p) * 8 + c))) :
    ∃ t' : List Access,
      layer_maxpool1d_trace fuel input output 61 8 2 2 tr = some (t', 30) ∧
      ∀ a ∈ t', P a := by
  unfold layer_maxpool1d_trace
  refine whileLoop_trace_forall P _ 2
    (fun i os t => pool_step_trace input output 8 2 i os t) fuel 30 tr hf
    (fun j hj => by rw [decide_eq_true_iff]; omega)
    (by rw [decide_eq_false_iff_not]; omega) ?_ htr
  intro j t hj ht
  apply pool_step_trace_forall P _ _ _ _ _ _ _ ht
  · intro c hc0 hc1
    exact (h j c 0 (by omega) (by omega) hc0 hc1 (by decide) (by decide)).1
  · intro c p hc0 hc1 hp0 hp1
    exact (h j c p (by omega) (by omega) hc0 hc1 hp0 hp1).2

theorem run_har_inference_argmax_trace_forall (P : Access → Prop) (tr : List Access)
    (htr : ∀ a ∈ tr, P a)
    (h : ∀ i : Int, 0 ≤ i → i < 3 → P (Access.at1 Buf.dense_output i)) :
    ∀ a ∈ run_har_inference_argmax_trace tr, P a := by
  unfold run_har_inference_argmax_trace
  rw [show DENSE_OUTPUTS = 3 from rfl, forFrom_one_three]
  simp only [List.forall_mem_cons]
  exact ⟨h 2 (by decide) (by decide), h 1 (by decide) (by decide),
    h 0 (by decide) (by decide), htr⟩

/-! ## 32-bit arithmetic -/

theorem wrap32_eq (x : Int) (h0 : INT_MIN ≤ x) (h1 : x ≤ INT_MAX) : wrap32 x = x := by
  unfold INT_MIN at h0
  unfold INT_MAX at h1
  unfold wrap32
  omega

theorem wrap32_range (x : Int) : INT_MIN ≤ wrap32 x ∧ wrap32 x ≤ INT_MAX := by
  unfold INT_MIN INT_MAX wrap32
  omega

/-- A 32-bit strided loop whose counter stays within the range of `int` for its `m`
iterations returns, with any fuel above `m`, the fold of its body over the visited
positions. -/
theorem whileLoop32_eq_fold {σ : Type} (cond : Int → Bool) (stride : Int)
    (body : Int → σ → σ) (m : Nat) :
    ∀ (fuel : Nat) (i : Int) (st : σ), m < fuel →
      (∀ j : Nat, j < m → cond (i + j * stride) = true) →
      cond (i + m * stride) = false →
      (∀ j : Nat, j ≤ m → INT_MIN ≤ i + j * stride ∧ i + j * stride ≤ INT_MAX) →
      whileLoop32 cond stride body fuel i st
        = some ((List.range m).foldl (fun st (j : Nat) => body (i + j * stride) st) st) := by
  induction m with
  | zero =>
    intro fuel i st hf _ hex _
    obtain ⟨f, rfl⟩ : ∃ f, fuel = f + 1 := ⟨fuel - 1, by omega⟩
    simp at hex
    simp [whileLoop32, hex]
  | succ m ih =>
    intro fuel i st hf hin hex hrange
    obtain ⟨f, rfl⟩ : ∃ f, fuel = f + 1 := ⟨fuel - 1, by omega⟩
    have hc0 : cond i = true := by simpa using hin 0 (by omega)
    have hw : wrap32 (i + stride) = i + stride := by
      have := hrange 1 (by omega)
      apply wrap32_eq
      · simpa using this.1
      · simpa using this.2
    have hrec := ih f (i + stride) (body i st) (by omega)
      (fun j hj => by
        have := hin (j + 1) (by omega)
        rw [← this]; congr 1; push_cast; ring)
      (by rw [← hex]; congr 1; push_cast; ring)
      (fun j hj => by
        have := hrange (j + 1) (by omega)
        have e : i + stride + (j : Int) * stride = i + ((j + 1 : Nat) : Int) * stride := by
          push_cast; ring
        rw [e]; exact this)
    simp only [whileLoop32, hc0, if_true, hw, hrec]
    rw [List.range_succ_eq_map, List.foldl_cons, List.foldl_map]
    congr 2
    · funext st j
      congr 1
      push_cast; ring
    · simp

/-- A 32-bit strided loop whose condition holds on a set of counter values closed under
the wrapped step never returns: it runs out of any fuel. -/
theorem whileLoop32_none {σ : Type} (cond : Int → Bool) (stride : Int) (body : Int → σ → σ)
    (inv : Int → Prop) (hinv : ∀ i, inv i → cond i = true ∧ inv (wrap32 (i + stride))) :
    ∀ (fuel : Nat) (i : Int) (st : σ), inv i → whileLoop32 cond stride body fuel i st = none := by
  intro fuel
  induction fuel with
  | zero => intro i st _; rfl
  | succ f ih =>
    intro i st hi
    simp only [whileLoop32, (hinv i hi).1, if_true]
    exact ih _ _ (hinv i hi).2

/-- Two folds over `0 .. m-1` agree when their bodies agree on the states the second one
visits, described by an invariant. -/
theorem foldl_range_congr {σ : Type} (Q : Nat → σ → Prop) (m : Nat) (b1 b2 : σ → Nat → σ)
    (init : σ) (h0 : Q 0 init) (hQ : ∀ j st, j < m → Q j st → Q (j + 1) (b2 st j))
    (h : ∀ j st, j < m → Q j st → b1 st j = b2 st j) :
    (List.range m).foldl b1 init = (List.range m).foldl b2 init := by
  induction m with
  | zero => rfl
  | succ m ih =>
    rw [List.range_succ, List.foldl_append, List.foldl_append,
      ih (fun j st hj => hQ j st (by omega)) (fun j st hj => h j st (by omega))]
    simp only [List.foldl_cons, List.foldl_nil]
    exact h m _ (by omega)
      (foldl_range_forall Q m b2 init h0 (fun j st hj => hQ j st (by omega)))

/-- The counted loop `for (c = 0; c < n; c++)`, run with a 32-bit counter, returns with
the result of `forUp` once the fuel exceeds its `n` iterations: the counter stops at `n`
and does not overflow. -/
theorem counted_loop_returns {σ : Type} (n : Int) (hn : n ≤ INT_MAX) (body : Int → σ → σ)
    (init : σ) (fuel : Nat) (hfuel : n.toNat < fuel) :
    whileLoop32 (fun c => decide (c < n)) 1 body fuel 0 init = some (forUp n body init) := by
  have hrange : ∀ j : Nat, j ≤ n.toNat →
      INT_MIN ≤ (0 : Int) + (j : Int) * 1 ∧ (0 : Int) + (j : Int) * 1 ≤ INT_MAX := by
    intro j hj
    unfold INT_MIN
    unfold INT_MAX at hn ⊢
    omega
  rw [whileLoop32_eq_fold _ 1 body n.toNat fuel 0 init hfuel
    (fun j hj => by rw [decide_eq_true_iff]; omega)
    (by rw [decide_eq_false_iff_not]; omega) hrange]
  unfold forUp
  have hb : (fun (st : σ) (j : Nat) => body (0 + (j : Int) * 1) st)
      = fun (st : σ) (c : Nat) => body (c : Int) st := by
    funext st j
    rw [zero_add, mul_one]
  rw [hb]

/-! ## Index arithmetic without overflow -/

/-- The index `a * b + c` of element `c` in row `a`, computed in 32 bits, is exact when
the `n * b` elements of the rows `0 .. n-1` can be counted in an `int`. -/
theorem wrap32_row_index (a b c n : Int) (ha : 0 ≤ a) (han : a + 1 ≤ n) (hc0 : 0 ≤ c)
    (hc1 : c < b) (hsz : n * b ≤ INT_MAX) :
    wrap32 (wrap32 (a * b) + c) = a * b + c ∧ wrap32 a = a := by
  have h1 : (a + 1) * b ≤ n * b := mul_le_mul_of_nonneg_right han (by omega)
  have h2 : 0 ≤ a * b := mul_nonneg ha (by omega)
  have h3 : (a + 1) * b = a * b + b := by ring
  have h4 : a * 1 ≤ a * b := mul_le_mul_of_nonneg_left (by omega) ha
  have hmin : INT_MIN = -2147483648 := rfl
  rw [wrap32_eq (a * b) (by omega) (by omega), wrap32_eq _ (by omega) (by omega)]
  exact ⟨rfl, wrap32_eq a (by omega) (by omega)⟩

/-- The weight index of `layer_conv1d`, computed in 32 bits, is exact when the
`kernel_size * channels_in * filters` weights can be counted in an `int`. -/
theorem wrap32_weight_index (k c f kernel_size channels_in filters : Int) (hk0 : 0 ≤ k)
    (hk1 : k < kernel_size) (hc0 : 0 ≤ c) (hc1 : c < channels_in) (hf0 : 0 ≤ f)
    (hf1 : f < filters) (hsz : kernel_size * (channels_in * filters) ≤ INT_MAX) :
    wrap32 (wrap32 (wrap32 (k * wrap32 (channels_in * filters)) + wrap32 (c * filters)) + f)
      = k * (channels_in * filters) + c * filters + f := by
  have hcf : 0 ≤ channels_in * filters := mul_nonneg (by omega) (by omega)
  have h1 : (k + 1) * (channels_in * filters) ≤ kernel_size * (channels_in * filters) :=
    mul_le_mul_of_nonneg_right (by omega) hcf
  have h2 : (c + 1) * filters ≤ channels_in * filters :=
    mul_le_mul_of_nonneg_right (by omega) (by omega)
  have h3 : 0 ≤ k * (channels_in * filters) := mul_nonneg hk0 hcf
  have h4 : 0 ≤ c * filters := mul_nonneg hc0 (by omega)
  have h5 : (k + 1) * (channels_in * filters)
      = k * (channels_in * filters) + channels_in * filters := by ring
  have h6 : (c + 1) * filters = c * filters + filters := by ring
  have hmin : INT_MIN = -2147483648 := rfl
  rw [wrap32_eq (channels_in * filters) (by omega) (by omega),
    wrap32_eq (k * (channels_in * filters)) (by omega) (by omega),
    wrap32_eq (c * filters) (by omega) (by omega),
    wrap32_eq (k * (channels_in * filters) + c * filters) (by omega) (by omega),
    wrap32_eq _ (by omega) (by omega)]

/-- The positions a strided loop visits, and the number of its iterations, when the
window fits: the positions lie within `0 .. steps_out * stride`, where
`steps_out = (steps_in - size) / stride + 1`. -/
theorem valid_steps_range (steps_in size stride : Int) (hsz : size ≤ steps_in)
    (hs : 1 ≤ stride) :
    (∀ j : Nat, j ≤ ((steps_in - size) / stride + 1).toNat →
        0 ≤ (j : Int) * stride ∧
          (j : Int) * stride ≤ ((steps_in - size) / stride + 1) * stride) ∧
      (steps_in - size) / stride + 1 ≤ steps_in - size + 1 := by
  have hpos : 0 < stride := by omega
  have hL : 0 ≤ steps_in - size := by omega
  have hq : 0 ≤ (steps_in - size) / stride := Int.ediv_nonneg hL hpos.le
  have hm : ((((steps_in - size) / stride + 1).toNat : Nat) : Int)
      = (steps_in - size) / stride + 1 := Int.toNat_of_nonneg (by omega)
  constructor
  · intro j hj
    have hj' : (j : Int) ≤ (steps_in - size) / stride + 1 := by omega
    exact ⟨mul_nonneg (Int.ofNat_nonneg j) hpos.le, mul_le_mul_of_nonneg_right hj' hpos.le⟩
  · have : (steps_in - size) / stride ≤ steps_in - size := Int.ediv_le_self _ hL
    omega

/-! ## The 32-bit kernels where nothing overflows -/

/-- With `kernel_size <= steps_in`, `stride >= 1` and `steps_out * stride` within the range
of `int`, where `steps_out = (steps_in - kernel_size) / stride + 1`, the 32-bit
`layer_conv1d` returns after `steps_out` output steps. -/
theorem layer_conv1d_i32_count {α : Type} [Add α] [Mul α]
    (input output weights bias : Arr α)
    (steps_in channels_in filters kernel_size stride : Int)
    (hks : kernel_size ≤ steps_in) (hs : 1 ≤ stride)
    (hov : ((steps_in - kernel_size) / stride + 1) * stride ≤ INT_MAX) (fuel : Nat)
    (hfuel : ((steps_in - kernel_size) / stride + 1).toNat < fuel) :
    ∃ out : Arr α,
      layer_conv1d_i32 fuel input output weights bias steps_in channels_in filters kernel_size
          stride
        = some (out, (steps_in - kernel_size) / stride + 1) := by
  obtain ⟨hin, hex⟩ := valid_steps_bounds steps_in kernel_size stride hks hs
  obtain ⟨hrange, hmle⟩ := valid_steps_range steps_in kernel_size stride hks hs
  have hq : 0 ≤ (steps_in - kernel_size) / stride :=
    Int.ediv_nonneg (by omega) (by omega)
  have hLlt : steps_in - kernel_size < ((steps_in - kernel_size) / stride + 1) * stride :=
    Int.lt_ediv_add_one_mul_self _ (by omega)
  have hmst : (steps_in - kernel_size) / stride + 1
      ≤ ((steps_in - kernel_size) / stride + 1) * stride :=
    le_mul_of_one_le_right (by omega) hs
  have hmin : INT_MIN = -2147483648 := rfl
  have hmax : INT_MAX = 2147483647 := rfl
  have hL : wrap32 (steps_in - kernel_size) = steps_in - kernel_size :=
    wrap32_eq _ (by omega) (by omega)
  unfold layer_conv1d_i32
  rw [hL, whileLoop32_eq_fold _ stride _ ((steps_in - kernel_size) / stride + 1).toNat fuel 0 _
    hfuel (fun j hj => by simpa using hin j hj) (by simpa using hex)
    (fun j hj => by have := hrange j hj; omega)]
  have key := foldl_range_forall
    (fun j (st : Arr α × Int) => st.2 = (j : Int))
    ((steps_in - kernel_size) / stride + 1).toNat
    (fun (st : Arr α × Int) (j : Nat) =>
      (forUp filters
          (fun f out =>
            Function.update out (wrap32 (wrap32 (st.2 * filters) + f))
              (forUp kernel_size
                (fun k sum =>
                  forUp channels_in
                    (fun c sum =>
                      sum + input (wrap32 (wrap32 (wrap32 (0 + (j : Int) * stride + k)
                          * channels_in) + c))
                        * weights (wrap32 (wrap32 (wrap32 (k * wrap32 (channels_in * filters))
                          + wrap32 (c * filters)) + f)))
                    sum)
                (bias f)))
          st.1,
        wrap32 (st.2 + 1)))
    (output, 0) rfl
    (by
      intro j st hj hQ
      simp only [hQ]
      rw [wrap32_eq _ (by omega) (by omega)]
      push_cast; ring)
  dsimp only at key
  rw [Int.toNat_of_nonneg (by omega)] at key
  exact ⟨_, congrArg some (Prod.ext rfl key)⟩

/-- With `kernel_size > steps_in` (and `steps_in - kernel_size` within the range of `int`)
the 32-bit convolution loop is not entered. -/
theorem layer_conv1d_i32_skip {α : Type} [Add α] [Mul α]
    (input output weights bias : Arr α)
    (steps_in channels_in filters kernel_size stride : Int)
    (hks : steps_in < kernel_size) (hlo : INT_MIN ≤ steps_in - kernel_size) (fuel : Nat)
    (hfuel : 0 < fuel) :
    layer_conv1d_i32 fuel input output weights bias steps_in channels_in filters kernel_size
        stride
      = some (output, 0) := by
  obtain ⟨f, rfl⟩ : ∃ f, fuel = f + 1 := ⟨fuel - 1, by omega⟩
  have hmax : INT_MAX = 2147483647 := rfl
  have hL : wrap32 (steps_in - kernel_size) = steps_in - kernel_size :=
    wrap32_eq _ hlo (by omega)
  have : ¬ (0 ≤ steps_in - kernel_size) := by omega
  simp [layer_conv1d_i32, whileLoop32, hL, this]

/-- Where no `int` operation overflows, the 32-bit `layer_conv1d` and the one with exact
integer arithmetic give the same result. -/
theorem layer_conv1d_i32_eq {α : Type} [Add α] [Mul α]
    (input output weights bias : Arr α)
    (steps_in channels_in filters kernel_size stride : Int)
    (hks : kernel_size ≤ steps_in) (hs : 1 ≤ stride)
    (hov : ((steps_in - kernel_size) / stride + 1) * stride ≤ INT_MAX)
    (hisz : steps_in * channels_in ≤ INT_MAX)
    (hwsz : kernel_size * (channels_in * filters) ≤ INT_MAX)
    (hosz : ((steps_in - kernel_size) / stride + 1) * filters ≤ INT_MAX) (fuel : Nat)
    (hfuel : ((steps_in - kernel_size) / stride + 1).toNat < fuel) :
    layer_conv1d_i32 fuel input output weights bias steps_in channels_in filters kernel_size
        stride
      = layer_conv1d fuel input output weights bias steps_in channels_in filters kernel_size
          stride := by
  obtain ⟨hin, hex⟩ := valid_steps_bounds steps_in kernel_size stride hks hs
  obtain ⟨hrange, hmle⟩ := valid_steps_range steps_in kernel_size stride hks hs
  have hq : 0 ≤ (steps_in - kernel_size) / stride :=
    Int.ediv_nonneg (by omega) (by omega)
  have hLlt : steps_in - kernel_size < ((steps_in - kernel_size) / stride + 1) * stride :=
    Int.lt_ediv_add_one_mul_self _ (by omega)
  have hmst : (steps_in - kernel_size) / stride + 1
      ≤ ((steps_in - kernel_size) / stride + 1) * stride :=
    le_mul_of_one_le_right (by omega) hs
  have hmin : INT_MIN = -2147483648 := rfl
  have hmax : INT_MAX = 2147483647 := rfl
  have hL : wrap32 (steps_in - kernel_size) = steps_in - kernel_size :=
    wrap32_eq _ (by omega) (by omega)
  have hm : ((((steps_in - kernel_size) / stride + 1).toNat : Nat) : Int)
      = (steps_in - kernel_size) / stride + 1 := Int.toNat_of_nonneg (by omega)
  unfold layer_conv1d_i32 layer_conv1d
  rw [hL, whileLoop32_eq_fold _ stride _ ((steps_in - kernel_size) / stride + 1).toNat fuel 0 _
    hfuel (fun j hj => by simpa using hin j hj) (by simpa using hex)
    (fun j hj => by have := hrange j hj; omega),
    whileLoop_eq_fold _ stride _ ((steps_in - kernel_size) / stride + 1).toNat fuel 0 _
    hfuel (fun j hj => by simpa using hin j hj) (by simpa using hex)]
  refine congrArg some ?_
  apply foldl_range_congr (fun j (st : Arr α × Int) => st.2 = (j : Int)) _ _ _ _ rfl
  · intro j st hj hQ
    simp only [hQ]
    push_cast; ring
  · intro j st hj hQ
    obtain ⟨out, os⟩ := st
    simp only at hQ
    subst hQ
    have hjL := hin j hj
    refine Prod.ext ?_ ?_
    · dsimp only
      apply forUp_congr
      intro f hf0 hf1 o
      have hoi := wrap32_row_index (j : Int) filters f
        ((steps_in - kernel_size) / stride + 1) (by omega) (by omega) hf0 hf1 hosz
      simp only [hoi.1]
      clear hoi
      refine congrArg (Function.update o ((j : Int) * filters + f)) ?_
      apply forUp_congr
      intro k hk0 hk1 sum
      apply forUp_congr
      intro c hc0 hc1 sum2
      have h0 : (0 : Int) ≤ (j : Int) * stride :=
        mul_nonneg (Int.ofNat_nonneg j) (le_trans Int.one_nonneg hs)
      have hii := wrap32_row_index (0 + (j : Int) * stride + k) channels_in c steps_in
        (by omega) (by omega) hc0 hc1 hisz
      have hwi := wrap32_weight_index k c f kernel_size channels_in filters hk0 hk1 hc0 hc1
        hf0 hf1 hwsz
      simp only [hii.2, hii.1, hwi]
    · simp only
      exact wrap32_eq _ (by omega) (by omega)

/-- With `pool_size <= steps_in`, `stride >= 1` and both `steps_out * stride` and
`steps_out * stride + pool_size` within the range of `int`, where
`steps_out = (steps_in - pool_size) / stride + 1`, the 32-bit `layer_maxpool1d` returns
after `steps_out` output steps. -/
theorem layer_maxpool1d_i32_count {α : Type} [Neg α] [LT α]
    [DecidableRel (fun a b : α => a < b)] [OfNat α 340282346638528859811704183484516925440]
    (input output : Arr α) (steps_in channels pool_size stride : Int)
    (hps : pool_size ≤ steps_in) (hs : 1 ≤ stride) (hlo : INT_MIN ≤ pool_size)
    (hov : ((steps_in - pool_size) / stride + 1) * stride ≤ INT_MAX)
    (hov2 : ((steps_in - pool_size) / stride + 1) * stride + pool_size ≤ INT_MAX)
    (fuel : Nat) (hfuel : ((steps_in - pool_size) / stride + 1).toNat < fuel) :
    ∃ out : Arr α,
      layer_maxpool1d_i32 fuel input output steps_in channels pool_size stride
        = some (out, (steps_in - pool_size) / stride + 1) := by
  obtain ⟨hin, hex⟩ := valid_steps_bounds steps_in pool_size stride hps hs
  obtain ⟨hrange, hmle⟩ := valid_steps_range steps_in pool_size stride hps hs
  have hq : 0 ≤ (steps_in - pool_size) / stride :=
    Int.ediv_nonneg (by omega) (by omega)
  have hLlt : steps_in - pool_size < ((steps_in - pool_size) / stride + 1) * stride :=
    Int.lt_ediv_add_one_mul_self _ (by omega)
  have hmst : (steps_in - pool_size) / stride + 1
      ≤ ((steps_in - pool_size) / stride + 1) * stride :=
    le_mul_of_one_le_right (by omega) hs
  have hmin : INT_MIN = -2147483648 := rfl
  have hmax : INT_MAX = 2147483647 := rfl
  have hw : ∀ j : Nat, j ≤ ((steps_in - pool_size) / stride + 1).toNat →
      wrap32 (0 + (j : Int) * stride + pool_size) = 0 + (j : Int) * stride + pool_size := by
    intro j hj
    have := hrange j hj
    exact wrap32_eq _ (by omega) (by omega)
  unfold layer_maxpool1d_i32
  rw [whileLoop32_eq_fold _ stride _ ((steps_in - pool_size) / stride + 1).toNat fuel 0 _
    hfuel
    (fun j hj => by
      have := hin j hj
      rw [decide_eq_true_iff, hw j (by omega)]
      omega)
    (by rw [decide_eq_false_iff_not, hw _ le_rfl]; omega)
    (fun j hj => by have := hrange j hj; omega)]
  have key := foldl_range_forall
    (fun j (st : Arr α × Int) => st.2 = (j : Int))
    ((steps_in - pool_size) / stride + 1).toNat
    (fun (st : Arr α × Int) (j : Nat) =>
      (forUp channels
          (fun c out =>
            Function.update out (wrap32 (wrap32 (st.2 * channels) + c))
              (forUp pool_size
                (fun p max_val =>
                  if input (wrap32 (wrap32 (wrap32 (0 + (j : Int) * stride + p) * channels) + c))
                      > max_val
                  then input (wrap32 (wrap32 (wrap32 (0 + (j : Int) * stride + p) * channels)
                    + c))
                  else max_val)
                (-FLT_MAX)))
          st.1,
        wrap32 (st.2 + 1)))
    (output, 0) rfl
    (by
      intro j st hj hQ
      simp only [hQ]
      rw [wrap32_eq _ (by omega) (by omega)]
      push_cast; ring)
  dsimp only at key
  rw [Int.toNat_of_nonneg (by omega)] at key
  exact ⟨_, congrArg some (Prod.ext rfl key)⟩

/-- With `pool_size > steps_in` the 32-bit pooling loop is not entered. -/
theorem layer_maxpool1d_i32_skip {α : Type} [Neg α] [LT α]
    [DecidableRel (fun a b : α => a < b)] [OfNat α 340282346638528859811704183484516925440]
    (input output : Arr α) (steps_in channels pool_size stride : Int)
    (hps : steps_in < pool_size) (hlo : INT_MIN ≤ steps_in) (hhi : pool_size ≤ INT_MAX)
    (fuel : Nat) (hfuel : 0 < fuel) :
    layer_maxpool1d_i32 fuel input output steps_in channels pool_size stride
      = some (output, 0) := by
  obtain ⟨f, rfl⟩ : ∃ f, fuel = f + 1 := ⟨fuel - 1, by omega⟩
  have hw : wrap32 (0 + pool_size) = 0 + pool_size := wrap32_eq _ (by omega) (by omega)
  have : ¬ (0 + pool_size ≤ steps_in) := by omega
  simp only [layer_maxpool1d_i32, whileLoop32, hw, this, decide_False, Bool.false_eq_true,
    if_false]

/-- Where no `int` operation overflows, the 32-bit `layer_maxpool1d` and the one with exact
integer arithmetic give the same result. -/
theorem layer_maxpool1d_i32_eq {α : Type} [Neg α] [LT α]
    [DecidableRel (fun a b : α => a < b)] [OfNat α 340282346638528859811704183484516925440]
    (input output : Arr α) (steps_in channels pool_size stride : Int)
    (hp1 : 1 ≤ pool_size) (hps : pool_size ≤ steps_in) (hs : 1 ≤ stride)
    (hov : ((steps_in - pool_size) / stride + 1) * stride + pool_size ≤ INT_MAX)
    (hisz : steps_in * channels ≤ INT_MAX) (fuel : Nat)
    (hfuel : ((steps_in - pool_size) / stride + 1).toNat < fuel) :
    layer_maxpool1d_i32 fuel input output steps_in channels pool_size stride
      = layer_maxpool1d fuel input output steps_in channels pool_size stride := by
  obtain ⟨hin, hex⟩ := valid_steps_bounds steps_in pool_size stride hps hs
  obtain ⟨hrange, hmle⟩ := valid_steps_range steps_in pool_size stride hps hs
  have hq : 0 ≤ (steps_in - pool_size) / stride :=
    Int.ediv_nonneg (by omega) (by omega)
  have hLlt : steps_in - pool_size < ((steps_in - pool_size) / stride + 1) * stride :=
    Int.lt_ediv_add_one_mul_self _ (by omega)
  have hmst : (steps_in - pool_size) / stride + 1
      ≤ ((steps_in - pool_size) / stride + 1) * stride :=
    le_mul_of_one_le_right (by omega) hs
  have hmin : INT_MIN = -2147483648 := rfl
  have hmax : INT_MAX = 2147483647 := rfl
  have hm : ((((steps_in - pool_size) / stride + 1).toNat : Nat) : Int)
      = (steps_in - pool_size) / stride + 1 := Int.toNat_of_nonneg (by omega)
  have hw : ∀ j : Nat, j ≤ ((steps_in - pool_size) / stride + 1).toNat →
      wrap32 (0 + (j : Int) * stride + pool_size) = 0 + (j : Int) * stride + pool_size := by
    intro j hj
    have := hrange j hj
    exact wrap32_eq _ (by omega) (by omega)
  unfold layer_maxpool1d_i32 layer_maxpool1d
  rw [whileLoop32_eq_fold _ stride _ ((steps_in - pool_size) / stride + 1).toNat fuel 0 _
    hfuel
    (fun j hj => by
      have := hin j hj
      rw [decide_eq_true_iff, hw j (by omega)]
      omega)
    (by rw [decide_eq_false_iff_not, hw _ le_rfl]; omega)
    (fun j hj => by have := hrange j hj; omega),
    whileLoop_eq_fold _ stride _ ((steps_in - pool_size) / stride + 1).toNat fuel 0 _
    hfuel (fun j hj => by have := hin j hj; rw [decide_eq_true_iff]; omega)
    (by rw [decide_eq_false_iff_not]; omega)]
  refine congrArg some ?_
  apply foldl_range_congr (fun j (st : Arr α × Int) => st.2 = (j : Int)) _ _ _ _ rfl
  · intro j st hj hQ
    simp only [hQ]
    push_cast; ring
  · intro j st hj hQ
    obtain ⟨out, os⟩ := st
    simp only at hQ
    subst hQ
    have hjL := hin j hj
    refine Prod.ext ?_ ?_
    · dsimp only
      apply forUp_congr
      intro c hc0 hc1 o
      have hoi := wrap32_row_index (j : Int) channels c steps_in (by omega) (by omega) hc0 hc1
        hisz
      simp only [hoi.1]
      clear hoi
      refine congrArg (Function.update o ((j : Int) * channels + c)) ?_
      apply forUp_congr
      intro p hp0 hp1 mv
      have h0 : (0 : Int) ≤ (j : Int) * stride :=
        mul_nonneg (Int.ofNat_nonneg j) (le_trans Int.one_nonneg hs)
      have hii := wrap32_row_index (0 + (j : Int) * stride + p) channels c steps_in
        (by omega) (by omega) hc0 hc1 hisz
      simp only [hii.2, hii.1]
    · simp only
      exact wrap32_eq _ (by omega) (by omega)

/-! ## Closed forms that hold in every arithmetic -/

/-- With `stride >= 1`, `kernel_size <= steps_in` and enough fuel, `layer_conv1d` returns
a row-major fill of the output with the values of its inner loops, and the number of
rows. -/
theorem layer_conv1d_eq_fill2_raw {α : Type} [Add α] [Mul α]
    (input output weights bias : Arr α)
    (steps_in channels_in filters kernel_size stride : Int)
    (hks : kernel_size ≤ steps_in) (hs : 1 ≤ stride) (fuel : Nat)
    (hfuel : ((steps_in - kernel_size) / stride + 1).toNat < fuel) :
    layer_conv1d fuel input output weights bias steps_in channels_in filters kernel_size
        stride
      = some
        (fill2 ((steps_in - kernel_size) / stride + 1).toNat filters
          (fun s f =>
            conv_acc input weights bias channels_in filters kernel_size ((s : Int) * stride) f)
          output,
        (steps_in - kernel_size) / stride + 1) := by
  obtain ⟨hin, hex⟩ := valid_steps_bounds steps_in kernel_size stride hks hs
  have hq : 0 ≤ (steps_in - kernel_size) / stride :=
    Int.ediv_nonneg (by omega) (by omega)
  unfold layer_conv1d
  rw [whileLoop_eq_fold _ stride _ ((steps_in - kernel_size) / stride + 1).toNat fuel 0 _ hfuel
    (fun j hj => by simpa using hin j hj) (by simpa using hex)]
  simp only [zero_add]
  have := fold_rows_eq_fill2 ((steps_in - kernel_size) / stride + 1).toNat filters
    (fun i f => conv_acc input weights bias channels_in filters kernel_size i f)
    output (fun j => (j : Int) * stride)
  simp only [conv_acc] at this
  rw [this, Int.toNat_of_nonneg (by omega)]
  simp only [conv_acc]

/-- The value of the inner loops of `layer_conv1d` only depends on the input values of
its window. -/
theorem conv_acc_congr {α : Type} [Add α] [Mul α] (input1 input2 weights bias : Arr α)
    (channels_in filters kernel_size i f : Int)
    (h : ∀ k c, 0 ≤ k → k < kernel_size → 0 ≤ c → c < channels_in →
      input1 ((i + k) * channels_in + c) = input2 ((i + k) * channels_in + c)) :
    conv_acc input1 weights bias channels_in filters kernel_size i f
      = conv_acc input2 weights bias channels_in filters kernel_size i f := by
  unfold conv_acc
  apply forUp_congr
  intro k hk0 hk1 st
  apply forUp_congr
  intro c hc0 hc1 st2
  simp only [h k c hk0 hk1 hc0 hc1]

/-- After `layer_relu(data, size)` each element `0 <= j < size` holds the ReLU of its
former value; the other elements are untouched. -/
theorem layer_relu_apply_raw {α : Type} [Zero α] [LT α] [DecidableRel (fun a b : α => a < b)]
    (data : Arr α) (size j : Int) :
    layer_relu data size j = if 0 ≤ j ∧ j < size then relu_value (data j) else data j := by
  unfold layer_relu
  rcases le_or_lt size 0 with h | h
  · rw [forUp_nonpos _ h]
    have : ¬ (0 ≤ j ∧ j < size) := by omega
    rw [if_neg this]
  · obtain ⟨n, rfl⟩ := Int.eq_ofNat_of_zero_le h.le
    clear h
    induction n generalizing j with
    | zero =>
      rw [show ((0 : Nat) : Int) = 0 from rfl, forUp_zero]
      have : ¬ (0 ≤ j ∧ j < (0 : Int)) := by omega
      rw [if_neg this]
    | succ n ih =>
      have hc : ((n + 1 : Nat) : Int) = (n : Int) + 1 := by push_cast; ring
      rw [hc, forUp_succ]
      have hn : forUp (n : Int)
          (fun i data => if data i < 0 then Function.update data i 0 else data) data (n : Int)
          = data n := by
        rw [ih]
        have : ¬ (0 ≤ (n : Int) ∧ (n : Int) < (n : Int)) := by omega
        rw [if_neg this]
      simp only [hn]
      by_cases hj : j = (n : Int)
      · subst hj
        have hin : 0 ≤ (n : Int) ∧ (n : Int) < (n : Int) + 1 := by omega
        rw [if_pos hin]
        unfold relu_value
        by_cases hneg : data (n : Int) < 0
        · rw [if_pos hneg, if_pos hneg, Function.update_same]
        · rw [if_neg hneg, if_neg hneg, hn]
      · have hrest : (if data (n : Int) < 0
            then Function.update (forUp (n : Int)
              (fun i data => if data i < 0 then Function.update data i 0 else data) data)
              (n : Int) 0
            else forUp (n : Int)
              (fun i data => if data i < 0 then Function.update data i 0 else data) data) j
            = forUp (n : Int)
              (fun i data => if data i < 0 then Function.update data i 0 else data) data j := by
          split
          · rw [Function.update_noteq hj]
          · rfl
        rw [hrest, ih]
        by_cases h1 : 0 ≤ j ∧ j < (n : Int)
        · have h2 : 0 ≤ j ∧ j < (n : Int) + 1 := by omega
          rw [if_pos h1, if_pos h2]
        · have h2 : ¬ (0 ≤ j ∧ j < (n : Int) + 1) := by omega
          rw [if_neg h1, if_neg h2]

/-- The kernel `layer_dense` stores at `output[j]`, `0 <= j < outputs`, the value of its
inner loop started from `bias[j]`; the other elements are untouched. -/
theorem layer_dense_apply_raw {α : Type} [Add α] [Mul α]
    (input output weights bias : Arr α) (inputs outputs j : Int) :
    layer_dense input output weights bias inputs outputs j
      = if 0 ≤ j ∧ j < outputs
        then forUp inputs (fun i sum => sum + input i * weights (i * outputs + j)) (bias j)
        else output j := by
  unfold layer_dense
  have := store_row_apply outputs
    (fun o => forUp inputs (fun i sum => sum + input i * weights (i * outputs + o)) (bias o))
    0 output j
  simp only [zero_add, sub_zero] at this
  exact this

/-- With fuel above 61, `run_har_inference` returns the argmax of the dense scores and
leaves behind the scratch buffers of the four stages. -/
theorem run_har_inference_eq_raw {α : Type} [Zero α] [Add α] [Mul α] [Neg α] [LT α]
    [DecidableRel (fun a b : α => a < b)] [OfNat α 340282346638528859811704183484516925440]
    (fuel : Nat) (hf : 61 < fuel) (w : HarWeights α) (s : HarState α) :
    run_har_inference fuel w s
      = some (run_har_inference_argmax (stage_dense w s),
          { s with
            linear_input := linearize_buffer s.input_buffer s.buffer_head s.linear_input
            conv_output := stage_relu w s
            pool_output := stage_pool w s
            dense_output := stage_dense w s }) := by
  have hconv := layer_conv1d_eq_fill2_raw
    (linearize_buffer s.input_buffer s.buffer_head s.linear_input) s.conv_output
    w.conv_weights w.conv_biases 64 6 8 4 1 (by decide) (by decide) fuel
    (by rw [show (((64 : Int) - 4) / 1 + 1).toNat = 61 from by decide]; exact hf)
  have hpool := layer_maxpool1d_eq_fill2 (stage_relu w s) s.pool_output 61 8 2 2
    (by decide) (by decide) fuel
    (by rw [show (((61 : Int) - 2) / 2 + 1).toNat = 30 from by decide]; omega)
  rw [show (((64 : Int) - 4) / 1 + 1).toNat = 61 from by decide] at hconv
  rw [show (((61 : Int) - 2) / 2 + 1).toNat = 30 from by decide] at hpool
  unfold run_har_inference
  simp only [HAR_WINDOW_SIZE, HAR_CHANNELS, CONV_FILTERS, CONV_KERNEL, CONV_STRIDE,
    POOL_SIZE, POOL_STRIDE]
  rw [hconv]
  simp only
  rw [show layer_relu
      (fill2 61 8
        (fun (t : Nat) f =>
          conv_acc (linearize_buffer s.input_buffer s.buffer_head s.linear_input)
            w.conv_weights w.conv_biases 6 8 4 ((t : Int) * 1) f)
        s.conv_output)
      (CONV_OUTPUT_LEN * 8) = stage_relu w s from rfl]
  rw [show CONV_OUTPUT_LEN = 61 from rfl, hpool]
  rfl

/-! ## The counted loops and the pipeline with 32-bit arithmetic -/

/-- The mask `& 0x3F` does not see the wrap-around of a 32-bit sum. -/
theorem land_63_wrap32 (x : Int) : Int.land (wrap32 x) 0x3F = Int.land x 0x3F := by
  rw [land_63, land_63]
  unfold wrap32
  omega

/-- The loop of `layer_relu`, run on a 32-bit counter, returns with the result of
`layer_relu` once the fuel exceeds `size`. -/
theorem layer_relu_i32_eq {α : Type} [Zero α] [LT α] [DecidableRel (fun a b : α => a < b)]
    (data : Arr α) (size : Int) (hsize : size ≤ INT_MAX) (fuel : Nat)
    (hfuel : size.toNat < fuel) :
    layer_relu_i32 fuel data size = some (layer_relu data size) :=
  counted_loop_returns size hsize _ data fuel hfuel

/-- The outer loop of `layer_dense`, run on a 32-bit counter, returns once the fuel exceeds
`outputs`; its result is that of `layer_dense` when the `inputs * outputs` weights can be
counted in an `int`. -/
theorem layer_dense_i32_eq {α : Type} [Add α] [Mul α]
    (input output weights bias : Arr α) (inputs outputs : Int) (hout : outputs ≤ INT_MAX)
    (fuel : Nat) (hfuel : outputs.toNat < fuel) :
    (∃ out : Arr α, layer_dense_i32 fuel input output weights bias inputs outputs = some out) ∧
    (inputs * outputs ≤ INT_MAX →
      layer_dense_i32 fuel input output weights bias inputs outputs
        = some (layer_dense input output weights bias inputs outputs)) := by
  have hret := counted_loop_returns outputs hout
    (fun o (out : Arr α) =>
      Function.update out o
        (forUp inputs
          (fun i sum => sum + input i * weights (wrap32 (wrap32 (i * outputs) + o)))
          (bias o)))
    output fuel hfuel
  refine ⟨⟨_, hret⟩, ?_⟩
  intro hsz
  unfold layer_dense_i32 layer_dense
  dsimp only
  rw [hret]
  refine congrArg some ?_
  apply forUp_congr
  intro o ho0 ho1 out
  refine congrArg (Function.update out o) ?_
  apply forUp_congr
  intro i hi0 hi1 sum
  have hidx := (wrap32_row_index i outputs o inputs hi0 (by omega) ho0 ho1 hsz).1
  simp only [hidx]

/-- The outer loop of `linearize_buffer`, run on a 32-bit counter, returns with the result
of `linearize_buffer` once the fuel exceeds 64. -/
theorem linearize_buffer_i32_eq {α : Type} (input_buffer : Int → Int → α) (buffer_head : Int)
    (dest : Arr α) (fuel : Nat) (hfuel : 64 < fuel) :
    linearize_buffer_i32 fuel input_buffer buffer_head dest
      = some (linearize_buffer input_buffer buffer_head dest) := by
  have hret := counted_loop_returns HAR_WINDOW_SIZE (by decide)
    (fun i (st : Arr α × Int) =>
      (forUp HAR_CHANNELS
          (fun c d =>
            Function.update d (wrap32 (wrap32 (i * HAR_CHANNELS) + c)) (input_buffer st.2 c))
          st.1,
        Int.land (wrap32 (st.2 + 1)) 0x3F))
    (dest, buffer_head) fuel (by rw [show HAR_WINDOW_SIZE.toNat = 64 from by decide]; exact hfuel)
  unfold linearize_buffer_i32 linearize_buffer
  rw [hret]
  refine congrArg (fun st : Arr α × Int => some st.1) ?_
  apply forUp_congr
  intro i hi0 hi1 st
  refine Prod.ext ?_ ?_
  · dsimp only
    apply forUp_congr
    intro c hc0 hc1 d
    have hidx := (wrap32_row_index i HAR_CHANNELS c HAR_WINDOW_SIZE hi0 (by omega) hc0 hc1
      (by decide)).1
    simp only [hidx]
  · exact land_63_wrap32 _

/-- With fuel above 488 (the longest loop, that of `layer_relu`), the pipeline with 32-bit
arithmetic returns what the pipeline with exact integers returns. -/
theorem run_har_inference_i32_eq {α : Type} [Zero α] [Add α] [Mul α] [Neg α] [LT α]
    [DecidableRel (fun a b : α => a < b)] [OfNat α 340282346638528859811704183484516925440]
    (fuel : Nat) (hf : 488 < fuel) (w : HarWeights α) (s : HarState α) :
    run_har_inference_i32 fuel w s = run_har_inference fuel w s := by
  have hconv : ∀ lin : Arr α,
      layer_conv1d_i32 fuel lin s.conv_output w.conv_weights w.conv_biases 64 6 8 4 1
        = layer_conv1d fuel lin s.conv_output w.conv_weights w.conv_biases 64 6 8 4 1 :=
    fun lin => layer_conv1d_i32_eq lin s.conv_output w.conv_weights w.conv_biases 64 6 8 4 1
      (by decide) (by decide) (by decide) (by decide) (by decide) (by decide) fuel
      (by rw [show (((64 : Int) - 4) / 1 + 1).toNat = 61 from by decide]; omega)
  have hpool : ∀ x : Arr α,
      layer_maxpool1d_i32 fuel x s.pool_output 61 8 2 2
        = layer_maxpool1d fuel x s.pool_output 61 8 2 2 :=
    fun x => layer_maxpool1d_i32_eq x s.pool_output 61 8 2 2
      (by decide) (by decide) (by decide) (by decide) (by decide) fuel
      (by rw [show (((61 : Int) - 2) / 2 + 1).toNat = 30 from by decide]; omega)
  have hrelu : ∀ x : Arr α,
      layer_relu_i32 fuel x (CONV_OUTPUT_LEN * CONV_FILTERS)
        = some (layer_relu x (CONV_OUTPUT_LEN * CONV_FILTERS)) :=
    fun x => layer_relu_i32_eq x _ (by decide) fuel
      (by rw [show (CONV_OUTPUT_LEN * CONV_FILTERS).toNat = 488 from by decide]; exact hf)
  have hdense : ∀ x : Arr α,
      layer_dense_i32 fuel x s.dense_output w.dense_weights w.dense_biases DENSE_INPUTS
          DENSE_OUTPUTS
        = some (layer_dense x s.dense_output w.dense_weights w.dense_biases DENSE_INPUTS
            DENSE_OUTPUTS) :=
    fun x => (layer_dense_i32_eq x s.dense_output w.dense_weights w.dense_biases DENSE_INPUTS
      DENSE_OUTPUTS (by decide) fuel
      (by rw [show DENSE_OUTPUTS.toNat = 3 from by decide]; omega)).2 (by decide)
  unfold run_har_inference_i32 run_har_inference
  rw [linearize_buffer_i32_eq _ _ _ fuel (by omega)]
  simp only [HAR_WINDOW_SIZE, HAR_CHANNELS, CONV_FILTERS, CONV_KERNEL, CONV_STRIDE,
    POOL_SIZE, POOL_STRIDE, CONV_OUTPUT_LEN] at hconv hpool ⊢
  rw [hconv]
  cases h1 : layer_conv1d fuel (linearize_buffer s.input_buffer s.buffer_head s.linear_input)
      s.conv_output w.conv_weights w.conv_biases 64 6 8 4 1 with
  | none => rfl
  | some r =>
    obtain ⟨c, n⟩ := r
    have hr := hrelu c
    simp only [CONV_OUTPUT_LEN, CONV_FILTERS] at hr
    simp only [hr, hpool]
    cases h2 : layer_maxpool1d fuel (layer_relu c (61 * 8)) s.pool_output 61 8 2 2 with
    | none => rfl
    | some r2 =>
      obtain ⟨p, n2⟩ := r2
      simp only [hdense]

/-! ## Order and arithmetic of the `float` model -/

theorem flt_lt_iff (a b : Flt) : a < b ↔ Flt.blt a b = true := Iff.rfl

theorem flt_le_iff (a b : Flt) : a ≤ b ↔ Flt.ble a b = true := Iff.rfl

theorem flt_zero_eq : (0 : Flt) = Flt.fin 0 := rfl

theorem flt_FLT_MAX_eq : (FLT_MAX : Flt) = Flt.fin 340282346638528859811704183484516925440 := rfl

theorem flt_neg_eq (a : Flt) : -a = Flt.neg a := rfl

theorem flt_add_eq (a b : Flt) : a + b = Flt.add a b := rfl

theorem flt_mul_eq (a b : Flt) : a * b = Flt.mul a b := rfl

/-- No comparison with a NaN holds. -/
theorem flt_not_lt_nan (a : Flt) : ¬ (a < Flt.nan) ∧ ¬ (Flt.nan < a) := by
  cases a <;> simp [flt_lt_iff, Flt.blt]

theorem flt_not_le_nan (a : Flt) : ¬ (a ≤ Flt.nan) ∧ ¬ (Flt.nan ≤ a) := by
  cases a <;> simp [flt_le_iff, Flt.ble]

theorem flt_le_refl_of_ne_nan {a : Flt} (ha : a ≠ Flt.nan) : a ≤ a := by
  cases a <;> simp [flt_le_iff, Flt.ble] at ha ⊢

theorem flt_lt_irrefl (a : Flt) : ¬ (a < a) := by
  cases a <;> simp [flt_lt_iff, Flt.blt]

theorem flt_le_of_lt {a b : Flt} (h : a < b) : a ≤ b := by
  cases a <;> cases b <;> simp [flt_lt_iff, flt_le_iff, Flt.blt, Flt.ble] at h ⊢
  exact le_of_lt h

theorem flt_le_of_not_lt {a b : Flt} (ha : a ≠ Flt.nan) (hb : b ≠ Flt.nan) (h : ¬ (a < b)) :
    b ≤ a := by
  cases a <;> cases b <;> simp [flt_lt_iff, flt_le_iff, Flt.blt, Flt.ble] at ha hb h ⊢
  exact h

theorem flt_lt_trans {a b c : Flt} (h1 : a < b) (h2 : b < c) : a < c := by
  cases a <;> cases b <;> cases c <;> simp [flt_lt_iff, Flt.blt] at h1 h2 ⊢
  exact lt_trans h1 h2

theorem flt_le_trans {a b c : Flt} (h1 : a ≤ b) (h2 : b ≤ c) : a ≤ c := by
  cases a <;> cases b <;> cases c <;> simp [flt_le_iff, Flt.ble] at h1 h2 ⊢
  exact le_trans h1 h2

theorem flt_lt_of_le_of_lt {a b c : Flt} (h1 : a ≤ b) (h2 : b < c) : a < c := by
  cases a <;> cases b <;> cases c <;> simp [flt_lt_iff, flt_le_iff, Flt.blt, Flt.ble] at h1 h2 ⊢
  exact lt_of_le_of_lt h1 h2

/-! ## ReLU and pooling of `float` values -/

theorem forUp_four {σ : Type} (body : Int → σ → σ) (init : σ) :
    forUp 4 body init = body 3 (body 2 (body 1 (body 0 init))) := by
  have h : (4 : Int).toNat = 4 := rfl
  simp [forUp, h, List.range_succ]

theorem forUp_six {σ : Type} (body : Int → σ → σ) (init : σ) :
    forUp 6 body init = body 5 (body 4 (body 3 (body 2 (body 1 (body 0 init))))) := by
  have h : (6 : Int).toNat = 6 := rfl
  simp [forUp, h, List.range_succ]

/-- A pooling window of size 2 yields `pool_pair` of its two values. -/
theorem pool_value_pair {α : Type} [Neg α] [LT α] [DecidableRel (fun a b : α => a < b)]
    [OfNat α 340282346638528859811704183484516925440] (input : Arr α) (channels i c : Int) :
    pool_value input channels 2 i c
      = pool_pair (input ((i + 0) * channels + c)) (input ((i + 1) * channels + c)) := by
  unfold pool_value pool_pair
  rw [forUp_two]

theorem flt_relu_nan : relu_value Flt.nan = Flt.nan := by
  simp [relu_value, flt_lt_iff, Flt.blt]

/-- The ReLU of a value that is not a NaN is at least 0. -/
theorem flt_relu_nonneg {a : Flt} (ha : a ≠ Flt.nan) : (0 : Flt) ≤ relu_value a := by
  cases a with
  | nan => exact absurd rfl ha
  | ninf => simp [relu_value, flt_lt_iff, flt_le_iff, flt_zero_eq, Flt.blt, Flt.ble]
  | pinf => simp [relu_value, flt_lt_iff, flt_le_iff, flt_zero_eq, Flt.blt, Flt.ble]
  | fin x =>
    by_cases hx : x < 0
    · simp [relu_value, flt_lt_iff, flt_le_iff, flt_zero_eq, Flt.blt, Flt.ble, hx]
    · simp [relu_value, flt_lt_iff, flt_le_iff, flt_zero_eq, Flt.blt, Flt.ble, hx]
      exact not_lt.mp hx

/-- Neither side of a comparison that holds is a NaN. -/
theorem flt_ne_nan_of_le {a b : Flt} (h : a ≤ b) : a ≠ Flt.nan ∧ b ≠ Flt.nan := by
  cases a <;> cases b <;> simp [flt_le_iff, Flt.ble] at h ⊢

/-- The sentinel `-FLT_MAX` is below every value that is at least 0. -/
theorem flt_sentinel_lt {r : Flt} (h : (0 : Flt) ≤ r) : (-FLT_MAX : Flt) < r := by
  cases r with
  | nan => simp [flt_le_iff, flt_zero_eq, Flt.ble] at h
  | ninf => simp [flt_le_iff, flt_zero_eq, Flt.ble] at h
  | pinf => simp [flt_lt_iff, flt_FLT_MAX_eq, flt_neg_eq, Flt.neg, Flt.blt]
  | fin x =>
    simp only [flt_le_iff, flt_zero_eq, Flt.ble, decide_eq_true_eq] at h
    simp only [flt_lt_iff, flt_FLT_MAX_eq, flt_neg_eq, Flt.neg, Flt.blt, decide_eq_true_eq]
    linarith

/-- The sentinel `-FLT_MAX` is negative. -/
theorem flt_sentinel_neg : ¬ ((0 : Flt) ≤ -FLT_MAX) := by
  simp [flt_le_iff, flt_zero_eq, flt_FLT_MAX_eq, flt_neg_eq, Flt.neg, Flt.ble]

/-- The pooled value of the ReLUs of two values neither of which is a NaN is the larger of
the two ReLUs and at least 0; the pooled value is the sentinel `-FLT_MAX` exactly when both
values are NaN. -/
theorem flt_pool_pair_relu (a b : Flt) :
    (a ≠ Flt.nan → b ≠ Flt.nan →
      pool_pair (relu_value a) (relu_value b)
        = (if relu_value a < relu_value b then relu_value b else relu_value a) ∧
      relu_value a ≤ pool_pair (relu_value a) (relu_value b) ∧
      relu_value b ≤ pool_pair (relu_value a) (relu_value b) ∧
      (0 : Flt) ≤ pool_pair (relu_value a) (relu_value b)) ∧
    (pool_pair (relu_value a) (relu_value b) = -FLT_MAX ↔ a = Flt.nan ∧ b = Flt.nan) := by
  have key : ∀ x y : Flt, (0 : Flt) ≤ x → (0 : Flt) ≤ y →
      pool_pair x y = (if x < y then y else x) ∧ x ≤ pool_pair x y ∧ y ≤ pool_pair x y ∧
        (0 : Flt) ≤ pool_pair x y := by
    intro x y hx hy
    have e : pool_pair x y = (if x < y then y else x) := by
      unfold pool_pair
      rw [if_pos (flt_sentinel_lt hx)]
    rw [e]
    refine ⟨rfl, ?_⟩
    by_cases hxy : x < y
    · rw [if_pos hxy]
      exact ⟨flt_le_of_lt hxy, flt_le_refl_of_ne_nan (flt_ne_nan_of_le hy).2, hy⟩
    · rw [if_neg hxy]
      exact ⟨flt_le_refl_of_ne_nan (flt_ne_nan_of_le hx).2,
        flt_le_of_not_lt (flt_ne_nan_of_le hx).2 (flt_ne_nan_of_le hy).2 hxy, hx⟩
  refine ⟨fun ha hb => key _ _ (flt_relu_nonneg ha) (flt_relu_nonneg hb), ?_⟩
  constructor
  · intro hP
    by_cases ha : a = Flt.nan
    · by_cases hb : b = Flt.nan
      · exact ⟨ha, hb⟩
      · exfalso
        have hrb := flt_relu_nonneg hb
        have e : pool_pair (relu_value a) (relu_value b) = relu_value b := by
          subst ha
          unfold pool_pair
          rw [flt_relu_nan, if_neg (flt_not_lt_nan _).1, if_pos (flt_sentinel_lt hrb)]
        rw [e] at hP
        rw [hP] at hrb
        exact flt_sentinel_neg hrb
    · exfalso
      have hra := flt_relu_nonneg ha
      by_cases hb : b = Flt.nan
      · have e : pool_pair (relu_value a) (relu_value b) = relu_value a := by
          subst hb
          unfold pool_pair
          rw [flt_relu_nan, if_pos (flt_sentinel_lt hra), if_neg (flt_not_lt_nan _).1]
        rw [e] at hP
        rw [hP] at hra
        exact flt_sentinel_neg hra
      · have h0 := (key _ _ hra (flt_relu_nonneg hb)).2.2.2
        rw [hP] at h0
        exact flt_sentinel_neg h0
  · rintro ⟨rfl, rfl⟩
    unfold pool_pair
    rw [flt_relu_nan, if_neg (flt_not_lt_nan _).1, if_neg (flt_not_lt_nan _).1]

/-! ## The pipeline on `float` values -/

/-- Inside the filled region a row-major fill holds the value of its row and column. -/
theorem fill2_apply_inside {α : Type} (rows : Nat) (cols : Int) (v : Nat → Int → α)
    (d : Arr α) (j : Int) (hc : 0 < cols) (h0 : 0 ≤ j) (h1 : j < (rows : Int) * cols) :
    fill2 rows cols v d j = v (j / cols).toNat (j % cols) := by
  have hq : 0 ≤ j / cols := Int.ediv_nonneg h0 hc.le
  have hqn : (((j / cols).toNat : Nat) : Int) = j / cols := Int.toNat_of_nonneg hq
  have hlt : j / cols < (rows : Int) := Int.ediv_lt_of_lt_mul hc h1
  have key := fill2_inside rows cols v d (j / cols).toNat (j % cols) (by omega)
    (Int.emod_nonneg j (by omega)) (Int.emod_lt_of_pos j hc)
  rw [hqn, Int.ediv_add_emod'] at key
  exact key

theorem flt_max_mul_two : (FLT_MAX : Flt) * Flt.fin 2 = Flt.pinf := by
  simp only [flt_FLT_MAX_eq, flt_mul_eq, Flt.mul, Flt.round, FLT_OVERFLOW]
  norm_num

theorem flt_max_mul_neg_two : (FLT_MAX : Flt) * Flt.fin (-2) = Flt.ninf := by
  simp only [flt_FLT_MAX_eq, flt_mul_eq, Flt.mul, Flt.round, FLT_OVERFLOW]
  norm_num

theorem flt_nan_add (y : Flt) : Flt.nan + y = Flt.nan := by
  cases y <;> rfl

/-- With every input value `FLT_MAX` and the weights `2` and `-2` on the first two
channels of tap 0, the sum of filter 0 is `0 + inf + (-inf) = NaN`. -/
theorem conv_acc_overflow (i : Int) :
    conv_acc (fun _ => (FLT_MAX : Flt)) overflow_weights.conv_weights
      overflow_weights.conv_biases 6 8 4 i 0 = Flt.nan := by
  unfold conv_acc
  rw [forUp_four]
  simp only [forUp_six]
  have w0 : overflow_weights.conv_weights (0 * (6 * 8) + 0 * 8 + 0) = Flt.fin 2 := by
    simp [overflow_weights]
  have w1 : overflow_weights.conv_weights (0 * (6 * 8) + 1 * 8 + 0) = Flt.fin (-2) := by
    simp [overflow_weights]
  have b0 : overflow_weights.conv_biases 0 = Flt.fin 0 := rfl
  have e : overflow_weights.conv_biases 0
      + (FLT_MAX : Flt) * overflow_weights.conv_weights (0 * (6 * 8) + 0 * 8 + 0)
      + (FLT_MAX : Flt) * overflow_weights.conv_weights (0 * (6 * 8) + 1 * 8 + 0)
      = Flt.nan := by
    rw [w0, w1, b0, flt_max_mul_two, flt_max_mul_neg_two]
    rfl
  rw [e]
  simp only [flt_nan_add]

/-- The elements of `conv_output` after ReLU are the ReLUs of the convolution values. -/
theorem stage_relu_apply {α : Type} [Zero α] [Add α] [Mul α] [LT α]
    [DecidableRel (fun a b : α => a < b)] (w : HarWeights α) (s : HarState α) (j : Int)
    (h0 : 0 ≤ j) (h1 : j < 488) :
    stage_relu w s j = relu_value (stage_conv w s j) := by
  unfold stage_relu
  rw [layer_relu_apply_raw, show CONV_OUTPUT_LEN * CONV_FILTERS = 488 from by decide,
    if_pos ⟨h0, h1⟩]

/-- The element of `pool_output` for step `t` and filter `f` is the pooled pair of the two
post-ReLU convolution values of steps `2t` and `2t + 1`. -/
theorem stage_pool_apply {α : Type} [Zero α] [Add α] [Mul α] [Neg α] [LT α]
    [DecidableRel (fun a b : α => a < b)] [OfNat α 340282346638528859811704183484516925440]
    (w : HarWeights α) (s : HarState α) (t f : Int) (ht0 : 0 ≤ t) (ht1 : t < 30)
    (hf0 : 0 ≤ f) (hf1 : f < 8) :
    stage_pool w s (t * 8 + f)
      = pool_pair (relu_value (stage_conv w s ((2 * t) * 8 + f)))
          (relu_value (stage_conv w s ((2 * t + 1) * 8 + f))) := by
  obtain ⟨n, rfl⟩ := Int.eq_ofNat_of_zero_le ht0
  unfold stage_pool
  rw [fill2_inside 30 8 _ s.pool_output n f (by omega) hf0 hf1, pool_value_pair,
    stage_relu_apply w s _ (by omega) (by omega), stage_relu_apply w s _ (by omega) (by omega)]
  have e0 : ((n : Int) * 2 + 0) * 8 + f = (2 * (n : Int)) * 8 + f := by ring
  have e1 : ((n : Int) * 2 + 1) * 8 + f = (2 * (n : Int) + 1) * 8 + f := by ring
  rw [e0, e1]

/-- With fuel above 488 the 32-bit pipeline returns, its convolution yields `stage_conv`,
and it leaves the stage buffers behind. -/
theorem run_har_inference_i32_stages {α : Type} [Zero α] [Add α] [Mul α] [Neg α] [LT α]
    [DecidableRel (fun a b : α => a < b)] [OfNat α 340282346638528859811704183484516925440]
    (fuel : Nat) (hf : 488 < fuel) (w : HarWeights α) (s : HarState α) :
    linearize_buffer_i32 fuel s.input_buffer s.buffer_head s.linear_input
      = some (linearize_buffer s.input_buffer s.buffer_head s.linear_input) ∧
    layer_conv1d_i32 fuel (linearize_buffer s.input_buffer s.buffer_head s.linear_input)
        s.conv_output w.conv_weights w.conv_biases HAR_WINDOW_SIZE HAR_CHANNELS CONV_FILTERS
        CONV_KERNEL CONV_STRIDE
      = some (stage_conv w s, CONV_OUTPUT_LEN) ∧
    run_har_inference_i32 fuel w s
      = some (run_har_inference_argmax (stage_dense w s),
          { s with
            linear_input := linearize_buffer s.input_buffer s.buffer_head s.linear_input
            conv_output := stage_relu w s
            pool_output := stage_pool w s
            dense_output := stage_dense w s }) := by
  have h61 : (((64 : Int) - 4) / 1 + 1).toNat = 61 := by decide
  refine ⟨linearize_buffer_i32_eq _ _ _ fuel (by omega), ?_, ?_⟩
  · have hconv := layer_conv1d_eq_fill2_raw
      (linearize_buffer s.input_buffer s.buffer_head s.linear_input) s.conv_output
      w.conv_weights w.conv_biases 64 6 8 4 1 (by decide) (by decide) fuel
      (by rw [h61]; omega)
    rw [h61] at hconv
    rw [← layer_conv1d_i32_eq _ s.conv_output w.conv_weights w.conv_biases 64 6 8 4 1
      (by decide) (by decide) (by decide) (by decide) (by decide) (by decide) fuel
      (by rw [h61]; omega)] at hconv
    exact hconv
  · rw [run_har_inference_i32_eq fuel hf w s]
    exact run_har_inference_eq_raw fuel (by omega) w s

/-! ## The pipeline with zero convolution and dense weights -/

theorem flt_round_zero : Flt.round 0 = Flt.fin 0 := by
  simp only [Flt.round, FLT_OVERFLOW]
  norm_num

theorem flt_fin_mul_zero (q : ℚ) : Flt.fin q * 0 = Flt.fin 0 := by
  simp only [flt_zero_eq, flt_mul_eq, Flt.mul, mul_zero, flt_round_zero]

/-- A product with the weight 0 is 0 or, for an infinite or NaN factor, a NaN; adding it to
a sum that is 0 or NaN leaves a sum that is 0 or NaN. -/
theorem flt_add_mul_zero (sum x : Flt) (h : sum = Flt.fin 0 ∨ sum = Flt.nan) :
    sum + x * 0 = Flt.fin 0 ∨ sum + x * 0 = Flt.nan := by
  rcases h with rfl | rfl
  · cases x with
    | nan => right; rfl
    | ninf =>
      right
      simp [flt_zero_eq, flt_add_eq, flt_mul_eq, Flt.add, Flt.mul, Flt.mulInf]
    | pinf =>
      right
      simp [flt_zero_eq, flt_add_eq, flt_mul_eq, Flt.add, Flt.mul, Flt.mulInf]
    | fin q =>
      left
      rw [flt_fin_mul_zero]
      simp only [flt_add_eq, Flt.add, add_zero, flt_round_zero]
  · right
    exact flt_nan_add _

/-- With zero convolution weights and biases every convolution value is 0 or NaN. -/
theorem conv_acc_zero_weights (input weights bias : Arr Flt) (i f : Int) (hf0 : 0 ≤ f)
    (hf1 : f < 8) (hw : ∀ j : Int, 0 ≤ j → j < 192 → weights j = 0) (hb : bias f = 0) :
    conv_acc input weights bias 6 8 4 i f = Flt.fin 0
      ∨ conv_acc input weights bias 6 8 4 i f = Flt.nan := by
  unfold conv_acc
  apply forUp_forall (fun x : Flt => x = Flt.fin 0 ∨ x = Flt.nan)
  · left
    rw [hb]
    rfl
  · intro k st hk0 hk1 hst
    apply forUp_forall (fun x : Flt => x = Flt.fin 0 ∨ x = Flt.nan)
    · exact hst
    · intro c st2 hc0 hc1 hst2
      rw [hw _ (by omega) (by omega)]
      exact flt_add_mul_zero st2 _ hst2

/-- The ReLU of 0 is 0 and the ReLU of a NaN is a NaN. -/
theorem flt_relu_zero_or_nan (x : Flt) (h : x = Flt.fin 0 ∨ x = Flt.nan) :
    relu_value x = Flt.fin 0 ∨ relu_value x = Flt.nan := by
  rcases h with rfl | rfl
  · left
    simp [relu_value, flt_lt_iff, flt_zero_eq, Flt.blt]
  · right
    exact flt_relu_nan

/-- The pooled pair of two values that are 0 or NaN is finite. -/
theorem flt_pool_pair_finite (x y : Flt) (hx : x = Flt.fin 0 ∨ x = Flt.nan)
    (hy : y = Flt.fin 0 ∨ y = Flt.nan) : ∃ q : ℚ, pool_pair x y = Flt.fin q := by
  rcases hx with rfl | rfl <;> rcases hy with rfl | rfl <;>
    simp [pool_pair, flt_lt_iff, flt_FLT_MAX_eq, flt_neg_eq, Flt.neg, Flt.blt]

/-- Adding the product of a finite value with the weight 0 does not change a finite sum
within the range of `float`. -/
theorem flt_fin_add_mul_zero (b q : ℚ) (h0 : -FLT_OVERFLOW < b) (h1 : b < FLT_OVERFLOW) :
    Flt.fin b + Flt.fin q * 0 = Flt.fin b := by
  rw [flt_fin_mul_zero]
  simp only [flt_add_eq, Flt.add, Flt.round, add_zero]
  rw [if_neg (not_le.mpr h1), if_neg (not_le.mpr h0)]

/-- With zero convolution weights and biases and zero dense weights, each dense score is
its bias, provided the bias is finite and within the range of `float`. -/
theorem stage_dense_bias_only (w : HarWeights Flt) (s : HarState Flt)
    (hcw : ∀ j : Int, 0 ≤ j → j < 192 → w.conv_weights j = 0)
    (hcb : ∀ f : Int, 0 ≤ f → f < 8 → w.conv_biases f = 0)
    (hdw : ∀ j : Int, 0 ≤ j → j < 720 → w.dense_weights j = 0) (o : Int) (ho0 : 0 ≤ o)
    (ho1 : o < 3) (b : ℚ) (hb : w.dense_biases o = Flt.fin b) (h0 : -FLT_OVERFLOW < b)
    (h1 : b < FLT_OVERFLOW) :
    stage_dense w s o = Flt.fin b := by
  have hconv : ∀ j : Int, 0 ≤ j → j < 488 →
      stage_conv w s j = Flt.fin 0 ∨ stage_conv w s j = Flt.nan := by
    intro j hj0 hj1
    unfold stage_conv
    rw [fill2_apply_inside 61 8 _ _ j (by decide) hj0 (by norm_num; omega)]
    exact conv_acc_zero_weights _ _ _ _ _ (Int.emod_nonneg j (by decide))
      (Int.emod_lt_of_pos j (by decide)) hcw
      (hcb _ (Int.emod_nonneg j (by decide)) (Int.emod_lt_of_pos j (by decide)))
  have hpool : ∀ i : Int, 0 ≤ i → i < 240 → ∃ q : ℚ, stage_pool w s i = Flt.fin q := by
    intro i hi0 hi1
    have hi : i = (i / 8) * 8 + i % 8 := (Int.ediv_add_emod' i 8).symm
    rw [hi, stage_pool_apply w s (i / 8) (i % 8) (by omega) (by omega) (by omega) (by omega)]
    exact flt_pool_pair_finite _ _
      (flt_relu_zero_or_nan _ (hconv _ (by omega) (by omega)))
      (flt_relu_zero_or_nan _ (hconv _ (by omega) (by omega)))
  unfold stage_dense
  rw [layer_dense_apply_raw, show DENSE_OUTPUTS = 3 from rfl, show DENSE_INPUTS = 240 from rfl,
    if_pos ⟨ho0, ho1⟩]
  apply forUp_forall (fun x : Flt => x = Flt.fin b)
  · exact hb
  · intro i st hi0 hi1 hst
    obtain ⟨q, hq⟩ := hpool i hi0 hi1
    rw [hst, hq, hdw _ (by omega) (by omega)]
    exact flt_fin_add_mul_zero b q h0 h1

/-! ## C1: the linearised window is the last 64 pushes -/

/-- C1: after any sequence of at least 64 calls of `add_imu_sample_to_buffer` from a state
with `buffer_head = 0`, `linearize_buffer` stores at `dest[i*6 + c]` channel `c` of the
`(n-64+i)`-th pushed sample, for `i < 64` and `c < 6` (the last 64 samples, oldest first),
and stores nothing outside `dest[0 .. 383]`. -/
theorem linearize_buffer_last_window {α : Type} (s0 : HarState α)
    (h0 : s0.buffer_head = 0) (pushes : List (Sample α)) (hn : 64 ≤ pushes.length)
    (dest : Arr α) :
    (∀ (i c : Nat) (hi : i < 64), c < 6 →
      linearize_buffer (pushAll s0 pushes).input_buffer (pushAll s0 pushes).buffer_head dest
          ((i : Int) * 6 + (c : Int))
        = (pushes.get ⟨pushes.length - 64 + i, by omega⟩).channel (c : Int)) ∧
    (∀ j : Int, j < 0 ∨ 384 ≤ j →
      linearize_buffer (pushAll s0 pushes).input_buffer (pushAll s0 pushes).buffer_head dest j
        = dest j) := by
  have hh := pushAll_buffer_head s0 h0 pushes
  have hlin := linearize_buffer_eq_fill2 (pushAll s0 pushes).input_buffer
    (pushAll s0 pushes).buffer_head (by rw [hh]; omega) (by rw [hh]; omega) dest
  rw [hlin]
  constructor
  · intro i c hi hc
    rw [fill2_inside 64 6 _ dest i c hi (by omega) (by omega), hh]
    have hidx : ((pushes.length : Int) % 64 + (i : Int)) % 64
        = (((pushes.length - 64 + i : Nat) : Nat) : Int) % 64 := by omega
    rw [hidx]
    apply pushAll_input_buffer s0 h0 pushes (pushes.length - 64 + i) _ _ (by omega) c
      (by omega) (by omega)
    exact List.getElem?_eq_getElem _
  · intro j hj
    exact fill2_outside 64 6 _ dest j (by omega)

/-- C1 at seventy concrete pushes from the initial state, for `i = 3` and `c = 2`. -/
theorem linearize_buffer_last_window_witness :
    (HarState.init : HarState Int).buffer_head = 0 ∧ 64 ≤ demo_samples.length ∧
    linearize_buffer (pushAll HarState.init demo_samples).input_buffer
        (pushAll HarState.init demo_samples).buffer_head (fun _ => 0)
        (((3 : Nat) : Int) * 6 + ((2 : Nat) : Int))
      = (demo_samples.get ⟨demo_samples.length - 64 + 3, by decide⟩).channel ((2 : Nat) : Int) :=
  ⟨rfl, by decide,
    (linearize_buffer_last_window HarState.init rfl demo_samples (by decide) (fun _ => 0)).1
      3 2 (by decide) (by decide)⟩

/-! ## C2: convolution values -/

/-- C2: with `kernel_size <= steps_in`, `stride >= 1` and enough fuel, `layer_conv1d`
returns after `steps_out = (steps_in - kernel_size) / stride + 1` output steps, and for
every step `0 <= s < steps_out` and filter `0 <= f < filters` it has stored
`output[s*filters + f] = bias[f] + sum over k in [0, kernel_size), c in [0, channels_in) of
input[(s*stride + k)*channels_in + c] * weights[k*(channels_in*filters) + c*filters + f]`. -/
theorem layer_conv1d_values {α : Type} [LinearOrderedRing α]
    (input output weights bias : Arr α)
    (steps_in channels_in filters kernel_size stride : Int)
    (hks : kernel_size ≤ steps_in) (hs : 1 ≤ stride) (fuel : Nat)
    (hfuel : ((steps_in - kernel_size) / stride + 1).toNat < fuel) :
    ∃ out : Arr α,
      layer_conv1d fuel input output weights bias steps_in channels_in filters kernel_size
          stride
        = some (out, (steps_in - kernel_size) / stride + 1) ∧
      ∀ s f : Int, 0 ≤ s → s < (steps_in - kernel_size) / stride + 1 → 0 ≤ f → f < filters →
        out (s * filters + f)
          = bias f + ∑ k in Finset.Ico (0 : Int) kernel_size,
              ∑ c in Finset.Ico (0 : Int) channels_in,
                input ((s * stride + k) * channels_in + c)
                  * weights (k * (channels_in * filters) + c * filters + f) := by
  refine ⟨_, layer_conv1d_eq_fill2 input output weights bias steps_in channels_in filters
    kernel_size stride hks hs fuel hfuel, ?_⟩
  intro s f hs0 hs1 hf0 hf1
  obtain ⟨n, rfl⟩ := Int.eq_ofNat_of_zero_le hs0
  rw [fill2_inside _ filters _ output n f (by omega) hf0 hf1]

/-- C2 at the pipeline's shape (64 steps, 6 channels, 8 filters, kernel 4, stride 1). -/
theorem layer_conv1d_values_witness :
    (4 : Int) ≤ 64 ∧ (1 : Int) ≤ 1 ∧ (((64 : Int) - 4) / 1 + 1).toNat < 62 ∧
    ∃ out : Arr Int,
      layer_conv1d 62 (fun i => i) (fun _ => 0) (fun _ => 1) (fun _ => 0) 64 6 8 4 1
        = some (out, (64 - 4) / 1 + 1) :=
  ⟨by decide, by decide, by decide,
    (layer_conv1d_values (fun i => i) (fun _ => 0) (fun _ => 1) (fun _ => 0) 64 6 8 4 1
      (by decide) (by decide) 62 (by decide)).imp (fun _ h => h.1)⟩

/-! ## C3: pooled values and window maxima -/

/-- C4: `layer_dense` stores `output[o] = bias[o] + sum over 0 <= i < inputs of
input[i] * weights[i*outputs + o]` for every `0 <= o < outputs`, with nothing applied to
the sum, and stores nothing else. -/
theorem layer_dense_values {α : Type} [LinearOrderedRing α]
    (input output weights bias : Arr α) (inputs outputs : Int) :
    (∀ o : Int, 0 ≤ o → o < outputs →
      layer_dense input output weights bias inputs outputs o
        = bias o + ∑ i in Finset.Ico (0 : Int) inputs, input i * weights (i * outputs + o)) ∧
    (∀ o : Int, o < 0 ∨ outputs ≤ o →
      layer_dense input output weights bias inputs outputs o = output o) := by
  constructor
  · intro o h0 h1
    rw [layer_dense_apply, if_pos ⟨h0, h1⟩]
  · intro o h
    have : ¬ (0 ≤ o ∧ o < outputs) := by omega
    rw [layer_dense_apply, if_neg this]

/-- C4 at the pipeline's shape (240 inputs, 3 outputs), for output 1. -/
theorem layer_dense_values_witness :
    (0 : Int) ≤ 1 ∧ (1 : Int) < 3 ∧
    layer_dense (fun i => i) (fun _ => 0) (fun _ => 1) (fun o => o) 240 3 1
      = (1 : Int) + ∑ i in Finset.Ico (0 : Int) 240, i * 1 :=
  ⟨by decide, by decide,
    (layer_dense_values (fun i => i) (fun _ => 0) (fun _ => 1) (fun o => o) 240 3).1 1
      (by decide) (by decide)⟩

/-! ## C5: argmax and tie-break -/

/-- C5 (amended): for dense scores none of which is a NaN (infinities allowed), the class
index `r` returned by the argmax step is 0, 1 or 2, its score is at least every score,
strictly greater than every score of a lower index, and it is 0 when the three scores are
equal. -/
theorem run_har_inference_argmax_lowest (score : Arr Flt) (hn0 : score 0 ≠ Flt.nan)
    (hn1 : score 1 ≠ Flt.nan) (hn2 : score 2 ≠ Flt.nan) :
    (run_har_inference_argmax score = 0 ∨ run_har_inference_argmax score = 1 ∨
      run_har_inference_argmax score = 2) ∧
    (∀ j : Int, 0 ≤ j → j < 3 → score j ≤ score (run_har_inference_argmax score)) ∧
    (∀ j : Int, 0 ≤ j → j < run_har_inference_argmax score →
      score j < score (run_har_inference_argmax score)) ∧
    (score 0 = score 1 → score 1 = score 2 → run_har_inference_argmax score = 0) := by
  rw [run_har_inference_argmax_eq]
  have cases3 : ∀ j : Int, 0 ≤ j → j < 3 → j = 0 ∨ j = 1 ∨ j = 2 := by
    intro j h0 h1; omega
  by_cases h1 : score 1 > score 0
  · by_cases h2 : score 2 > score 1
    · simp only [h1, h2, if_true]
      refine ⟨by simp, ?_, ?_, ?_⟩
      · intro j h0 hj
        rcases cases3 j h0 hj with rfl | rfl | rfl
        · exact flt_le_of_lt (flt_lt_trans h1 h2)
        · exact flt_le_of_lt h2
        · exact flt_le_refl_of_ne_nan hn2
      · intro j h0 hj
        rcases cases3 j h0 (by omega) with rfl | rfl | rfl
        · exact flt_lt_trans h1 h2
        · exact h2
        · omega
      · intro e1 _
        rw [e1] at h1
        exact absurd h1 (flt_lt_irrefl _)
    · simp only [h1, h2, if_true, if_false]
      refine ⟨by simp, ?_, ?_, ?_⟩
      · intro j h0 hj
        rcases cases3 j h0 hj with rfl | rfl | rfl
        · exact flt_le_of_lt h1
        · exact flt_le_refl_of_ne_nan hn1
        · exact flt_le_of_not_lt hn1 hn2 h2
      · intro j h0 hj
        rcases cases3 j h0 (by omega) with rfl | rfl | rfl
        · exact h1
        · omega
        · omega
      · intro e1 _
        rw [e1] at h1
        exact absurd h1 (flt_lt_irrefl _)
  · by_cases h2 : score 2 > score 0
    · simp only [h1, h2, if_true, if_false]
      refine ⟨by simp, ?_, ?_, ?_⟩
      · intro j h0 hj
        rcases cases3 j h0 hj with rfl | rfl | rfl
        · exact flt_le_of_lt h2
        · exact flt_le_trans (flt_le_of_not_lt hn0 hn1 h1) (flt_le_of_lt h2)
        · exact flt_le_refl_of_ne_nan hn2
      · intro j h0 hj
        rcases cases3 j h0 (by omega) with rfl | rfl | rfl
        · exact h2
        · exact flt_lt_of_le_of_lt (flt_le_of_not_lt hn0 hn1 h1) h2
        · omega
      · intro e1 e2
        rw [← e2, ← e1] at h2
        exact absurd h2 (flt_lt_irrefl _)
    · simp only [h1, h2, if_false]
      refine ⟨by simp, ?_, ?_, ?_⟩
      · intro j h0 hj
        rcases cases3 j h0 hj with rfl | rfl | rfl
        · exact flt_le_refl_of_ne_nan hn0
        · exact flt_le_of_not_lt hn0 hn1 h1
        · exact flt_le_of_not_lt hn0 hn2 h2
      · intro j h0 hj
        omega
      · intro _ _; trivial

/-- C5 as stated fails when a score is a NaN: for the scores `[NaN, 1, 2]` neither
comparison `score[i] > max_score` holds, the step returns class 0, and `score[0]` is not
at least `score[2]`. -/
theorem run_har_inference_argmax_nan_counterexample :
    run_har_inference_argmax nan_scores = 0 ∧
    ¬ (nan_scores 2 ≤ nan_scores (run_har_inference_argmax nan_scores)) := by
  have h : run_har_inference_argmax nan_scores = 0 := by
    rw [run_har_inference_argmax_eq]
    simp [nan_scores, flt_lt_iff, Flt.blt]
  rw [h]
  exact ⟨rfl, (flt_not_le_nan _).1⟩

/-- C5 (amended) at three equal scores: the class is 0. -/
theorem run_har_inference_argmax_lowest_witness :
    (fun _ : Int => Flt.fin 7) 0 ≠ Flt.nan ∧
    (fun _ : Int => Flt.fin 7) 0 = (fun _ : Int => Flt.fin 7) 1 ∧
    run_har_inference_argmax (fun _ : Int => Flt.fin 7) = 0 :=
  ⟨fun h => Flt.noConfusion h, rfl,
    (run_har_inference_argmax_lowest (fun _ : Int => Flt.fin 7) (fun h => Flt.noConfusion h)
      (fun h => Flt.noConfusion h) (fun h => Flt.noConfusion h)).2.2.2 rfl rfl⟩

/-! ## C6: convolution output length and truncation -/

/-- C6 (amended): write `steps_out = (steps_in - kernel_size) / stride + 1`.  With
`kernel_size <= steps_in`, `stride >= 1`, and `steps_out * stride <= INT_MAX` (so that the
loop counter `i += stride` does not overflow), `layer_conv1d` with 32-bit `int` arithmetic
returns, given enough fuel, with `out_step = steps_out`.  If moreover the element counts
`steps_in * channels_in`, `kernel_size * channels_in * filters` and `steps_out * filters`
fit an `int` (so that no index overflows), it stores nothing outside the
`steps_out * filters` leading elements, and its result does not change when the input is
changed at or beyond step `(steps_out - 1) * stride + kernel_size`. -/
theorem layer_conv1d_steps {α : Type} [Add α] [Mul α]
    (input output weights bias : Arr α)
    (steps_in channels_in filters kernel_size stride : Int)
    (hks : kernel_size ≤ steps_in) (hs : 1 ≤ stride)
    (hov : ((steps_in - kernel_size) / stride + 1) * stride ≤ INT_MAX) (fuel : Nat)
    (hfuel : ((steps_in - kernel_size) / stride + 1).toNat < fuel) :
    (∃ out : Arr α,
      layer_conv1d_i32 fuel input output weights bias steps_in channels_in filters kernel_size
          stride
        = some (out, (steps_in - kernel_size) / stride + 1)) ∧
    (steps_in * channels_in ≤ INT_MAX → kernel_size * (channels_in * filters) ≤ INT_MAX →
      ((steps_in - kernel_size) / stride + 1) * filters ≤ INT_MAX →
      (∃ out : Arr α,
        layer_conv1d_i32 fuel input output weights bias steps_in channels_in filters
            kernel_size stride
          = some (out, (steps_in - kernel_size) / stride + 1) ∧
        ∀ j : Int, j < 0 ∨ ((steps_in - kernel_size) / stride + 1) * filters ≤ j →
          out j = output j) ∧
      ∀ input2 : Arr α,
        agree_below
          ((((steps_in - kernel_size) / stride + 1 - 1) * stride + kernel_size) * channels_in)
          input input2 →
        layer_conv1d_i32 fuel input2 output weights bias steps_in channels_in filters
            kernel_size stride
          = layer_conv1d_i32 fuel input output weights bias steps_in channels_in filters
              kernel_size stride) := by
  have hq : 0 ≤ (steps_in - kernel_size) / stride :=
    Int.ediv_nonneg (by omega) (by omega)
  have hm : ((((steps_in - kernel_size) / stride + 1).toNat : Nat) : Int)
      = (steps_in - kernel_size) / stride + 1 := Int.toNat_of_nonneg (by omega)
  refine ⟨layer_conv1d_i32_count input output weights bias steps_in channels_in filters
    kernel_size stride hks hs hov fuel hfuel, ?_⟩
  intro hisz hwsz hosz
  have e1 : ∀ x : Arr α,
      layer_conv1d_i32 fuel x output weights bias steps_in channels_in filters kernel_size
          stride
        = some
          (fill2 ((steps_in - kernel_size) / stride + 1).toNat filters
            (fun s f =>
              conv_acc x weights bias channels_in filters kernel_size ((s : Int) * stride) f)
            output,
          (steps_in - kernel_size) / stride + 1) := by
    intro x
    rw [layer_conv1d_i32_eq x output weights bias steps_in channels_in filters kernel_size
      stride hks hs hov hisz hwsz hosz fuel hfuel]
    exact layer_conv1d_eq_fill2_raw x output weights bias steps_in channels_in filters
      kernel_size stride hks hs fuel hfuel
  constructor
  · refine ⟨_, e1 input, ?_⟩
    intro j hj
    exact fill2_outside _ filters _ output j (by rw [hm]; exact hj)
  · intro input2 hag
    rw [e1 input, e1 input2]
    refine congrArg (fun o => some (o, (steps_in - kernel_size) / stride + 1)) ?_
    refine fill2_congr _ filters _ _ output ?_
    intro s hs1 f _ _
    apply conv_acc_congr
    intro k c hk0 hk1 hc0 hc1
    have hs2 : (s : Int) ≤ (steps_in - kernel_size) / stride + 1 - 1 := by omega
    have h1 : (s : Int) * stride ≤ ((steps_in - kernel_size) / stride + 1 - 1) * stride :=
      mul_le_mul_of_nonneg_right hs2 (by omega)
    have h0 : (0 : Int) ≤ (s : Int) * stride :=
      mul_nonneg (Int.ofNat_nonneg s) (le_trans Int.one_nonneg hs)
    have h2 : ((s : Int) * stride + k + 1) * channels_in
        ≤ (((steps_in - kernel_size) / stride + 1 - 1) * stride + kernel_size)
            * channels_in :=
      mul_le_mul_of_nonneg_right (by omega) (by omega)
    have h3 : (0 : Int) ≤ ((s : Int) * stride + k) * channels_in :=
      mul_nonneg (by omega) (by omega)
    have h4 : ((s : Int) * stride + k + 1) * channels_in
        = ((s : Int) * stride + k) * channels_in + channels_in := by ring
    exact (hag _ (by omega) (by omega)).symm

/-- C6 as stated fails when the loop counter overflows: with `steps_in = INT_MAX`,
`kernel_size = 1` and `stride = 2^30` the counter of the 32-bit loop takes the values
`0, 2^30, -2^31, -2^30, 0, ...`, all of them `<= steps_in - kernel_size`, and the function
does not return, whatever the fuel. -/
theorem layer_conv1d_overflow_counterexample :
    (1 : Int) ≤ 1 ∧ (1 : Int) ≤ 2147483647 ∧ (1 : Int) ≤ 1073741824 ∧
    ¬ ∃ (fuel : Nat) (r : Arr Int × Int),
      layer_conv1d_i32 fuel (fun _ => 0) (fun _ => 0) (fun _ => 0) (fun _ => 0)
        2147483647 1 1 1 1073741824 = some r := by
  refine ⟨by decide, by decide, by decide, ?_⟩
  rintro ⟨fuel, r, h⟩
  have hinv : ∀ i : Int,
      (i = 0 ∨ i = 1073741824 ∨ i = -2147483648 ∨ i = -1073741824) →
      decide (i ≤ wrap32 (2147483647 - 1)) = true ∧
        (wrap32 (i + 1073741824) = 0 ∨ wrap32 (i + 1073741824) = 1073741824 ∨
          wrap32 (i + 1073741824) = -2147483648 ∨ wrap32 (i + 1073741824) = -1073741824) := by
    intro i hi
    rw [decide_eq_true_iff]
    unfold wrap32
    omega
  unfold layer_conv1d_i32 at h
  rw [whileLoop32_none (fun i => decide (i ≤ wrap32 (2147483647 - 1))) 1073741824 _
    (fun i => i = 0 ∨ i = 1073741824 ∨ i = -2147483648 ∨ i = -1073741824) hinv fuel 0 _
    (Or.inl rfl)] at h
  cases h

/-- C6 (amended) at 10 input steps, kernel 4, stride 3: three output steps. -/
theorem layer_conv1d_steps_witness :
    (4 : Int) ≤ 10 ∧ (1 : Int) ≤ 3 ∧ (((10 : Int) - 4) / 3 + 1) * 3 ≤ INT_MAX ∧
    (((10 : Int) - 4) / 3 + 1).toNat < 4 ∧
    ∃ out : Arr Int,
      layer_conv1d_i32 4 (fun i => i) (fun _ => 0) (fun _ => 1) (fun _ => 0) 10 2 3 4 3
        = some (out, (10 - 4) / 3 + 1) :=
  ⟨by decide, by decide, by decide, by decide,
    (layer_conv1d_steps (fun i => i) (fun _ => 0) (fun _ => 1) (fun _ => 0) 10 2 3 4 3
      (by decide) (by decide) (by decide) 4 (by decide)).1⟩

/-! ## C7: pooling output length and the dropped final step -/

/-- C7 (amended): write `steps_out = (steps_in - pool_size) / stride + 1`.  With
`1 <= pool_size <= steps_in`, `stride >= 1` and `steps_out * stride + pool_size <= INT_MAX`
(so that neither the loop counter `i += stride` nor the sum `i + pool_size` overflows),
`layer_maxpool1d` with 32-bit `int` arithmetic returns, given enough fuel, with
`out_step = steps_out`; if moreover `steps_in * channels` fits an `int`, it stores nothing
outside the `steps_out * channels` leading elements.  With `pool_size = 2`, `stride = 2`,
`steps_in = 61` and
`61 * channels <= INT_MAX` it performs exactly 30 steps, and two inputs that differ only at
input step 60 (indices `60*channels .. 61*channels - 1`) give the same result. -/
theorem layer_maxpool1d_steps {α : Type} [Neg α] [LT α]
    [DecidableRel (fun a b : α => a < b)] [OfNat α 340282346638528859811704183484516925440]
    (input output : Arr α) (steps_in channels pool_size stride : Int)
    (hp1 : 1 ≤ pool_size) (hps : pool_size ≤ steps_in) (hs : 1 ≤ stride)
    (hov : ((steps_in - pool_size) / stride + 1) * stride + pool_size ≤ INT_MAX)
    (fuel : Nat) (hfuel : ((steps_in - pool_size) / stride + 1).toNat < fuel) :
    (∃ out : Arr α,
      layer_maxpool1d_i32 fuel input output steps_in channels pool_size stride
        = some (out, (steps_in - pool_size) / stride + 1)) ∧
    (steps_in * channels ≤ INT_MAX →
      ∃ out : Arr α,
        layer_maxpool1d_i32 fuel input output steps_in channels pool_size stride
          = some (out, (steps_in - pool_size) / stride + 1) ∧
        ∀ j : Int, j < 0 ∨ ((steps_in - pool_size) / stride + 1) * channels ≤ j →
          out j = output j) ∧
    (∀ (input1 input2 : Arr α) (fuel2 : Nat), 30 < fuel2 → 61 * channels ≤ INT_MAX →
      (∀ j : Int, ¬ (60 * channels ≤ j ∧ j < 61 * channels) → input1 j = input2 j) →
      ∃ out : Arr α,
        layer_maxpool1d_i32 fuel2 input1 output 61 channels 2 2 = some (out, 30) ∧
        layer_maxpool1d_i32 fuel2 input2 output 61 channels 2 2 = some (out, 30)) := by
  have hq : 0 ≤ (steps_in - pool_size) / stride :=
    Int.ediv_nonneg (by omega) (by omega)
  have hm : ((((steps_in - pool_size) / stride + 1).toNat : Nat) : Int)
      = (steps_in - pool_size) / stride + 1 := Int.toNat_of_nonneg (by omega)
  have hmin : INT_MIN = -2147483648 := rfl
  refine ⟨?_, ?_, ?_⟩
  · exact layer_maxpool1d_i32_count input output steps_in channels pool_size stride hps hs
      (by omega) (by omega) hov fuel hfuel
  · intro hisz
    have e1 := layer_maxpool1d_eq_fill2 input output steps_in channels pool_size stride hps
      hs fuel hfuel
    rw [← layer_maxpool1d_i32_eq input output steps_in channels pool_size stride hp1 hps hs
      hov hisz fuel hfuel] at e1
    refine ⟨_, e1, ?_⟩
    intro j hj
    exact fill2_outside _ channels _ output j (by rw [hm]; exact hj)
  · intro input1 input2 fuel2 hf2 hisz hag
    have h30 : (((61 : Int) - 2) / 2 + 1).toNat = 30 := by decide
    have e : ∀ x : Arr α,
        layer_maxpool1d_i32 fuel2 x output 61 channels 2 2
          = some
            (fill2 30 channels (fun s c => pool_value x channels 2 ((s : Int) * 2) c) output,
            30) := by
      intro x
      rw [layer_maxpool1d_i32_eq x output 61 channels 2 2 (by decide) (by decide) (by decide)
        (by decide) hisz fuel2 (by rw [h30]; exact hf2)]
      have e0 := layer_maxpool1d_eq_fill2 x output 61 channels 2 2 (by decide) (by decide)
        fuel2 (by rw [h30]; exact hf2)
      rw [h30, show ((61 : Int) - 2) / 2 + 1 = 30 from by decide] at e0
      exact e0
    refine ⟨_, e input1, ?_⟩
    rw [e input2]
    refine congrArg (fun o => some (o, (30 : Int))) ?_
    refine fill2_congr 30 channels _ _ output ?_
    intro t ht c hc0 hc1
    apply pool_value_congr
    intro p hp0 hp1
    apply (hag _ _).symm
    have h1 : ((t : Int) * 2 + p + 1) * channels ≤ 60 * channels :=
      mul_le_mul_of_nonneg_right (by omega) (by omega)
    have h2 : ((t : Int) * 2 + p + 1) * channels = ((t : Int) * 2 + p) * channels + channels := by
      ring
    omega

/-- C7 as stated fails when the loop counter overflows: with `steps_in = INT_MAX`,
`pool_size = 1` and `stride = 2^30` the condition `i + pool_size <= steps_in` of the 32-bit
loop holds for every value of the counter, and the function does not return, whatever the
fuel. -/
theorem layer_maxpool1d_overflow_counterexample :
    (1 : Int) ≤ 1 ∧ (1 : Int) ≤ 2147483647 ∧ (1 : Int) ≤ 1073741824 ∧
    ¬ ∃ (fuel : Nat) (r : Arr Int × Int),
      layer_maxpool1d_i32 fuel (fun _ => 0) (fun _ => 0) 2147483647 1 1 1073741824
        = some r := by
  refine ⟨by decide, by decide, by decide, ?_⟩
  rintro ⟨fuel, r, h⟩
  have hinv : ∀ i : Int, True →
      decide (wrap32 (i + 1) ≤ 2147483647) = true ∧ True := by
    intro i _
    rw [decide_eq_true_iff]
    exact ⟨(wrap32_range _).2, trivial⟩
  unfold layer_maxpool1d_i32 at h
  rw [whileLoop32_none (fun i => decide (wrap32 (i + 1) ≤ 2147483647)) 1073741824 _
    (fun _ => True) hinv fuel 0 _ trivial] at h
  cases h

/-- C7 (amended) at the pipeline's shape: 61 input steps, 8 channels, pool 2, stride 2. -/
theorem layer_maxpool1d_steps_witness :
    (1 : Int) ≤ 2 ∧ (2 : Int) ≤ 61 ∧ (1 : Int) ≤ 2 ∧
    (((61 : Int) - 2) / 2 + 1) * 2 + 2 ≤ INT_MAX ∧
    (((61 : Int) - 2) / 2 + 1).toNat < 31 ∧
    ∃ out : Arr Int,
      layer_maxpool1d_i32 31 (fun i => i) (fun _ => 0) 61 8 2 2
        = some (out, (61 - 2) / 2 + 1) :=
  ⟨by decide, by decide, by decide, by decide, by decide,
    (layer_maxpool1d_steps (fun i => i) (fun _ => 0) 61 8 2 2 (by decide) (by decide)
      (by decide) (by decide) 31 (by decide)).1⟩

/-! ## C8: ReLU -/

/-- C9: on `float` values with infinities and NaN (32-bit `int` arithmetic, fuel above 488),
if the convolution weights and biases are all zero, the dense weights are all zero and the
dense bias is `[0, 0, 1]`, then `run_har_inference` returns 2 for every ring-buffer content
and cursor, in particular for an all-zero window.  (A sample that is infinite or a NaN
makes convolution values NaN; the pooling step then stores `-FLT_MAX` or 0, both finite,
and their products with the zero dense weights are 0.) -/
theorem run_har_inference_bias_only (fuel : Nat) (hf : 488 < fuel) (w : HarWeights Flt)
    (s : HarState Flt)
    (hcw : ∀ j : Int, 0 ≤ j → j < 192 → w.conv_weights j = 0)
    (hcb : ∀ f : Int, 0 ≤ f → f < 8 → w.conv_biases f = 0)
    (hdw : ∀ j : Int, 0 ≤ j → j < 720 → w.dense_weights j = 0)
    (hb0 : w.dense_biases 0 = 0) (hb1 : w.dense_biases 1 = 0)
    (hb2 : w.dense_biases 2 = Flt.fin 1) :
    ∃ s' : HarState Flt, run_har_inference_i32 fuel w s = some (2, s') := by
  obtain ⟨-, -, hrun⟩ := run_har_inference_i32_stages fuel hf w s
  have hlo0 : -FLT_OVERFLOW < (0 : ℚ) := by norm_num [FLT_OVERFLOW]
  have hhi0 : (0 : ℚ) < FLT_OVERFLOW := by norm_num [FLT_OVERFLOW]
  have hlo1 : -FLT_OVERFLOW < (1 : ℚ) := by norm_num [FLT_OVERFLOW]
  have hhi1 : (1 : ℚ) < FLT_OVERFLOW := by norm_num [FLT_OVERFLOW]
  have d0 := stage_dense_bias_only w s hcw hcb hdw 0 (by decide) (by decide) 0 hb0 hlo0 hhi0
  have d1 := stage_dense_bias_only w s hcw hcb hdw 1 (by decide) (by decide) 0 hb1 hlo0 hhi0
  have d2 := stage_dense_bias_only w s hcw hcb hdw 2 (by decide) (by decide) 1 hb2 hlo1 hhi1
  have h01 : ¬ (Flt.fin 0 > Flt.fin 0) := by simp [flt_lt_iff, Flt.blt]
  have h10 : Flt.fin 1 > Flt.fin 0 := by simp [flt_lt_iff, Flt.blt]
  rw [run_har_inference_argmax_eq, d0, d1, d2, if_neg h01, if_pos h10] at hrun
  exact ⟨_, hrun⟩

/-- C9 at the initial state (an all-zero window) with all weights zero. -/
theorem run_har_inference_bias_only_witness :
    488 < 489 ∧ bias_only_weights_flt.dense_biases 0 = 0 ∧
    bias_only_weights_flt.dense_biases 1 = 0 ∧
    bias_only_weights_flt.dense_biases 2 = Flt.fin 1 ∧
    ∃ s' : HarState Flt,
      run_har_inference_i32 489 bias_only_weights_flt HarState.init = some (2, s') :=
  ⟨by decide, rfl, rfl, rfl,
    run_har_inference_bias_only 489 (by decide) bias_only_weights_flt HarState.init
      (fun _ _ _ => rfl) (fun _ _ _ => rfl) (fun _ _ _ => rfl) rfl rfl rfl⟩

/-! ## C10: determinism of repeated inference -/

/-- C10: for every state and weight set, two calls of `run_har_inference` with no push in
between (each with fuel above 61) return the same class id, although the second call
starts from the scratch buffers the first call has written. -/
theorem run_har_inference_twice {α : Type} [LinearOrderedRing α] (fuel1 fuel2 : Nat)
    (hf1 : 61 < fuel1) (hf2 : 61 < fuel2) (w : HarWeights α) (s : HarState α) :
    ∃ (r : Int) (s1 s2 : HarState α),
      run_har_inference fuel1 w s = some (r, s1) ∧
      run_har_inference fuel2 w s1 = some (r, s2) := by
  obtain ⟨s1, h1, hib, hh⟩ : ∃ s1 : HarState α,
      run_har_inference fuel1 w s = some (run_har_inference_argmax (pipeline_dense w s), s1) ∧
      s1.input_buffer = s.input_buffer ∧ s1.buffer_head = s.buffer_head :=
    ⟨_, run_har_inference_eq fuel1 hf1 w s, rfl, rfl⟩
  have h2 := run_har_inference_eq fuel2 hf2 w s1
  have e : run_har_inference_argmax (pipeline_dense w s1)
      = run_har_inference_argmax (pipeline_dense w s) :=
    run_har_inference_argmax_congr _ _ (pipeline_dense_agree w s1 s hib hh)
  rw [e] at h2
  exact ⟨_, s1, _, h1, h2⟩

/-- C10 at the state reached by seventy pushes. -/
theorem run_har_inference_twice_witness :
    61 < 62 ∧ 61 < 100 ∧
    ∃ (r : Int) (s1 s2 : HarState Int),
      run_har_inference 62 bias_only_weights (pushAll HarState.init demo_samples)
        = some (r, s1) ∧
      run_har_inference 100 bias_only_weights s1 = some (r, s2) :=
  ⟨by decide, by decide,
    run_har_inference_twice 62 100 (by decide) (by decide) bias_only_weights
      (pushAll HarState.init demo_samples)⟩

/-! ## C11: the ring buffer is not modified by reading it -/

/-- C11: `linearize_buffer` and `run_har_inference` leave `input_buffer` and `buffer_head`
unchanged (whenever `run_har_inference` returns, and it does with fuel above 61); hence a
second `linearize_buffer` call with no push in between stores the same 384 values, whatever
`dest` held before, and repeating the call on the same `dest` changes nothing. -/
theorem linearize_and_inference_preserve_ring {α : Type} [LinearOrderedRing α]
    (w : HarWeights α) (s : HarState α) :
    ((linearize_buffer_call s).input_buffer = s.input_buffer ∧
      (linearize_buffer_call s).buffer_head = s.buffer_head) ∧
    (∀ (fuel : Nat) (r : Int) (s' : HarState α), run_har_inference fuel w s = some (r, s') →
      s'.input_buffer = s.input_buffer ∧ s'.buffer_head = s.buffer_head) ∧
    (∀ fuel : Nat, 61 < fuel → ∃ (r : Int) (s' : HarState α),
      run_har_inference fuel w s = some (r, s') ∧
      s'.input_buffer = s.input_buffer ∧ s'.buffer_head = s.buffer_head) ∧
    (∀ dest1 dest2 : Arr α,
      agree_below 384 (linearize_buffer s.input_buffer s.buffer_head dest1)
        (linearize_buffer s.input_buffer s.buffer_head dest2)) ∧
    linearize_buffer_call (linearize_buffer_call s) = linearize_buffer_call s := by
  refine ⟨⟨rfl, rfl⟩, ?_, ?_, ?_, ?_⟩
  · intro fuel r s' h
    unfold run_har_inference at h
    dsimp only at h
    split at h
    · exact absurd h (by simp)
    · split at h
      · exact absurd h (by simp)
      · simp only [Option.some.injEq, Prod.mk.injEq] at h
        rw [← h.2]
        exact ⟨rfl, rfl⟩
  · intro fuel hf
    exact ⟨_, _, run_har_inference_eq fuel hf w s, rfl, rfl⟩
  · intro dest1 dest2
    exact linearize_buffer_agree _ _ _ _
  · have hlin : linearize_buffer s.input_buffer s.buffer_head
        (linearize_buffer s.input_buffer s.buffer_head s.linear_input)
        = linearize_buffer s.input_buffer s.buffer_head s.linear_input := by
      funext j
      by_cases hj : 0 ≤ j ∧ j < 384
      · exact linearize_buffer_agree _ _ _ _ j hj.1 hj.2
      · rw [linearize_buffer_eq_fill2_any, fill2_outside 64 6 _ _ j (by omega)]
    unfold linearize_buffer_call
    simp only [hlin]

/-- C11 at the state reached by seventy pushes, with the all-zero weight set. -/
theorem linearize_and_inference_preserve_ring_witness :
    61 < 62 ∧
    ∃ (r : Int) (s' : HarState Int),
      run_har_inference 62 bias_only_weights (pushAll HarState.init demo_samples)
        = some (r, s') ∧
      s'.input_buffer = (pushAll HarState.init demo_samples).input_buffer ∧
      s'.buffer_head = (pushAll HarState.init demo_samples).buffer_head :=
  ⟨by decide,
    (linearize_and_inference_preserve_ring bias_only_weights
      (pushAll HarState.init demo_samples)).2.2.1 62 (by decide)⟩

/-! ## C12: one push -/

/-- C12: for a state with `0 <= buffer_head < 64`, `add_imu_sample_to_buffer` stores its six
arguments in order into the row at `buffer_head` (the row `linearize_buffer` emits first),
leaves every other row unchanged, and sets `buffer_head` to `(buffer_head + 1) mod 64`,
which is what the mask `& 0x3F` computes and lies in `0 .. 63`; after `n` pushes from the
initial state `buffer_head = n mod 64`, in `0 .. 63`. -/
theorem add_imu_sample_to_buffer_overwrites_oldest {α : Type} [LinearOrderedRing α]
    (s : HarState α) (h0 : 0 ≤ s.buffer_head) (h1 : s.buffer_head < 64)
    (ax ay az gx gy gz : α) :
    ((add_imu_sample_to_buffer ax ay az gx gy gz s).input_buffer s.buffer_head 0 = ax ∧
      (add_imu_sample_to_buffer ax ay az gx gy gz s).input_buffer s.buffer_head 1 = ay ∧
      (add_imu_sample_to_buffer ax ay az gx gy gz s).input_buffer s.buffer_head 2 = az ∧
      (add_imu_sample_to_buffer ax ay az gx gy gz s).input_buffer s.buffer_head 3 = gx ∧
      (add_imu_sample_to_buffer ax ay az gx gy gz s).input_buffer s.buffer_head 4 = gy ∧
      (add_imu_sample_to_buffer ax ay az gx gy gz s).input_buffer s.buffer_head 5 = gz) ∧
    (∀ r c : Int, r ≠ s.buffer_head →
      (add_imu_sample_to_buffer ax ay az gx gy gz s).input_buffer r c = s.input_buffer r c) ∧
    (∀ (dest : Arr α) (c : Int), 0 ≤ c → c < 6 →
      linearize_buffer s.input_buffer s.buffer_head dest (0 * 6 + c)
        = s.input_buffer s.buffer_head c) ∧
    ((add_imu_sample_to_buffer ax ay az gx gy gz s).buffer_head = (s.buffer_head + 1) % 64 ∧
      Int.land (s.buffer_head + 1) 0x3F = (s.buffer_head + 1) % 64 ∧
      0 ≤ (add_imu_sample_to_buffer ax ay az gx gy gz s).buffer_head ∧
      (add_imu_sample_to_buffer ax ay az gx gy gz s).buffer_head < 64) ∧
    (∀ xs : List (Sample α),
      (pushAll HarState.init xs).buffer_head = (xs.length : Int) % 64 ∧
      0 ≤ (pushAll HarState.init xs).buffer_head ∧
      (pushAll HarState.init xs).buffer_head < 64) := by
  have hpush : add_imu_sample_to_buffer ax ay az gx gy gz s
      = push s ⟨ax, ay, az, gx, gy, gz⟩ := rfl
  have hhead := push_buffer_head s ⟨ax, ay, az, gx, gy, gz⟩
  refine ⟨?_, ?_, ?_, ?_, ?_⟩
  · rw [hpush]
    simp only [push_input_buffer]
    refine ⟨?_, ?_, ?_, ?_, ?_, ?_⟩ <;> simp [Sample.channel]
  · intro r c hr
    rw [hpush, push_input_buffer]
    have : ¬ (r = s.buffer_head ∧ 0 ≤ c ∧ c < 6) := fun h => hr h.1
    rw [if_neg this]
  · intro dest c hc0 hc1
    rw [linearize_buffer_eq_fill2 _ _ h0 h1]
    have := fill2_inside 64 6 (fun (i : Nat) c => s.input_buffer ((s.buffer_head + i) % 64) c)
      dest 0 c (by decide) hc0 hc1
    simp only [Nat.cast_zero, add_zero] at this
    rw [this]
    congr 1
    omega
  · rw [hpush, hhead]
    exact ⟨rfl, land_63 _, by omega, by omega⟩
  · intro xs
    rw [pushAll_buffer_head HarState.init rfl xs]
    exact ⟨rfl, by omega, by omega⟩

/-- C12 at the initial state with the sample `(1, 2, 3, 4, 5, 6)`. -/
theorem add_imu_sample_to_buffer_overwrites_oldest_witness :
    (0 : Int) ≤ (HarState.init : HarState Int).buffer_head ∧
    (HarState.init : HarState Int).buffer_head < 64 ∧
    (add_imu_sample_to_buffer 1 2 3 4 5 6 (HarState.init : HarState Int)).buffer_head
      = ((HarState.init : HarState Int).buffer_head + 1) % 64 :=
  ⟨by decide, by decide,
    (add_imu_sample_to_buffer_overwrites_oldest (HarState.init : HarState Int) (by decide)
      (by decide) 1 2 3 4 5 6).2.2.2.1.1⟩

/-! ## C13: the class id -/

/-- C13: for every state and weight set, `run_har_inference` (with fuel above 61) returns
a class id that is 0, 1 or 2. -/
theorem run_har_inference_class_range {α : Type} [LinearOrderedRing α] (fuel : Nat)
    (hf : 61 < fuel) (w : HarWeights α) (s : HarState α) :
    ∃ (r : Int) (s' : HarState α),
      run_har_inference fuel w s = some (r, s') ∧ (r = 0 ∨ r = 1 ∨ r = 2) := by
  refine ⟨_, _, run_har_inference_eq fuel hf w s, ?_⟩
  rw [run_har_inference_argmax_eq]
  split
  · split
    · exact Or.inr (Or.inr rfl)
    · exact Or.inr (Or.inl rfl)
  · split
    · exact Or.inr (Or.inr rfl)
    · exact Or.inl rfl

/-- C13 at the initial state with the all-zero weight set. -/
theorem run_har_inference_class_range_witness :
    61 < 62 ∧
    ∃ (r : Int) (s' : HarState Int),
      run_har_inference 62 bias_only_weights HarState.init = some (r, s') ∧
      (r = 0 ∨ r = 1 ∨ r = 2) :=
  ⟨by decide, run_har_inference_class_range 62 (by decide) bias_only_weights HarState.init⟩

/-! ## C14: all-ones kernel -/

/-- C15: after `n < 64` pushes from the initial state, `linearize_buffer` emits `64 - n`
all-zero samples followed by the `n` pushed samples in push order: `dest[i*6 + c] = 0` for
`i < 64 - n`, and `dest[i*6 + c]` is channel `c` of pushed sample `i - (64 - n)` for
`64 - n <= i < 64`. -/
theorem linearize_buffer_partial_window {α : Type} [LinearOrderedRing α]
    (pushes : List (Sample α)) (hn : pushes.length < 64) (dest : Arr α) (i c : Nat)
    (hi : i < 64) (hc : c < 6) :
    (i < 64 - pushes.length →
      linearize_buffer (pushAll HarState.init pushes).input_buffer
        (pushAll HarState.init pushes).buffer_head dest ((i : Int) * 6 + (c : Int)) = 0) ∧
    (∀ h : 64 - pushes.length ≤ i,
      linearize_buffer (pushAll HarState.init pushes).input_buffer
        (pushAll HarState.init pushes).buffer_head dest ((i : Int) * 6 + (c : Int))
        = (pushes.get ⟨i - (64 - pushes.length), by omega⟩).channel (c : Int)) := by
  have hh := pushAll_buffer_head (HarState.init : HarState α) rfl pushes
  have hlin := linearize_buffer_eq_fill2 (pushAll HarState.init pushes).input_buffer
    (pushAll HarState.init pushes).buffer_head (by rw [hh]; omega) (by rw [hh]; omega) dest
  rw [hlin, fill2_inside 64 6 _ dest i c hi (by omega) (by omega), hh]
  constructor
  · intro hlt
    have hrow : ((pushes.length : Int) % 64 + (i : Int)) % 64
        = (pushes.length : Int) + (i : Int) := by omega
    rw [hrow, pushAll_input_buffer_untouched HarState.init rfl pushes (by omega) _ (by omega)]
    rfl
  · intro hge
    have hrow : ((pushes.length : Int) % 64 + (i : Int)) % 64
        = (((i - (64 - pushes.length) : Nat) : Nat) : Int) % 64 := by omega
    rw [hrow]
    apply pushAll_input_buffer HarState.init rfl pushes (i - (64 - pushes.length)) _ _
      (by omega) c (by omega) (by omega)
    exact List.getElem?_eq_getElem _

/-- C15 at three pushes: sample slot 10 of the linearised window is zero. -/
theorem linearize_buffer_partial_window_witness :
    (demo_samples.take 3).length < 64 ∧ 10 < 64 ∧ 2 < 6 ∧
    10 < 64 - (demo_samples.take 3).length ∧
    linearize_buffer (pushAll HarState.init (demo_samples.take 3)).input_buffer
      (pushAll HarState.init (demo_samples.take 3)).buffer_head (fun _ => 7)
      (((10 : Nat) : Int) * 6 + ((2 : Nat) : Int)) = 0 :=
  ⟨by decide, by decide, by decide, by decide,
    (linearize_buffer_partial_window (demo_samples.take 3) (by decide) (fun _ => 7) 10 2
      (by decide) (by decide)).1 (by decide)⟩

/-! ## C16: shapes of the fixed configuration -/

/-- C16: in the fixed configuration (with fuel above 61) `layer_conv1d` called with
64 steps, kernel 4, stride 1 performs exactly `CONV_OUTPUT_LEN = 61` output steps and
stores exactly the `61 * 8` declared elements of `conv_output`; `layer_maxpool1d` called
with 61 steps, pool 2, stride 2 performs exactly `POOL_OUTPUT_LEN = 30` output steps and
stores exactly the `30 * 8` declared elements of `pool_output`; and
`30 * 8 = 240 = DENSE_INPUTS`. -/
theorem fixed_configuration_sizes {α : Type} [LinearOrderedRing α]
    (linear_input conv_output pool_output weights bias : Arr α) (fuel : Nat)
    (hf : 61 < fuel) :
    (∃ out : Arr α,
      layer_conv1d fuel linear_input conv_output weights bias HAR_WINDOW_SIZE HAR_CHANNELS
          CONV_FILTERS CONV_KERNEL CONV_STRIDE
        = some (out, CONV_OUTPUT_LEN) ∧
      (∀ j : Int, j < 0 ∨ declared_len Buf.conv_output ≤ j → out j = conv_output j) ∧
      ∀ prior : Arr α, ∃ out2 : Arr α,
        layer_conv1d fuel linear_input prior weights bias HAR_WINDOW_SIZE HAR_CHANNELS
            CONV_FILTERS CONV_KERNEL CONV_STRIDE
          = some (out2, CONV_OUTPUT_LEN) ∧
        agree_below (declared_len Buf.conv_output) out out2) ∧
    (∃ out : Arr α,
      layer_maxpool1d fuel conv_output pool_output CONV_OUTPUT_LEN CONV_FILTERS POOL_SIZE
          POOL_STRIDE
        = some (out, POOL_OUTPUT_LEN) ∧
      (∀ j : Int, j < 0 ∨ declared_len Buf.pool_output ≤ j → out j = pool_output j) ∧
      ∀ prior : Arr α, ∃ out2 : Arr α,
        layer_maxpool1d fuel conv_output prior CONV_OUTPUT_LEN CONV_FILTERS POOL_SIZE
            POOL_STRIDE
          = some (out2, POOL_OUTPUT_LEN) ∧
        agree_below (declared_len Buf.pool_output) out out2) ∧
    (CONV_OUTPUT_LEN = 61 ∧ POOL_OUTPUT_LEN = 30 ∧ DENSE_INPUTS = 240 ∧
      POOL_OUTPUT_LEN * CONV_FILTERS = DENSE_INPUTS ∧
      CONV_OUTPUT_LEN * CONV_FILTERS = declared_len Buf.conv_output ∧
      POOL_OUTPUT_LEN * CONV_FILTERS = declared_len Buf.pool_output) := by
  have h61 : (((64 : Int) - 4) / 1 + 1).toNat = 61 := by decide
  have h30 : (((61 : Int) - 2) / 2 + 1).toNat = 30 := by decide
  have hconv : ∀ prior : Arr α,
      layer_conv1d fuel linear_input prior weights bias 64 6 8 4 1
        = some (fill2 61 8
            (fun (s : Nat) f => bias f + ∑ k in Finset.Ico (0 : Int) 4,
              ∑ c in Finset.Ico (0 : Int) 6,
                linear_input (((s : Int) * 1 + k) * 6 + c) * weights (k * (6 * 8) + c * 8 + f))
            prior, 61) := by
    intro prior
    have := layer_conv1d_eq_fill2 linear_input prior weights bias 64 6 8 4 1 (by decide)
      (by decide) fuel (by rw [h61]; exact hf)
    rw [h61] at this
    exact this
  have hpool : ∀ prior : Arr α,
      layer_maxpool1d fuel conv_output prior 61 8 2 2
        = some (fill2 30 8 (fun (s : Nat) c => pool_value conv_output 8 2 ((s : Int) * 2) c)
            prior, 30) := by
    intro prior
    have := layer_maxpool1d_eq_fill2 conv_output prior 61 8 2 2 (by decide) (by decide) fuel
      (by rw [h30]; omega)
    rw [h30] at this
    exact this
  refine ⟨⟨_, hconv conv_output, ?_, ?_⟩, ⟨_, hpool pool_output, ?_, ?_⟩, ?_⟩
  · intro j hj
    have hd : declared_len Buf.conv_output = 488 := by decide
    rw [hd] at hj
    exact fill2_outside 61 8 _ conv_output j (by norm_num; omega)
  · intro prior
    refine ⟨_, hconv prior, ?_⟩
    intro j h0 h1
    have hd : declared_len Buf.conv_output = 488 := by decide
    rw [hd] at h1
    exact fill2_agree 61 8 _ conv_output prior j h0 (by norm_num; omega)
  · intro j hj
    have hd : declared_len Buf.pool_output = 240 := by decide
    rw [hd] at hj
    exact fill2_outside 30 8 _ pool_output j (by norm_num; omega)
  · intro prior
    refine ⟨_, hpool prior, ?_⟩
    intro j h0 h1
    have hd : declared_len Buf.pool_output = 240 := by decide
    rw [hd] at h1
    exact fill2_agree 30 8 _ pool_output prior j h0 (by norm_num; omega)
  · exact ⟨rfl, rfl, rfl, by decide, by decide, by decide⟩

/-- C16 with fuel 62 on concrete arrays. -/
theorem fixed_configuration_sizes_witness :
    61 < 62 ∧
    ∃ out : Arr Int,
      layer_conv1d 62 (fun i => i) (fun _ => 0) (fun _ => 1) (fun _ => 0) HAR_WINDOW_SIZE
          HAR_CHANNELS CONV_FILTERS CONV_KERNEL CONV_STRIDE
        = some (out, CONV_OUTPUT_LEN) :=
  ⟨by decide,
    (fixed_configuration_sizes (fun i => (i : Int)) (fun _ => 0) (fun _ => 0) (fun _ => 1)
      (fun _ => 0) 62 (by decide)).1.imp (fun _ h => h.1)⟩

/-! ## C18: the class id does not depend on the scratch buffers -/

/-- C18: two states that agree on `input_buffer` and `buffer_head` give, for the same
weights (and fuel above 61), the same class id, whatever their scratch buffers held: after
the call the 384 elements of `linear_input`, the 488 of `conv_output`, the 240 of
`pool_output` and the 3 of `dense_output` are the same in both runs. -/
theorem run_har_inference_scratch_independent {α : Type} [LinearOrderedRing α]
    (fuel : Nat) (hf : 61 < fuel) (w : HarWeights α) (s1 s2 : HarState α)
    (hib : s1.input_buffer = s2.input_buffer) (hh : s1.buffer_head = s2.buffer_head) :
    ∃ (r : Int) (t1 t2 : HarState α),
      run_har_inference fuel w s1 = some (r, t1) ∧
      run_har_inference fuel w s2 = some (r, t2) ∧
      agree_below 384 t1.linear_input t2.linear_input ∧
      agree_below 488 t1.conv_output t2.conv_output ∧
      agree_below 240 t1.pool_output t2.pool_output ∧
      agree_below 3 t1.dense_output t2.dense_output := by
  have h1 := run_har_inference_eq fuel hf w s1
  have h2 := run_har_inference_eq fuel hf w s2
  rw [run_har_inference_argmax_congr _ _ (pipeline_dense_agree w s2 s1 hib.symm hh.symm)] at h2
  refine ⟨_, _, _, h1, h2, ?_, ?_, ?_, ?_⟩ <;> dsimp only
  · exact pipeline_linear_agree s1 s2 hib hh
  · exact pipeline_relu_agree w s1 s2 hib hh
  · exact pipeline_pool_agree w s1 s2 hib hh
  · exact pipeline_dense_agree w s1 s2 hib hh

/-- C18 at the initial state against the same state with every scratch element set to 9. -/
theorem run_har_inference_scratch_independent_witness :
    61 < 62 ∧
    (HarState.init : HarState Int).input_buffer = stale_scratch_state.input_buffer ∧
    (HarState.init : HarState Int).buffer_head = stale_scratch_state.buffer_head ∧
    ∃ (r : Int) (t1 t2 : HarState Int),
      run_har_inference 62 bias_only_weights HarState.init = some (r, t1) ∧
      run_har_inference 62 bias_only_weights stale_scratch_state = some (r, t2) :=
  ⟨by decide, rfl, rfl,
    (run_har_inference_scratch_independent 62 (by decide) bias_only_weights HarState.init
      stale_scratch_state rfl rfl).imp
      (fun _ h => h.imp (fun _ h => h.imp (fun _ h => ⟨h.1, h.2.1⟩)))⟩

/-! ## C17: termination -/

/-- C17 (amended): write `steps_out = (steps_in - size) / stride + 1`.  With 32-bit `int`
arithmetic, `layer_conv1d` returns for `stride >= 1` whenever neither
`steps_in - kernel_size` nor the loop counter `i += stride` overflows, that is
`INT_MIN <= steps_in - kernel_size` and `steps_out * stride <= INT_MAX`, once the fuel
exceeds the number of output steps; so does `layer_maxpool1d` (for `int` values
`steps_in`, `pool_size`) when moreover the sum `i + pool_size` does not overflow, that is
`steps_out * stride + pool_size <= INT_MAX`.  The loops of `layer_relu`, `layer_dense` and
`linearize_buffer` return for every `int` bound, as does every counted loop
`for (c = 0; c < n; c++)` (the inner loops of all kernels); `add_imu_sample_to_buffer` is
straight-line code and yields a state, with a cursor in `0 .. 63`, for every argument; and
`run_har_inference` returns for every state and weight set with fuel above 488, the length
of its longest loop. -/
theorem kernels_terminate {α : Type} [Zero α] [Add α] [Mul α] [Neg α] [LT α]
    [DecidableRel (fun a b : α => a < b)] [OfNat α 340282346638528859811704183484516925440]
    (input output weights bias : Arr α) (steps_in channels filters size stride : Int)
    (hs : 1 ≤ stride) (hlo : INT_MIN ≤ steps_in - size)
    (hhi : ((steps_in - size) / stride + 1) * stride ≤ INT_MAX) (w : HarWeights α)
    (s : HarState α) :
    (∀ fuel : Nat, ((steps_in - size) / stride + 1).toNat < fuel →
      ∃ r : Arr α × Int,
        layer_conv1d_i32 fuel input output weights bias steps_in channels filters size stride
          = some r) ∧
    (INT_MIN ≤ steps_in → INT_MIN ≤ size → size ≤ INT_MAX →
      ((steps_in - size) / stride + 1) * stride + size ≤ INT_MAX →
      ∀ fuel : Nat, ((steps_in - size) / stride + 1).toNat < fuel →
        ∃ r : Arr α × Int,
          layer_maxpool1d_i32 fuel input output steps_in channels size stride = some r) ∧
    (∀ (data : Arr α) (n : Int) (fuel : Nat), n ≤ INT_MAX → n.toNat < fuel →
      layer_relu_i32 fuel data n = some (layer_relu data n)) ∧
    (∀ (inputs outputs : Int) (fuel : Nat), outputs ≤ INT_MAX → outputs.toNat < fuel →
      ∃ out : Arr α,
        layer_dense_i32 fuel input output weights bias inputs outputs = some out) ∧
    (∀ (dest : Arr α) (fuel : Nat), 64 < fuel →
      linearize_buffer_i32 fuel s.input_buffer s.buffer_head dest
        = some (linearize_buffer s.input_buffer s.buffer_head dest)) ∧
    (∀ ax ay az gx gy gz : α,
      ∃ s' : HarState α, add_imu_sample_to_buffer ax ay az gx gy gz s = s' ∧
        0 ≤ s'.buffer_head ∧ s'.buffer_head < HAR_WINDOW_SIZE) ∧
    (∀ (σ : Type) (n : Int) (body : Int → σ → σ) (init : σ) (fuel : Nat), n ≤ INT_MAX →
      n.toNat < fuel →
      whileLoop32 (fun c => decide (c < n)) 1 body fuel 0 init = some (forUp n body init)) ∧
    (∀ fuel : Nat, 488 < fuel →
      ∃ r : Int × HarState α, run_har_inference_i32 fuel w s = some r) := by
  refine ⟨?_, ?_, ?_, ?_, ?_, ?_, ?_, ?_⟩
  · intro fuel hfuel
    rcases le_or_lt size steps_in with h | h
    · obtain ⟨out, hout⟩ := layer_conv1d_i32_count input output weights bias steps_in channels
        filters size stride h hs hhi fuel hfuel
      exact ⟨_, hout⟩
    · exact ⟨_, layer_conv1d_i32_skip input output weights bias steps_in channels filters size
        stride h hlo fuel (by omega)⟩
  · intro h1 h2 h3 h4 fuel hfuel
    rcases le_or_lt size steps_in with h | h
    · obtain ⟨out, hout⟩ := layer_maxpool1d_i32_count input output steps_in channels size
        stride h hs h2 hhi h4 fuel hfuel
      exact ⟨_, hout⟩
    · exact ⟨_, layer_maxpool1d_i32_skip input output steps_in channels size stride h h1 h3
        fuel (by omega)⟩
  · intro data n fuel hn hfuel
    exact layer_relu_i32_eq data n hn fuel hfuel
  · intro inputs outputs fuel hn hfuel
    exact (layer_dense_i32_eq input output weights bias inputs outputs hn fuel hfuel).1
  · intro dest fuel hfuel
    exact linearize_buffer_i32_eq _ _ dest fuel hfuel
  · intro ax ay az gx gy gz
    have hland := land_63 (s.buffer_head + 1)
    refine ⟨_, rfl, ?_, ?_⟩
    · show 0 ≤ Int.land (s.buffer_head + 1) 0x3F
      rw [hland]
      omega
    · show Int.land (s.buffer_head + 1) 0x3F < 64
      rw [hland]
      omega
  · intro σ n body init fuel hn hfuel
    exact counted_loop_returns n hn body init fuel hfuel
  · intro fuel hfuel
    rw [run_har_inference_i32_eq fuel hfuel w s]
    exact ⟨_, run_har_inference_eq_raw fuel (by omega) w s⟩

/-- C17 as stated fails when the loop counter overflows: with `steps_in = INT_MAX`, a
kernel or pool size of 1 and `stride = 2` the 32-bit counter runs through the even numbers
`0, 2, ..., 2^31 - 2, -2^31, ..., -2, 0, ...`; the loop conditions
`i <= steps_in - kernel_size` and `i + pool_size <= steps_in` hold for all of them, and
neither kernel returns, whatever the fuel. -/
theorem kernels_overflow_counterexample :
    (1 : Int) ≤ 2 ∧
    (¬ ∃ (fuel : Nat) (r : Arr Int × Int),
      layer_conv1d_i32 fuel (fun _ => 0) (fun _ => 0) (fun _ => 0) (fun _ => 0)
        2147483647 1 1 1 2 = some r) ∧
    ¬ ∃ (fuel : Nat) (r : Arr Int × Int),
      layer_maxpool1d_i32 fuel (fun _ => 0) (fun _ => 0) 2147483647 1 1 2 = some r := by
  refine ⟨by decide, ?_, ?_⟩
  · rintro ⟨fuel, r, h⟩
    have hinv : ∀ i : Int,
        (i % 2 = 0 ∧ -2147483648 ≤ i ∧ i ≤ 2147483646) →
        decide (i ≤ wrap32 (2147483647 - 1)) = true ∧
          (wrap32 (i + 2) % 2 = 0 ∧ -2147483648 ≤ wrap32 (i + 2) ∧
            wrap32 (i + 2) ≤ 2147483646) := by
      intro i hi
      rw [decide_eq_true_iff]
      unfold wrap32
      omega
    unfold layer_conv1d_i32 at h
    rw [whileLoop32_none (fun i => decide (i ≤ wrap32 (2147483647 - 1))) 2 _
      (fun i => i % 2 = 0 ∧ -2147483648 ≤ i ∧ i ≤ 2147483646) hinv fuel 0 _
      ⟨by decide, by decide, by decide⟩] at h
    cases h
  · rintro ⟨fuel, r, h⟩
    have hinv : ∀ i : Int, True →
        decide (wrap32 (i + 1) ≤ 2147483647) = true ∧ True := by
      intro i _
      rw [decide_eq_true_iff]
      exact ⟨(wrap32_range _).2, trivial⟩
    unfold layer_maxpool1d_i32 at h
    rw [whileLoop32_none (fun i => decide (wrap32 (i + 1) ≤ 2147483647)) 2 _
      (fun _ => True) hinv fuel 0 _ trivial] at h
    cases h

/-- C17 (amended) at stride 3 with a kernel longer than the input, and for the pipeline. -/
theorem kernels_terminate_witness :
    (1 : Int) ≤ 3 ∧ INT_MIN ≤ (2 : Int) - 5 ∧ (((2 : Int) - 5) / 3 + 1) * 3 ≤ INT_MAX ∧
    (∃ r : Arr Int × Int,
      layer_conv1d_i32 1 (fun i => i) (fun _ => 0) (fun _ => 1) (fun _ => 0) 2 2 3 5 3
        = some r) ∧
    ∃ r : Int × HarState Int,
      run_har_inference_i32 489 bias_only_weights HarState.init = some r :=
  ⟨by decide, by decide, by decide,
    (kernels_terminate (fun i => (i : Int)) (fun _ => 0) (fun _ => 1) (fun _ => 0) 2 2 3 5 3
      (by decide) (by decide) (by decide) bias_only_weights HarState.init).1 1 (by decide),
    (kernels_terminate (fun i => (i : Int)) (fun _ => 0) (fun _ => 1) (fun _ => 0) 2 2 3 5 3
      (by decide) (by decide) (by decide) bias_only_weights
      HarState.init).2.2.2.2.2.2.2 489 (by decide)⟩

/-! ## C19: array accesses stay within the declared bounds -/

/-- C19: for `0 <= buffer_head < 64` (and fuel above 61) every array access of
`run_har_inference` is within the declared bounds of its array.  In detail:
`linearize_buffer` indexes rows `0 .. 63` of `input_buffer` and `dest[0 .. 383]`;
`layer_conv1d` touches input indices `<= 383`, weight indices `<= 191`, bias indices `<= 7`
and output indices `<= 487`; `layer_maxpool1d` touches `conv_output` indices `<= 479` and
`pool_output` indices `<= 239`; `layer_dense` touches input indices `<= 239`, weight
indices `<= 719` and output indices `<= 2`. -/
theorem run_har_inference_accesses_in_bounds (buffer_head : Int) (h0 : 0 ≤ buffer_head)
    (h1 : buffer_head < 64) (fuel : Nat) (hf : 61 < fuel) :
    (∃ tr : List Access,
      run_har_inference_trace fuel buffer_head = some tr ∧ ∀ a ∈ tr, in_bounds a) ∧
    (∀ a ∈ linearize_buffer_trace buffer_head Buf.linear_input [],
      in_bounds a ∧ within Buf.linear_input 383 a ∧
      ∀ i j, a = Access.at2 Buf.input_buffer i j → 0 ≤ i ∧ i ≤ 63) ∧
    (∃ tr : List Access,
      layer_conv1d_trace fuel Buf.linear_input Buf.conv_output Buf.conv_weights
          Buf.conv_biases HAR_WINDOW_SIZE HAR_CHANNELS CONV_FILTERS CONV_KERNEL CONV_STRIDE []
        = some (tr, CONV_OUTPUT_LEN) ∧
      ∀ a ∈ tr, within Buf.linear_input 383 a ∧ within Buf.conv_weights 191 a ∧
        within Buf.conv_biases 7 a ∧ within Buf.conv_output 487 a) ∧
    (∃ tr : List Access,
      layer_maxpool1d_trace fuel Buf.conv_output Buf.pool_output CONV_OUTPUT_LEN CONV_FILTERS
          POOL_SIZE POOL_STRIDE []
        = some (tr, POOL_OUTPUT_LEN) ∧
      ∀ a ∈ tr, within Buf.conv_output 479 a ∧ within Buf.pool_output 239 a) ∧
    (∀ a ∈ layer_dense_trace Buf.pool_output Buf.dense_output Buf.dense_weights
        Buf.dense_biases DENSE_INPUTS DENSE_OUTPUTS [],
      within Buf.pool_output 239 a ∧ within Buf.dense_weights 719 a ∧
        within Buf.dense_output 2 a) := by
  have hlen : declared_len Buf.input_buffer = 64 ∧ declared_len Buf.linear_input = 384 ∧
      declared_len Buf.conv_output = 488 ∧ declared_len Buf.pool_output = 240 ∧
      declared_len Buf.dense_output = 3 ∧ declared_len Buf.conv_weights = 192 ∧
      declared_len Buf.conv_biases = 8 ∧ declared_len Buf.dense_weights = 720 ∧
      declared_len Buf.dense_biases = 3 := by decide
  obtain ⟨l1, l2, l3, l4, l5, l6, l7, l8, l9⟩ := hlen
  have hch : HAR_CHANNELS = 6 := rfl
  refine ⟨?_, ?_, ?_, ?_, ?_⟩
  · -- the whole pipeline
    have s1 := linearize_buffer_trace_forall in_bounds buffer_head h0 h1 Buf.linear_input []
      (by simp)
      (by
        intro i c r hi0 hi1 hc0 hc1 hr0 hr1
        simp only [in_bounds, l1, l2, hch]
        omega)
    obtain ⟨t2, e2, s2⟩ := layer_conv1d_trace_fixed in_bounds fuel hf Buf.linear_input
      Buf.conv_output Buf.conv_weights Buf.conv_biases _ s1
      (by
        intro s f k c hs0 hs1 hf0 hf1 hk0 hk1 hc0 hc1
        simp only [in_bounds, l2, l3, l6, l7]
        omega)
    have s3 := layer_relu_trace_forall in_bounds Buf.conv_output
      (CONV_OUTPUT_LEN * CONV_FILTERS) t2 s2
      (by
        intro i hi0 hi1
        have : CONV_OUTPUT_LEN * CONV_FILTERS = 488 := by decide
        simp only [in_bounds, l3]
        omega)
    obtain ⟨t4, e4, s4⟩ := layer_maxpool1d_trace_fixed in_bounds fuel (by omega)
      Buf.conv_output Buf.pool_output _ s3
      (by
        intro s c p hs0 hs1 hc0 hc1 hp0 hp1
        simp only [in_bounds, l3, l4]
        omega)
    have s5 := layer_dense_trace_forall in_bounds Buf.pool_output Buf.dense_output
      Buf.dense_weights Buf.dense_biases 240 3 t4 s4
      (by
        intro o ho0 ho1
        simp only [in_bounds, l5, l9]
        omega)
      (by
        intro o i ho0 ho1 hi0 hi1
        simp only [in_bounds, l4, l8]
        omega)
    have s6 := run_har_inference_argmax_trace_forall in_bounds _ s5
      (by
        intro i hi0 hi1
        simp only [in_bounds, l5]
        omega)
    refine ⟨_, ?_, s6⟩
    unfold run_har_inference_trace
    simp only [HAR_WINDOW_SIZE, HAR_CHANNELS, CONV_FILTERS, CONV_KERNEL, CONV_STRIDE,
      POOL_SIZE, POOL_STRIDE]
    rw [e2]
    simp only [show CONV_OUTPUT_LEN = 61 from rfl, CONV_FILTERS] at e4 ⊢
    rw [e4]
    rfl
  · exact linearize_buffer_trace_forall
      (fun a => in_bounds a ∧ within Buf.linear_input 383 a ∧
        ∀ i j, a = Access.at2 Buf.input_buffer i j → 0 ≤ i ∧ i ≤ 63)
      buffer_head h0 h1 Buf.linear_input [] (by simp)
      (by
        intro i c r hi0 hi1 hc0 hc1 hr0 hr1
        simp only [in_bounds, within, l1, l2, hch, Access.at1.injEq, Access.at2.injEq,
          true_and, and_imp, forall_eq', reduceCtorEq, false_and, false_implies, implies_true,
          and_true, forall_apply_eq_imp_iff, forall_eq, IsEmpty.forall_iff]
        omega)
  · obtain ⟨t, e, ht⟩ := layer_conv1d_trace_fixed
      (fun a => within Buf.linear_input 383 a ∧ within Buf.conv_weights 191 a ∧
        within Buf.conv_biases 7 a ∧ within Buf.conv_output 487 a)
      fuel hf Buf.linear_input Buf.conv_output Buf.conv_weights Buf.conv_biases [] (by simp)
      (by
        intro s f k c hs0 hs1 hf0 hf1 hk0 hk1 hc0 hc1
        simp only [within, Access.at1.injEq, true_and, and_imp, forall_eq', reduceCtorEq,
          false_and, false_implies, implies_true, and_true, forall_eq, IsEmpty.forall_iff]
        omega)
    exact ⟨t, e, ht⟩
  · obtain ⟨t, e, ht⟩ := layer_maxpool1d_trace_fixed
      (fun a => within Buf.conv_output 479 a ∧ within Buf.pool_output 239 a)
      fuel (by omega) Buf.conv_output Buf.pool_output [] (by simp)
      (by
        intro s c p hs0 hs1 hc0 hc1 hp0 hp1
        simp only [within, Access.at1.injEq, true_and, and_imp, forall_eq', reduceCtorEq,
          false_and, false_implies, implies_true, and_true, forall_eq, IsEmpty.forall_iff]
        omega)
    exact ⟨t, e, ht⟩
  · exact layer_dense_trace_forall
      (fun a => within Buf.pool_output 239 a ∧ within Buf.dense_weights 719 a ∧
        within Buf.dense_output 2 a)
      Buf.pool_output Buf.dense_output Buf.dense_weights Buf.dense_biases 240 3 [] (by simp)
      (by
        intro o ho0 ho1
        simp only [within, Access.at1.injEq, true_and, and_imp, forall_eq', reduceCtorEq,
          false_and, false_implies, implies_true, and_true, forall_eq, IsEmpty.forall_iff]
        omega)
      (by
        intro o i ho0 ho1 hi0 hi1
        simp only [within, Access.at1.injEq, true_and, and_imp, forall_eq', reduceCtorEq,
          false_and, false_implies, implies_true, and_true, forall_eq, IsEmpty.forall_iff]
        omega)

/-- C19 at `buffer_head = 6` with fuel 62. -/
theorem run_har_inference_accesses_in_bounds_witness :
    (0 : Int) ≤ 6 ∧ (6 : Int) < 64 ∧ 61 < 62 ∧
    ∃ tr : List Access, run_har_inference_trace 62 6 = some tr ∧ ∀ a ∈ tr, in_bounds a :=
  ⟨by decide, by decide, by decide,
    (run_har_inference_accesses_in_bounds 6 (by decide) (by decide) 62 (by decide)).1⟩

/-! ## C20: the pooling sentinel inside the pipeline -/

/-- C20 (amended): in `run_har_inference` on `float` values with infinities and NaN (32-bit
`int` arithmetic, fuel above 488), with `conv` the array `layer_conv1d` has produced, for
each step `s` in `0 .. 29` and filter `f` in `0 .. 7`: if neither `conv[2s][f]` nor
`conv[2s+1][f]` is a NaN, the value of `pool_output` is the larger of
`relu(conv[2s][f])` and `relu(conv[2s+1][f])`, at least both and at least 0; and the value
of `pool_output` is the sentinel `-FLT_MAX` exactly when both convolution values are
NaN. -/
theorem run_har_inference_pool_nonneg (fuel : Nat) (hf : 488 < fuel) (w : HarWeights Flt)
    (s : HarState Flt) :
    ∃ (lin conv : Arr Flt) (r : Int) (s' : HarState Flt),
      linearize_buffer_i32 fuel s.input_buffer s.buffer_head s.linear_input = some lin ∧
      layer_conv1d_i32 fuel lin s.conv_output w.conv_weights w.conv_biases HAR_WINDOW_SIZE
          HAR_CHANNELS CONV_FILTERS CONV_KERNEL CONV_STRIDE
        = some (conv, CONV_OUTPUT_LEN) ∧
      run_har_inference_i32 fuel w s = some (r, s') ∧
      ∀ t f : Int, 0 ≤ t → t < 30 → 0 ≤ f → f < 8 →
        (conv ((2 * t) * 8 + f) ≠ Flt.nan → conv ((2 * t + 1) * 8 + f) ≠ Flt.nan →
          s'.pool_output (t * 8 + f)
            = (if relu_value (conv ((2 * t) * 8 + f))
                  < relu_value (conv ((2 * t + 1) * 8 + f))
                then relu_value (conv ((2 * t + 1) * 8 + f))
                else relu_value (conv ((2 * t) * 8 + f))) ∧
          relu_value (conv ((2 * t) * 8 + f)) ≤ s'.pool_output (t * 8 + f) ∧
          relu_value (conv ((2 * t + 1) * 8 + f)) ≤ s'.pool_output (t * 8 + f) ∧
          (0 : Flt) ≤ s'.pool_output (t * 8 + f)) ∧
        (s'.pool_output (t * 8 + f) = -FLT_MAX
          ↔ conv ((2 * t) * 8 + f) = Flt.nan ∧ conv ((2 * t + 1) * 8 + f) = Flt.nan) := by
  obtain ⟨hlin, hconv, hrun⟩ := run_har_inference_i32_stages fuel hf w s
  refine ⟨_, _, _, _, hlin, hconv, hrun, ?_⟩
  intro t f ht0 ht1 hf0 hf1
  dsimp only
  rw [stage_pool_apply w s t f ht0 ht1 hf0 hf1]
  exact flt_pool_pair_relu _ _

/-- C20 as stated fails when convolution values are NaN: with every sample `FLT_MAX` and
the weights `2` and `-2` on channels 0 and 1 of tap 0 of filter 0, the sums
`conv[0][0]` and `conv[1][0]` are `inf + (-inf) = NaN`; ReLU keeps a NaN (`NaN < 0` is
false), no comparison `val > max_val` of the pooling window holds, and `pool_output[0]` is
the sentinel `-FLT_MAX`, which is negative. -/
theorem run_har_inference_pool_sentinel_counterexample :
    ∃ (r : Int) (s' : HarState Flt),
      run_har_inference_i32 489 overflow_weights flt_max_state = some (r, s') ∧
      s'.pool_output (0 * 8 + 0) = -FLT_MAX ∧
      ¬ ((0 : Flt) ≤ s'.pool_output (0 * 8 + 0)) := by
  obtain ⟨-, -, hrun⟩ :=
    run_har_inference_i32_stages 489 (by decide) overflow_weights flt_max_state
  have hlin : ∀ j : Int, 0 ≤ j → j < 384 →
      linearize_buffer flt_max_state.input_buffer flt_max_state.buffer_head
        flt_max_state.linear_input j = FLT_MAX := by
    intro j h0 h1
    rw [linearize_buffer_eq_fill2_any,
      fill2_apply_inside 64 6 _ _ j (by decide) h0 (by norm_num; omega)]
    rfl
  have hconv : ∀ n : Nat, n < 2 →
      stage_conv overflow_weights flt_max_state ((n : Int) * 8 + 0) = Flt.nan := by
    intro n hn
    unfold stage_conv
    rw [fill2_inside 61 8 _ _ n 0 (by omega) (by decide) (by decide),
      conv_acc_congr _ (fun _ => (FLT_MAX : Flt)) _ _ 6 8 4 _ 0
        (fun k c hk0 hk1 hc0 hc1 => hlin _ (by omega) (by omega))]
    exact conv_acc_overflow _
  have h0 : stage_conv overflow_weights flt_max_state ((2 * 0) * 8 + 0) = Flt.nan :=
    hconv 0 (by decide)
  have h1 : stage_conv overflow_weights flt_max_state ((2 * 0 + 1) * 8 + 0) = Flt.nan :=
    hconv 1 (by decide)
  have hpool : stage_pool overflow_weights flt_max_state (0 * 8 + 0) = -FLT_MAX := by
    rw [stage_pool_apply overflow_weights flt_max_state 0 0 (by decide) (by decide)
      (by decide) (by decide)]
    exact (flt_pool_pair_relu _ _).2.mpr ⟨h0, h1⟩
  refine ⟨_, _, hrun, ?_, ?_⟩
  · dsimp only
    exact hpool
  · dsimp only
    rw [hpool]
    exact flt_sentinel_neg

/-- C20 (amended) at the all-`FLT_MAX` ring buffer with the all-zero weight set. -/
theorem run_har_inference_pool_nonneg_witness :
    488 < 489 ∧
    ∃ (lin conv : Arr Flt) (r : Int) (s' : HarState Flt),
      linearize_buffer_i32 489 flt_max_state.input_buffer flt_max_state.buffer_head
        flt_max_state.linear_input = some lin ∧
      layer_conv1d_i32 489 lin flt_max_state.conv_output bias_only_weights_flt.conv_weights
          bias_only_weights_flt.conv_biases HAR_WINDOW_SIZE HAR_CHANNELS CONV_FILTERS
          CONV_KERNEL CONV_STRIDE
        = some (conv, CONV_OUTPUT_LEN) ∧
      run_har_inference_i32 489 bias_only_weights_flt flt_max_state = some (r, s') ∧
      (s'.pool_output (3 * 8 + 5) = -FLT_MAX
        ↔ conv ((2 * 3) * 8 + 5) = Flt.nan ∧ conv ((2 * 3 + 1) * 8 + 5) = Flt.nan) :=
  ⟨by decide,
    (run_har_inference_pool_nonneg 489 (by decide) bias_only_weights_flt flt_max_state).imp
      (fun _ h => h.imp (fun _ h => h.imp (fun _ h => h.imp (fun _ h =>
        ⟨h.1, h.2.1, h.2.2.1,
          (h.2.2.2 3 5 (by decide) (by decide) (by decide) (by decide)).2⟩))))⟩

end Har
